import Mathlib

/-!
Verification of the shortest-path computation core
(`dijkstraalgorithm.py`, `bellmanfloydAlgo.py`, `floydwarshall.py`).

The Python code is shallowly embedded:
* vertices are any decidably-equal type (the scripts use string labels;
  a linear order is required where the code compares vertices inside
  heap entries);
* Python `dict`s are association lists (`aget` / `aset` mirror
  `d[k]` reads and `d[k] = v` writes, which update in place or append);
* the weight domain `Dist` models integer weights together with the
  sentinel `float('inf')`;
* `raise` is modelled with `Except PyErr`; the fuel-indexed loops return
  `none` when the fuel runs out, which models divergence of the
  corresponding Python `while` loop.
-/

set_option maxHeartbeats 1600000

namespace SPV

/-- Extended weight domain: the scripts use integer edge weights plus the
sentinel `float('inf')` for "unreachable".  `fin w` is a finite value,
`inf` is the sentinel. -/
inductive Dist where
  | fin (w : Int)
  | inf
deriving DecidableEq, Repr

/-- Addition on `Dist`, mirroring Python float arithmetic on
`{ints} ∪ {inf}`: `inf + x = x + inf = inf`. -/
def Dist.add : Dist → Dist → Dist
  | .fin a, .fin b => .fin (a + b)
  | _, _ => .inf

instance : Add Dist := ⟨Dist.add⟩

/-- Strict comparison on `Dist`, mirroring Python `<` on
`{ints} ∪ {inf}` (`inf < inf` is `False`). -/
def Dist.blt : Dist → Dist → Bool
  | .fin a, .fin b => decide (a < b)
  | .fin _, .inf => true
  | .inf, _ => false

instance : LT Dist := ⟨fun a b => Dist.blt a b = true⟩

instance : LE Dist := ⟨fun a b => Dist.blt b a = false⟩

instance (a b : Dist) : Decidable (a < b) :=
  inferInstanceAs (Decidable (Dist.blt a b = true))

instance (a b : Dist) : Decidable (a ≤ b) :=
  inferInstanceAs (Decidable (Dist.blt b a = false))

/-- The Python errors the three scripts can raise.  `negativeCycle` and
`emptyGraph` are the two `ValueError`s (distinct messages); `keyError` is a
dictionary `KeyError`. -/
inductive PyErr where
  | keyError
  | negativeCycle
  | emptyGraph
deriving DecidableEq, Repr

deriving instance DecidableEq for Except

section AssocList

variable {α : Type} {β : Type} [DecidableEq α]

/-- Dictionary read `m[k]`: `none` models a `KeyError`. -/
def aget : List (α × β) → α → Option β
  | [], _ => none
  | (k, v) :: rest, a => if k = a then some v else aget rest a

/-- Dictionary write `m[k] = v`: replaces the existing binding in place, or
appends a new one (Python dicts preserve insertion order). -/
def aset : List (α × β) → α → β → List (α × β)
  | [], a, b => [(a, b)]
  | (k, v) :: rest, a, b => if k = a then (k, b) :: rest else (k, v) :: aset rest a b

/-- Dictionary read with a default, used where the surrounding invariant
(closed vertex set) guarantees the key is present. -/
def agetD (m : List (α × β)) (a : α) (dflt : β) : β := (aget m a).getD dflt

end AssocList

section GraphDefs

variable {α : Type} [DecidableEq α]

/-- A graph as in the scripts: a dict mapping each vertex to its list of
`(neighbor, weight)` pairs. -/
abbrev Graph (α : Type) := List (α × List (α × Int))

/-- The vertex set (dict keys, in order). -/
def keys (g : Graph α) : List α := g.map Prod.fst

/-- Outgoing adjacency list of a vertex (`graph[u]`, defaulting to `[]`). -/
def adjOf (g : Graph α) (u : α) : List (α × Int) := agetD g u []

/-- All edges as `(origin, destination, weight)` triples, in iteration
order, as built by `bellman_ford_algorithm`. -/
def edgesOf : Graph α → List (α × α × Int)
  | [] => []
  | (u, adj) :: rest => adj.map (fun p => (u, p.1, p.2)) ++ edgesOf rest

/-- Well-formed graph: distinct keys (automatic for a Python dict) and a
closed vertex set (every edge destination is itself a key), the invariant
the data model imposes on `GraphModel`. -/
def WF (g : Graph α) : Prop :=
  (keys g).Nodup ∧ ∀ e ∈ edgesOf g, e.2.1 ∈ keys g

/-- All edge weights are non-negative. -/
def NN (g : Graph α) : Prop := ∀ e ∈ edgesOf g, 0 ≤ e.2.2

/-- No edge loops on its own origin. -/
def NoSelfLoop (g : Graph α) : Prop := ∀ e ∈ edgesOf g, e.1 ≠ e.2.1

instance (g : Graph α) : Decidable (WF g) := by unfold WF; infer_instance

instance (g : Graph α) : Decidable (NN g) := by unfold NN; infer_instance

instance (g : Graph α) : Decidable (NoSelfLoop g) := by unfold NoSelfLoop; infer_instance

/-- Distance dict, as produced by the single-source algorithms. -/
abbrev DTable (α : Type) := List (α × Dist)

/-- Predecessor dict, as produced by the single-source algorithms. -/
abbrev PTable (α : Type) := List (α × Option α)

/-- Distance-table lookup; a missing vertex reads as `inf` (the
closed-vertex-set invariant keeps the real code from ever hitting a
`KeyError` here). -/
def dval (d : DTable α) (v : α) : Dist := agetD d v Dist.inf

/-- Predecessor-table lookup; a missing vertex reads as `none`. -/
def pval (p : PTable α) (v : α) : Option α := (aget p v).getD none

/-- Initial distance dict `{v: float('inf') for v in graph}`. -/
def initD (g : Graph α) : DTable α := g.map (fun p => (p.1, Dist.inf))

/-- Initial predecessor dict `{v: None for v in graph}`. -/
def initP (g : Graph α) : PTable α := g.map (fun p => (p.1, (none : Option α)))

end GraphDefs

section BellmanFord

variable {α : Type} [DecidableEq α]

/-- One full relaxation pass of `bellman_ford_algorithm`: for every edge
`(u, v, w)` in order, if `distances[u] + w < distances[v]` update the
distance and the predecessor. -/
def bfPass (es : List (α × α × Int)) (d : DTable α) (p : PTable α) :
    DTable α × PTable α :=
  match es with
  | [] => (d, p)
  | (u, v, w) :: rest =>
      if (dval d u + Dist.fin w).blt (dval d v) then
        bfPass rest (aset d v (dval d u + Dist.fin w)) (aset p v (some u))
      else
        bfPass rest d p

/-- `n` relaxation passes. -/
def bfPassN (es : List (α × α × Int)) : Nat → DTable α → PTable α → DTable α × PTable α
  | 0, d, p => (d, p)
  | n + 1, d, p =>
      let dp := bfPass es d p
      bfPassN es n dp.1 dp.2

/-- The final check pass: is some edge still relaxable? -/
def bfCheck (es : List (α × α × Int)) (d : DTable α) : Bool :=
  es.any (fun e => (dval d e.1 + Dist.fin e.2.2).blt (dval d e.2.1))

/-- `bellman_ford_algorithm(graph, source)` from `bellmanfloydAlgo.py`:
initialize distances to `inf` (source to `0`) and predecessors to `None`,
relax all edges `|V| - 1` times, then raise `ValueError` (modelled as
`PyErr.negativeCycle`) if any edge still relaxes. -/
def bellman_ford_algorithm (g : Graph α) (s : α) :
    Except PyErr (DTable α × PTable α) :=
  let d0 := aset (initD g) s (Dist.fin 0)
  let p0 := initP g
  let es := edgesOf g
  let dp := bfPassN es (g.length - 1) d0 p0
  if bfCheck es dp.1 then .error .negativeCycle else .ok dp

end BellmanFord

section Reconstruct

variable {α : Type} [DecidableEq α]

/-- Loop body of `reconstruct_path` (identical in `dijkstraalgorithm.py`
and `bellmanfloydAlgo.py`): prepend the current vertex, follow its
predecessor, stop at `None`.  A missing key is a `KeyError`; running out
of fuel (`none`) models divergence. -/
def recAux (p : PTable α) : Nat → α → List α → Option (Except PyErr (List α))
  | 0, _, _ => none
  | fuel + 1, cur, acc =>
      match aget p cur with
      | none => some (.error .keyError)
      | some none => some (.ok (cur :: acc))
      | some (some u) => recAux p fuel u (cur :: acc)

/-- `reconstruct_path(predecessors, target)`: walk predecessor links
backward from the target, prepending each vertex.  A predecessor chain
visits distinct keys, so `p.length + 1` steps of fuel are exhausted only
if the chain is cyclic (in which case the Python loop diverges). -/
def reconstruct_path (p : PTable α) (t : α) : Option (Except PyErr (List α)) :=
  recAux p (p.length + 1) t []

end Reconstruct

section DijkstraDefs

variable {α : Type} [LinearOrder α]

/-- Lexicographic comparison of heap entries `(distance, vertex)`, the
order Python tuples compare in. -/
def lexLt (a b : Int × α) : Bool :=
  decide (a.1 < b.1) || (decide (a.1 = b.1) && decide (a.2 < b.2))

/-- Extract a minimal entry (`heapq.heappop`): returns the popped entry and
the remaining queue.  Entries that compare equal are interchangeable, so
taking the leftmost minimum is extensionally faithful to the binary heap. -/
def popMin : List (Int × α) → Option ((Int × α) × List (Int × α))
  | [] => none
  | x :: xs =>
      match popMin xs with
      | none => some (x, [])
      | some (m, rest) => if lexLt m x then some (m, x :: rest) else some (x, xs)

/-- Relax all outgoing edges of the popped vertex `u` at distance `c`
(the loop `for neighbor, weight in graph[current_vertex]`), pushing each
improved `(new_distance, neighbor)` entry. -/
def relaxNbrs (u : α) (c : Int) :
    List (α × Int) → List (Int × α) → DTable α → PTable α →
    List (Int × α) × DTable α × PTable α
  | [], pq, d, p => (pq, d, p)
  | (v, w) :: rest, pq, d, p =>
      if (Dist.fin (c + w)).blt (dval d v) then
        relaxNbrs u c rest (pq ++ [(c + w, v)]) (aset d v (Dist.fin (c + w)))
          (aset p v (some u))
      else
        relaxNbrs u c rest pq d p

/-- The main loop of `dijkstra_algorithm`, fuel-indexed.  `none` models a
run that exceeds the fuel (the Python loop can diverge on negative
weights); `some (.error .keyError)` models the `KeyError` raised by
`graph[current_vertex]` when the popped vertex is not a key. -/
def dijkstraAux (g : Graph α) :
    Nat → List (Int × α) → DTable α → PTable α →
    Option (Except PyErr (DTable α × PTable α))
  | 0, _, _, _ => none
  | fuel + 1, pq, d, p =>
      match popMin pq with
      | none => some (.ok (d, p))
      | some ((c, u), rest) =>
          if (dval d u).blt (Dist.fin c) then
            -- stale entry: current_distance > distances[current_vertex]
            dijkstraAux g fuel rest d p
          else
            match aget g u with
            | none => some (.error .keyError)
            | some adj =>
                let t := relaxNbrs u c adj rest d p
                dijkstraAux g fuel t.1 t.2.1 t.2.2

/-- Fuel that provably suffices on well-formed graphs with non-negative
weights: one iteration per queue entry, at most `1 + |E|` entries ever
pushed, plus one final iteration on the empty queue. -/
def dijkstraFuel (g : Graph α) : Nat := g.length + (edgesOf g).length + 2

/-- `dijkstra_algorithm(graph, source)` from `dijkstraalgorithm.py`:
priority queue seeded with `(0, source)`, distances initialized to `inf`
(source to `0`), predecessors to `None`, then the lazy-deletion loop. -/
def dijkstra_algorithm (g : Graph α) (s : α) :
    Option (Except PyErr (DTable α × PTable α)) :=
  dijkstraAux g (dijkstraFuel g) [(0, s)] (aset (initD g) s (Dist.fin 0)) (initP g)

end DijkstraDefs

section FloydWarshallDefs

variable {α : Type} [DecidableEq α]

/-- Distance matrix, keyed by vertex (the script keys by index through
`vertex_indices`; with distinct keys the translation is a bijection). -/
abbrev Mat (α : Type) := α → α → Dist

/-- Next-hop matrix for path reconstruction. -/
abbrev NMat (α : Type) := α → α → Option α

/-- Single matrix-cell write `m[i][j] = v`. -/
def mupd {β : Type} (m : α → α → β) (i j : α) (v : β) : α → α → β :=
  fun x y => if x = i then (if y = j then v else m x y) else m x y

/-- Zero diagonal initialization (`distances[i][i] = 0`), folded over the
vertex list as the script's loop does. -/
def fwDiag (vs : List α) : Mat α :=
  vs.foldl (fun m v => mupd m v v (Dist.fin 0)) (fun _ _ => Dist.inf)

/-- Inner loop of the edge initialization: write the edges of one
adjacency list in order (`distances[i][j] = weight;
next_vertex[i][j] = destination`); a later edge between the same ordered
pair overwrites an earlier one. -/
def fwInitAdj (u : α) : List (α × Int) → Mat α × NMat α → Mat α × NMat α
  | [], mn => mn
  | (v, w) :: rest, mn =>
      fwInitAdj u rest (mupd mn.1 u v (Dist.fin w), mupd mn.2 u v (some v))

/-- Populate initial distances and next hops from every adjacency list in
dict order. -/
def fwInitEdges : Graph α → Mat α × NMat α → Mat α × NMat α
  | [], mn => mn
  | (u, adj) :: rest, mn => fwInitEdges rest (fwInitAdj u adj mn)

/-- The initial matrices of `floyd_warshall_algorithm` (diagonal zeros,
then direct edges). -/
def fwInit (g : Graph α) : Mat α × NMat α :=
  fwInitEdges g (fwDiag (keys g), fun _ _ => none)

/-- Innermost update of the triple loop: for intermediate `k`, source
`i`, destination `j`, relax `distances[i][j]` through `k` and reroute
`next_vertex[i][j] = next_vertex[i][k]`. -/
def fwCell (k i : α) (mn : Mat α × NMat α) (j : α) : Mat α × NMat α :=
  if ((mn.1 i k).add (mn.1 k j)).blt (mn.1 i j) then
    (mupd mn.1 i j ((mn.1 i k).add (mn.1 k j)), mupd mn.2 i j (mn.2 i k))
  else mn

/-- The inner `j` loop for a fixed intermediate `k` and source `i`. -/
def fwRow (k : α) (vs : List α) (mn : Mat α × NMat α) (i : α) : Mat α × NMat α :=
  vs.foldl (fwCell k i) mn

/-- Inner double loop of one Floyd-Warshall stage: for fixed intermediate
`k`, update every pair `(i, j)` in order. -/
def fwStepK (vs : List α) (k : α) (mn : Mat α × NMat α) : Mat α × NMat α :=
  vs.foldl (fwRow k vs) mn

/-- The triple loop: every vertex in order as the intermediate. -/
def fwLoop (vs : List α) (mn : Mat α × NMat α) : Mat α × NMat α :=
  vs.foldl (fun mn k => fwStepK vs k mn) mn

/-- `floyd_warshall_algorithm(graph)` from `floydwarshall.py`: raise
`ValueError` (modelled `PyErr.emptyGraph`) on an empty graph, otherwise
run the dynamic program and return `(distances, next_vertex, vertices)`. -/
def floyd_warshall_algorithm (g : Graph α) :
    Except PyErr (Mat α × NMat α × List α) :=
  if g.isEmpty then .error .emptyGraph
  else
    let mn := fwLoop (keys g) (fwInit g)
    .ok (mn.1, mn.2, keys g)

/-- Loop body of `floydwarshall.py`'s `reconstruct_path`: while the
current vertex differs from `end`, step to `next_vertex[current][end]`
and append it.  A `None` entry or an off-list vertex hits
`vertex_indices[...]` as a `KeyError`; exhausted fuel (`none`) models
divergence of the `while` loop. -/
def fwRecAux (nm : NMat α) (vs : List α) (tgt : α) :
    Nat → α → List α → Option (Except PyErr (List α))
  | 0, _, _ => none
  | fuel + 1, cur, acc =>
      if cur = tgt then some (.ok acc)
      else
        match nm cur tgt with
        | none => some (.error .keyError)
        | some v =>
            if v ∈ vs then fwRecAux nm vs tgt fuel v (acc ++ [v])
            else some (.error .keyError)

/-- `reconstruct_path(next_vertex, vertices, start, end)` from
`floydwarshall.py` (renamed: the predecessor-based `reconstruct_path`
shares its Python name).  Unknown endpoints raise `KeyError`; a `None`
first hop reports no path; otherwise walk forward.  The `while` loop is
unbounded in the script, so the walk is run on explicit fuel: `none`
means the loop is still running after `fuel` iterations. -/
def reconstruct_path_fw (nm : NMat α) (vs : List α) (s e : α) (fuel : Nat) :
    Option (Except PyErr (List α)) :=
  if s ∈ vs ∧ e ∈ vs then
    match nm s e with
    | none => some (.ok [])
    | some _ => fwRecAux nm vs e fuel s [s]
  else some (.error .keyError)

end FloydWarshallDefs

section DistLemmas

theorem Dist.lt_def {a b : Dist} : a < b ↔ Dist.blt a b = true := Iff.rfl

theorem Dist.le_def {a b : Dist} : a ≤ b ↔ Dist.blt b a = false := Iff.rfl

@[simp] theorem Dist.not_inf_lt (b : Dist) : ¬ (Dist.inf < b) := by
  cases b <;> simp [Dist.lt_def, Dist.blt]

@[simp] theorem Dist.fin_lt_fin {a b : Int} : Dist.fin a < Dist.fin b ↔ a < b := by
  simp [Dist.lt_def, Dist.blt]

@[simp] theorem Dist.fin_lt_inf (a : Int) : Dist.fin a < Dist.inf := by
  simp [Dist.lt_def, Dist.blt]

@[simp] theorem Dist.le_inf (a : Dist) : a ≤ Dist.inf := by
  cases a <;> simp [Dist.le_def, Dist.blt]

@[simp] theorem Dist.fin_le_fin {a b : Int} : Dist.fin a ≤ Dist.fin b ↔ a ≤ b := by
  simp [Dist.le_def, Dist.blt]

@[simp] theorem Dist.not_inf_le_fin (b : Int) : ¬ (Dist.inf ≤ Dist.fin b) := by
  simp [Dist.le_def, Dist.blt]

theorem Dist.not_lt {a b : Dist} : ¬ a < b ↔ b ≤ a := by
  simp [Dist.lt_def, Dist.le_def]

theorem Dist.le_refl (a : Dist) : a ≤ a := by
  cases a <;> simp

theorem Dist.le_trans {a b c : Dist} (h1 : a ≤ b) (h2 : b ≤ c) : a ≤ c := by
  cases a <;> cases b <;> cases c <;> simp_all <;> omega

theorem Dist.le_antisymm {a b : Dist} (h1 : a ≤ b) (h2 : b ≤ a) : a = b := by
  cases a <;> cases b <;> simp_all <;> omega

theorem Dist.le_of_lt {a b : Dist} (h : a < b) : a ≤ b := by
  cases a <;> cases b <;> simp_all <;> omega

theorem Dist.lt_of_le_of_lt {a b c : Dist} (h1 : a ≤ b) (h2 : b < c) : a < c := by
  cases a <;> cases b <;> cases c <;> simp_all <;> omega

theorem Dist.lt_of_lt_of_le {a b c : Dist} (h1 : a < b) (h2 : b ≤ c) : a < c := by
  cases a <;> cases b <;> cases c <;> simp_all <;> omega

theorem Dist.lt_irrefl (a : Dist) : ¬ a < a := by
  cases a <;> simp

@[simp] theorem Dist.fin_add_fin (a b : Int) :
    Dist.fin a + Dist.fin b = Dist.fin (a + b) := rfl

@[simp] theorem Dist.inf_add (b : Dist) : Dist.inf + b = Dist.inf := rfl

@[simp] theorem Dist.add_inf (a : Dist) : a + Dist.inf = Dist.inf := by
  cases a <;> rfl

theorem Dist.add_right_mono {a b : Dist} (c : Dist) (h : a ≤ b) : a + c ≤ b + c := by
  cases a <;> cases b <;> cases c <;> simp_all <;> omega

theorem Dist.add_left_mono {a b : Dist} (c : Dist) (h : a ≤ b) : c + a ≤ c + b := by
  cases a <;> cases b <;> cases c <;> simp_all <;> omega

theorem Dist.add_fin_assoc (a : Dist) (b c : Int) :
    a + Dist.fin b + Dist.fin c = a + Dist.fin (b + c) := by
  cases a <;> simp <;> omega

theorem Dist.add_fin_comm_assoc (a : Dist) (b c : Int) :
    a + Dist.fin b + Dist.fin c = a + Dist.fin c + Dist.fin b := by
  cases a <;> simp <;> omega

theorem Dist.ne_inf_iff {a : Dist} : a ≠ Dist.inf ↔ ∃ w, a = Dist.fin w := by
  cases a with
  | fin w => simp
  | inf => simp

theorem Dist.le_fin_ne_inf {a : Dist} {b : Int} (h : a ≤ Dist.fin b) : a ≠ Dist.inf := by
  cases a <;> simp_all

theorem Dist.add_assoc (a b c : Dist) : a + b + c = a + (b + c) := by
  cases a <;> cases b <;> cases c <;> simp <;> omega

end DistLemmas

section AssocLemmas

variable {α : Type} {β : Type} [DecidableEq α]

theorem aget_aset_self (m : List (α × β)) (k : α) (v : β) :
    aget (aset m k v) k = some v := by
  induction m with
  | nil => simp [aset, aget]
  | cons h t ih =>
      by_cases hk : h.1 = k <;> simp [aset, aget, hk, ih]

theorem aget_aset_ne (m : List (α × β)) {k a : α} (v : β) (h : k ≠ a) :
    aget (aset m k v) a = aget m a := by
  induction m with
  | nil => simp [aset, aget, h]
  | cons hd t ih =>
      by_cases hk : hd.1 = k
      · simp [aset, aget, hk, h]
      · simp only [aset, hk, if_false]
        by_cases ha : hd.1 = a <;> simp [aget, ha, ih]

theorem aget_eq_none_iff (m : List (α × β)) (a : α) :
    aget m a = none ↔ a ∉ m.map Prod.fst := by
  induction m with
  | nil => simp [aget]
  | cons h t ih =>
      by_cases hk : h.1 = a
      · subst hk
        simp [aget]
      · have hne : ¬ a = h.1 := fun hc => hk hc.symm
        simp [aget, hk, ih, hne]

theorem aget_isSome_of_mem (m : List (α × β)) (a : α) (h : a ∈ m.map Prod.fst) :
    ∃ b, aget m a = some b := by
  cases hg : aget m a with
  | some b => exact ⟨b, rfl⟩
  | none => exact absurd ((aget_eq_none_iff m a).1 hg) (by simp [h])

theorem aget_mem (m : List (α × β)) {a : α} {b : β} (h : aget m a = some b) :
    (a, b) ∈ m := by
  induction m with
  | nil => simp [aget] at h
  | cons hd t ih =>
      by_cases hk : hd.1 = a
      · simp [aget, hk] at h
        have hhd : hd = (a, b) := by
          cases hd
          simp_all
        rw [← hhd]
        exact List.mem_cons_self _ _
      · simp [aget, hk] at h
        exact List.mem_cons_of_mem _ (ih h)

theorem aget_of_mem_nodup (m : List (α × β)) {a : α} {b : β}
    (hm : (a, b) ∈ m) (hn : (m.map Prod.fst).Nodup) : aget m a = some b := by
  induction m with
  | nil => simp at hm
  | cons hd t ih =>
      simp only [List.map_cons, List.nodup_cons] at hn
      rcases List.mem_cons.1 hm with h | h
      · rw [← h]; simp [aget]
      · have ha : hd.1 ≠ a := by
          intro hc
          exact hn.1 (hc ▸ (List.mem_map.2 ⟨(a, b), h, rfl⟩))
        simp [aget, ha, ih h hn.2]

theorem keys_aset_mem (m : List (α × β)) {k : α} (v : β) :
    (aset m k v).map Prod.fst = if k ∈ m.map Prod.fst then m.map Prod.fst
      else m.map Prod.fst ++ [k] := by
  induction m with
  | nil => simp [aset]
  | cons hd t ih =>
      by_cases hk : hd.1 = k
      · simp [aset, hk]
      · have : ¬ k = hd.1 := fun hc => hk hc.symm
        simp only [aset, hk, if_false, List.map_cons, ih]
        by_cases hmem : k ∈ t.map Prod.fst <;> simp [hmem, this]

theorem mem_keys_aset (m : List (α × β)) (k a : α) (v : β) :
    a ∈ (aset m k v).map Prod.fst ↔ a ∈ m.map Prod.fst ∨ a = k := by
  rw [keys_aset_mem]
  by_cases hmem : k ∈ m.map Prod.fst
  · simp only [hmem, if_true]
    constructor
    · exact Or.inl
    · rintro (h | rfl) <;> [exact h; exact hmem]
  · simp [hmem]

theorem dval_aset_self (d : DTable α) (k : α) (v : Dist) :
    dval (aset d k v) k = v := by
  simp [dval, agetD, aget_aset_self]

theorem dval_aset_ne (d : DTable α) {k a : α} (v : Dist) (h : k ≠ a) :
    dval (aset d k v) a = dval d a := by
  simp [dval, agetD, aget_aset_ne _ _ h]

theorem pval_aset_self (p : PTable α) (k : α) (v : Option α) :
    pval (aset p k v) k = v := by
  simp [pval, aget_aset_self]

theorem pval_aset_ne (p : PTable α) {k a : α} (v : Option α) (h : k ≠ a) :
    pval (aset p k v) a = pval p a := by
  simp [pval, aget_aset_ne _ _ h]

end AssocLemmas

section InitLemmas

variable {α : Type} [DecidableEq α]

theorem aget_initD (g : Graph α) (v : α) :
    aget (initD g) v = if v ∈ keys g then some Dist.inf else none := by
  induction g with
  | nil => simp [initD, aget, keys]
  | cons h t ih =>
      by_cases hk : h.1 = v
      · simp [initD, aget, hk, keys]
      · have hne : ¬ v = h.1 := fun hc => hk hc.symm
        simp only [initD, List.map_cons, aget, hk, if_false, keys, List.mem_cons, hne,
          false_or]
        simpa [initD, keys] using ih

theorem dval_initD (g : Graph α) (v : α) : dval (initD g) v = Dist.inf := by
  simp [dval, agetD, aget_initD]
  by_cases h : v ∈ keys g <;> simp [h]

theorem aget_initP (g : Graph α) (v : α) :
    aget (initP g) v = if v ∈ keys g then some none else none := by
  induction g with
  | nil => simp [initP, aget, keys]
  | cons h t ih =>
      by_cases hk : h.1 = v
      · simp [initP, aget, hk, keys]
      · have hne : ¬ v = h.1 := fun hc => hk hc.symm
        simp only [initP, List.map_cons, aget, hk, if_false, keys, List.mem_cons, hne,
          false_or]
        simpa [initP, keys] using ih

theorem pval_initP (g : Graph α) (v : α) : pval (initP g) v = none := by
  simp [pval, aget_initP]
  by_cases h : v ∈ keys g <;> simp [h]

theorem keys_initD (g : Graph α) : (initD g).map Prod.fst = keys g := by
  simp [initD, keys]

theorem keys_initP (g : Graph α) : (initP g).map Prod.fst = keys g := by
  simp [initP, keys]

end InitLemmas

section GraphLemmas

variable {α : Type} [DecidableEq α]

theorem mem_edgesOf {g : Graph α} {u v : α} {w : Int} :
    (u, v, w) ∈ edgesOf g ↔ ∃ adj, (u, adj) ∈ g ∧ (v, w) ∈ adj := by
  induction g with
  | nil => simp [edgesOf]
  | cons h t ih =>
      cases h with
      | mk x adj =>
          simp only [edgesOf, List.mem_append, List.mem_map, ih, List.mem_cons]
          constructor
          · rintro (⟨⟨pv, pw⟩, hp, he⟩ | ⟨a, ha, hm⟩)
            · cases he
              exact ⟨adj, Or.inl rfl, hp⟩
            · exact ⟨a, Or.inr ha, hm⟩
          · rintro ⟨a, (ha | ha), hm⟩
            · injection ha with hx hadj
              subst hx
              subst hadj
              exact Or.inl ⟨(v, w), hm, rfl⟩
            · exact Or.inr ⟨a, ha, hm⟩

theorem edge_fst_mem_keys {g : Graph α} {u v : α} {w : Int}
    (h : (u, v, w) ∈ edgesOf g) : u ∈ keys g := by
  rcases mem_edgesOf.1 h with ⟨adj, hadj, _⟩
  exact List.mem_map.2 ⟨(u, adj), hadj, rfl⟩

theorem edge_snd_mem_keys {g : Graph α} (hw : WF g) {u v : α} {w : Int}
    (h : (u, v, w) ∈ edgesOf g) : v ∈ keys g := hw.2 _ h

theorem adjOf_mem_edgesOf {g : Graph α} {u v : α} {w : Int}
    (h : (v, w) ∈ adjOf g u) : (u, v, w) ∈ edgesOf g := by
  unfold adjOf agetD at h
  cases hg : aget g u with
  | none => rw [hg] at h; simp at h
  | some adj =>
      rw [hg] at h
      exact mem_edgesOf.2 ⟨adj, aget_mem _ hg, h⟩

theorem mem_adjOf_of_edge {g : Graph α} (hw : WF g) {u v : α} {w : Int}
    (h : (u, v, w) ∈ edgesOf g) : (v, w) ∈ adjOf g u := by
  rcases mem_edgesOf.1 h with ⟨adj, hadj, hm⟩
  have : aget g u = some adj := aget_of_mem_nodup _ hadj hw.1
  simp [adjOf, agetD, this, hm]

theorem length_keys (g : Graph α) : (keys g).length = g.length := by
  simp [keys]

end GraphLemmas

section Walks

variable {α : Type} [DecidableEq α]

/-- A walk from `s` to `t` in `g`: each hop `(v, w)` travels an edge of
weight `w` to vertex `v`. -/
def IsWalk (g : Graph α) : α → List (α × Int) → α → Prop
  | s, [], t => s = t
  | s, (v, w) :: rest, t => (s, v, w) ∈ edgesOf g ∧ IsWalk g v rest t

/-- Total weight of a walk. -/
def walkW : List (α × Int) → Int
  | [] => 0
  | (_, w) :: rest => w + walkW rest

/-- The vertices a walk from `s` visits strictly before its endpoint. -/
def innerV (steps : List (α × Int)) : List α := (steps.map Prod.fst).dropLast

/-- `v` is reachable from `s`. -/
def Reachable (g : Graph α) (s v : α) : Prop := ∃ steps, IsWalk g s steps v

/-- No closed walk of the graph has negative total weight. -/
def NoNegCycle (g : Graph α) : Prop :=
  ∀ u steps, IsWalk g u steps u → 0 ≤ walkW steps

/-- No closed walk through a vertex reachable from `s` has negative total
weight (negative cycles in unreachable components are allowed). -/
def NoNegFrom (g : Graph α) (s : α) : Prop :=
  ∀ u, Reachable g s u → ∀ steps, IsWalk g u steps u → 0 ≤ walkW steps

theorem noNegFrom_of_noNegCycle {g : Graph α} (h : NoNegCycle g) (s : α) :
    NoNegFrom g s := fun u _ steps hw => h u steps hw

@[simp] theorem walkW_nil : walkW ([] : List (α × Int)) = 0 := rfl

theorem walkW_append (a b : List (α × Int)) :
    walkW (a ++ b) = walkW a + walkW b := by
  induction a with
  | nil => simp [walkW]
  | cons h t ih => cases h; simp [walkW, ih]; omega

theorem isWalk_nil {g : Graph α} {s t : α} : IsWalk g s [] t ↔ s = t := Iff.rfl

theorem isWalk_append {g : Graph α} {s m t : α} {a b : List (α × Int)}
    (h1 : IsWalk g s a m) (h2 : IsWalk g m b t) : IsWalk g s (a ++ b) t := by
  induction a generalizing s with
  | nil => rwa [isWalk_nil.1 h1]
  | cons hd rest ih =>
      cases hd
      exact ⟨h1.1, ih h1.2⟩

theorem isWalk_append_split {g : Graph α} {s t : α} {a b : List (α × Int)}
    (h : IsWalk g s (a ++ b) t) : ∃ m, IsWalk g s a m ∧ IsWalk g m b t := by
  induction a generalizing s with
  | nil => exact ⟨s, rfl, h⟩
  | cons hd rest ih =>
      cases hd
      rcases ih h.2 with ⟨m, hm1, hm2⟩
      exact ⟨m, ⟨h.1, hm1⟩, hm2⟩

theorem isWalk_single {g : Graph α} {m v t : α} {w : Int} :
    IsWalk g m [(v, w)] t ↔ (m, v, w) ∈ edgesOf g ∧ v = t := Iff.rfl

theorem walk_getLast {g : Graph α} {s t : α} {steps : List (α × Int)}
    (h : IsWalk g s steps t) (hne : steps ≠ []) :
    (steps.map Prod.fst).getLast? = some t := by
  induction steps generalizing s with
  | nil => exact absurd rfl hne
  | cons hd rest ih =>
      cases hd with
      | mk v w =>
          cases rest with
          | nil => simp [isWalk_nil.1 h.2]
          | cons hd2 rest2 =>
              have hrec := ih h.2 (by simp)
              simp only [List.map_cons] at hrec ⊢
              rw [List.getLast?_cons_cons]
              exact hrec

theorem walk_fst_mem_keys {g : Graph α} (hw : WF g) {s t : α}
    {steps : List (α × Int)} (h : IsWalk g s steps t) :
    ∀ x ∈ steps.map Prod.fst, x ∈ keys g := by
  induction steps generalizing s with
  | nil => simp
  | cons hd rest ih =>
      cases hd with
      | mk v w =>
          intro x hx
          rcases List.mem_cons.1 hx with hx | hx
          · exact hx ▸ edge_snd_mem_keys hw h.1
          · exact ih h.2 x hx

theorem walk_start_mem_keys {g : Graph α} {s t : α} {v : α} {w : Int}
    {rest : List (α × Int)} (h : IsWalk g s ((v, w) :: rest) t) : s ∈ keys g :=
  edge_fst_mem_keys h.1

theorem reachable_extend {g : Graph α} {s u x : α}
    (h : Reachable g s u) {steps : List (α × Int)} (hw : IsWalk g u steps x) :
    Reachable g s x := by
  rcases h with ⟨a, ha⟩
  exact ⟨a ++ steps, isWalk_append ha hw⟩

theorem walkW_nonneg_of_NN {g : Graph α} (hn : NN g) {u v : α}
    {steps : List (α × Int)} (h : IsWalk g u steps v) : 0 ≤ walkW steps := by
  induction steps generalizing u with
  | nil => simp [walkW]
  | cons hd rest ih =>
      cases hd with
      | mk x w =>
          have h1 : 0 ≤ w := hn _ h.1
          have h2 := ih h.2
          simp only [walkW]
          omega

theorem noNegCycle_of_NN {g : Graph α} (hn : NN g) : NoNegCycle g :=
  fun _ _ h => walkW_nonneg_of_NN hn h

theorem exists_split_of_map {β γ : Type} (f : β → γ) :
    ∀ (u : List γ) (l : List β) (w : List γ), l.map f = u ++ w →
      ∃ t1 t2, l = t1 ++ t2 ∧ t1.map f = u ∧ t2.map f = w := by
  intro u
  induction u with
  | nil => exact fun l w h => ⟨[], l, rfl, rfl, h⟩
  | cons c u' ih =>
      intro l w h
      cases l with
      | nil => simp at h
      | cons b l' =>
          simp only [List.map_cons, List.cons_append, List.cons.injEq] at h
          rcases ih l' w h.2 with ⟨t1, t2, ht, hm1, hm2⟩
          exact ⟨b :: t1, t2, by rw [ht]; rfl, by simp [hm1, h.1], hm2⟩

theorem exists_dup_split {β : Type} :
    ∀ (l : List β), ¬ l.Nodup → ∃ x l1 l2 l3, l = l1 ++ x :: l2 ++ x :: l3 := by
  intro l
  induction l with
  | nil => intro h; exact absurd List.nodup_nil h
  | cons a t ih =>
      intro h
      rw [List.nodup_cons] at h
      by_cases hmem : a ∈ t
      · rcases List.append_of_mem hmem with ⟨s1, s2, rfl⟩
        exact ⟨a, [], s1, s2, rfl⟩
      · have hnd : ¬ t.Nodup := fun hc => h ⟨hmem, hc⟩
        rcases ih hnd with ⟨x, l1, l2, l3, rfl⟩
        exact ⟨x, a :: l1, l2, l3, rfl⟩

/-- Split a walk where its hop sequence decomposes at a named vertex. -/
theorem walk_split_of_map {g : Graph α} {s t x : α} {steps : List (α × Int)}
    {m1 m2 : List α} (h : IsWalk g s steps t)
    (hm : steps.map Prod.fst = m1 ++ x :: m2) :
    ∃ t1 t2, steps = t1 ++ t2 ∧ t1.map Prod.fst = m1 ++ [x] ∧
      t2.map Prod.fst = m2 ∧ IsWalk g s t1 x ∧ IsWalk g x t2 t := by
  have hm' : steps.map Prod.fst = (m1 ++ [x]) ++ m2 := by
    rw [hm]
    simp
  rcases exists_split_of_map Prod.fst (m1 ++ [x]) steps m2 hm' with
    ⟨t1, t2, rfl, hmap1, hmap2⟩
  rcases isWalk_append_split h with ⟨m, h1, h2⟩
  have hne : t1 ≠ [] := by
    intro hc
    rw [hc] at hmap1
    exact absurd hmap1.symm (by simp)
  have hlast := walk_getLast h1 hne
  rw [hmap1, List.getLast?_concat] at hlast
  injection hlast with hxm
  subst hxm
  exact ⟨t1, t2, rfl, hmap1, hmap2, h1, h2⟩

theorem walk_shorten_aux {g : Graph α} (hw : WF g) {s : α} (hng : NoNegFrom g s)
    (hs : s ∈ keys g) :
    ∀ n {v : α} {steps : List (α × Int)}, steps.length ≤ n → IsWalk g s steps v →
      ∃ t, IsWalk g s t v ∧ walkW t ≤ walkW steps ∧ t.length + 1 ≤ g.length := by
  have hg1 : 1 ≤ g.length := by
    have : keys g ≠ [] := List.ne_nil_of_mem hs
    have := List.length_pos.2 this
    rw [length_keys] at this
    omega
  intro n
  induction n with
  | zero =>
      intro v steps hlen h
      have : steps = [] := List.length_eq_zero.1 (Nat.le_zero.1 hlen)
      subst this
      exact ⟨[], h, le_refl _, hg1⟩
  | succ n ih =>
      intro v steps hlen h
      by_cases hbound : steps.length + 1 ≤ g.length
      · exact ⟨steps, h, le_refl _, hbound⟩
      · have hnd : ¬ (s :: steps.map Prod.fst).Nodup := by
          intro hc
          have h1 : (s :: steps.map Prod.fst).toFinset.card =
              (s :: steps.map Prod.fst).length := List.toFinset_card_of_nodup hc
          have h2 : (s :: steps.map Prod.fst).toFinset ⊆ (keys g).toFinset := by
            intro a ha
            rw [List.mem_toFinset] at ha ⊢
            rcases List.mem_cons.1 ha with rfl | ha
            · exact hs
            · exact walk_fst_mem_keys hw h a ha
          have h3 := Finset.card_le_card h2
          have h4 : (keys g).toFinset.card ≤ (keys g).length :=
            List.toFinset_card_le (keys g)
          rw [h1] at h3
          simp only [List.length_cons, List.length_map] at h3
          rw [length_keys] at h4
          omega
        rcases exists_dup_split _ hnd with ⟨x, l1, l2, l3, hsplit⟩
        cases l1 with
        | nil =>
            -- the walk returns to its start: drop the closed prefix
            rw [List.nil_append, List.cons_append, List.cons_eq_cons] at hsplit
            obtain ⟨hx, hsplit⟩ := hsplit
            subst hx
            rcases walk_split_of_map h hsplit with ⟨t1, t2, heq, hmap1, hmap2, hw1, hw2⟩
            have hcl : 0 ≤ walkW t1 := hng s ⟨[], rfl⟩ t1 hw1
            have hlen1 : t1.length = l2.length + 1 := by
              have hcg := congrArg List.length hmap1
              simp only [List.length_map, List.length_append, List.length_cons,
                List.length_nil] at hcg
              omega
            have hlen2 : t2.length ≤ n := by
              have hcg := congrArg List.length heq
              simp only [List.length_append] at hcg
              omega
            rcases ih hlen2 hw2 with ⟨t, ht, htw, htl⟩
            refine ⟨t, ht, ?_, htl⟩
            have hws : walkW steps = walkW t1 + walkW t2 := by
              rw [heq, walkW_append]
            omega
        | cons y l1' =>
            -- an interior vertex repeats: drop the closed middle section
            rw [List.cons_append, List.cons_append, List.cons_eq_cons] at hsplit
            obtain ⟨hy, hsplit⟩ := hsplit
            rw [List.append_assoc, List.cons_append] at hsplit
            rcases walk_split_of_map h hsplit with ⟨t1, t2, heq, hmap1, hmap2, hw1, hw2⟩
            rcases walk_split_of_map hw2 hmap2 with
              ⟨u1, u2, hequ, humap1, humap2, hu1, hu2⟩
            have hcl : 0 ≤ walkW u1 := hng x ⟨t1, hw1⟩ u1 hu1
            have hlenu1 : u1.length = l2.length + 1 := by
              have hcg := congrArg List.length humap1
              simp only [List.length_map, List.length_append, List.length_cons,
                List.length_nil] at hcg
              omega
            have hlen2 : (t1 ++ u2).length ≤ n := by
              have hA := congrArg List.length heq
              have hB := congrArg List.length hequ
              simp only [List.length_append] at hA hB ⊢
              omega
            rcases ih hlen2 (isWalk_append hw1 hu2) with ⟨t, ht, htw, htl⟩
            refine ⟨t, ht, ?_, htl⟩
            have hws : walkW steps = walkW t1 + (walkW u1 + walkW u2) := by
              rw [heq, hequ, walkW_append, walkW_append]
            have hwt := walkW_append t1 u2
            rw [hwt] at htw
            omega

/-- On a well-formed graph with no negative cycle through the reachable
component, every walk from `s ∈ keys g` can be shortened to one with at
most `|V| - 1` hops and no greater weight. -/
theorem walk_shorten {g : Graph α} (hw : WF g) {s : α} (hng : NoNegFrom g s)
    (hs : s ∈ keys g) {v : α} {steps : List (α × Int)}
    (h : IsWalk g s steps v) :
    ∃ t, IsWalk g s t v ∧ walkW t ≤ walkW steps ∧ t.length + 1 ≤ g.length :=
  walk_shorten_aux hw hng hs steps.length (le_refl _) h

end Walks

section GoodTable

variable {α : Type} [DecidableEq α]

theorem Dist.add_fin_zero (a : Dist) : a + Dist.fin 0 = a := by
  cases a <;> simp

/-- The table is stable: no edge admits a relaxation. -/
def StableT (g : Graph α) (f : α → Dist) : Prop :=
  ∀ e ∈ edgesOf g, f e.2.1 ≤ f e.1 + Dist.fin e.2.2

/-- Every finite table entry is realized by a walk from the source. -/
def SoundT (g : Graph α) (s : α) (f : α → Dist) : Prop :=
  ∀ v, f v ≠ Dist.inf → ∃ steps, IsWalk g s steps v ∧ Dist.fin (walkW steps) = f v

/-- A candidate single-source distance table: at most `0` at the source,
stable, and sound.  Any two such tables agree everywhere. -/
def GoodT (g : Graph α) (s : α) (f : α → Dist) : Prop :=
  f s ≤ Dist.fin 0 ∧ StableT g f ∧ SoundT g s f

theorem stable_le_walk {g : Graph α} {f : α → Dist} (hst : StableT g f)
    {u v : α} {steps : List (α × Int)} (h : IsWalk g u steps v) :
    f v ≤ f u + Dist.fin (walkW steps) := by
  induction steps generalizing u with
  | nil =>
      rw [← isWalk_nil.1 h, walkW_nil, Dist.add_fin_zero]
      exact Dist.le_refl _
  | cons hd rest ih =>
      cases hd with
      | mk x w =>
          have h1 : f x ≤ f u + Dist.fin w := hst _ h.1
          have h2 := ih h.2
          have h3 := Dist.add_right_mono (Dist.fin (walkW rest)) h1
          have h4 := Dist.le_trans h2 h3
          rw [Dist.add_fin_assoc] at h4
          exact h4

theorem goodT_le_walk {g : Graph α} {s : α} {f : α → Dist} (hg : GoodT g s f)
    {v : α} {steps : List (α × Int)} (h : IsWalk g s steps v) :
    f v ≤ Dist.fin (walkW steps) := by
  have h1 := stable_le_walk hg.2.1 h
  have h2 := Dist.add_right_mono (Dist.fin (walkW steps)) hg.1
  rw [Dist.fin_add_fin, Int.zero_add] at h2
  exact Dist.le_trans h1 h2

theorem goodT_le {g : Graph α} {s : α} {f1 f2 : α → Dist}
    (h1 : GoodT g s f1) (h2 : GoodT g s f2) : ∀ v, f1 v ≤ f2 v := by
  intro v
  by_cases hfin : f2 v = Dist.inf
  · rw [hfin]
    exact Dist.le_inf _
  · rcases h2.2.2 v hfin with ⟨steps, hwk, hwt⟩
    exact hwt ▸ goodT_le_walk h1 hwk

/-- Uniqueness of good tables: stability bounds each entry from above by
every walk weight, soundness bounds it from below by some walk weight. -/
theorem goodT_unique {g : Graph α} {s : α} {f1 f2 : α → Dist}
    (h1 : GoodT g s f1) (h2 : GoodT g s f2) : ∀ v, f1 v = f2 v := fun v =>
  Dist.le_antisymm (goodT_le h1 h2 v) (goodT_le h2 h1 v)

/-- If no closed walk through the source is negative, a good table gives
the source distance `0`. -/
theorem goodT_src_zero {g : Graph α} {s : α} {f : α → Dist} (hg : GoodT g s f)
    (hng : ∀ steps, IsWalk g s steps s → 0 ≤ walkW steps) : f s = Dist.fin 0 := by
  rcases Dist.ne_inf_iff.1 (Dist.le_fin_ne_inf hg.1) with ⟨a, ha⟩
  rcases hg.2.2 s (by rw [ha]; simp) with ⟨steps, hwk, hwt⟩
  have h1 : 0 ≤ walkW steps := hng steps hwk
  have h2 : (Dist.fin (walkW steps) : Dist) = Dist.fin a := by rw [hwt, ha]
  have h3 : a ≤ 0 := by
    have := hg.1
    rw [ha] at this
    exact Dist.fin_le_fin.1 this
  injection h2 with h2
  rw [ha]
  congr 1
  omega

end GoodTable

section BFProofs

variable {α : Type} [DecidableEq α]

theorem dval_d0 (g : Graph α) (s v : α) :
    dval (aset (initD g) s (Dist.fin 0)) v =
      if v = s then Dist.fin 0 else Dist.inf := by
  by_cases h : v = s
  · subst h
    simp [dval_aset_self]
  · rw [dval_aset_ne _ _ (fun hc => h hc.symm), dval_initD]
    simp [h]

theorem dval_aset_le {d : DTable α} {k : α} {nd : Dist} (h : nd < dval d k)
    (x : α) : dval (aset d k nd) x ≤ dval d x := by
  by_cases hx : x = k
  · subst hx
    rw [dval_aset_self]
    exact Dist.le_of_lt h
  · rw [dval_aset_ne _ _ (fun hc => hx hc.symm)]
    exact Dist.le_refl _

theorem bfPass_mono (es : List (α × α × Int)) (d : DTable α) (p : PTable α) :
    ∀ x, dval (bfPass es d p).1 x ≤ dval d x := by
  induction es generalizing d p with
  | nil =>
      intro x
      exact Dist.le_refl _
  | cons e rest ih =>
      rcases e with ⟨u, v, w⟩
      intro x
      by_cases hlt : (dval d u + Dist.fin w).blt (dval d v) = true
      · simp only [bfPass, hlt, if_true]
        exact Dist.le_trans (ih _ _ x) (dval_aset_le hlt x)
      · simp only [bfPass, hlt, if_false]
        exact ih _ _ x

theorem bfPass_edge_le (es : List (α × α × Int)) (d : DTable α) (p : PTable α)
    {u v : α} {w : Int} (he : (u, v, w) ∈ es) :
    dval (bfPass es d p).1 v ≤ dval d u + Dist.fin w := by
  induction es generalizing d p with
  | nil => simp at he
  | cons e rest ih =>
      rcases e with ⟨u', v', w'⟩
      rcases List.mem_cons.1 he with hhd | htl
      · injection hhd with h1 h2
        injection h2 with h2 h3
        subst h1
        subst h2
        subst h3
        by_cases hlt : (dval d u + Dist.fin w).blt (dval d v) = true
        · simp only [bfPass, hlt, if_true]
          have h4 := bfPass_mono rest (aset d v (dval d u + Dist.fin w)) (aset p v (some u)) v
          rw [dval_aset_self] at h4
          exact h4
        · simp only [bfPass, hlt, if_false]
          have h4 : dval d v ≤ dval d u + Dist.fin w := Dist.not_lt.1 hlt
          exact Dist.le_trans (bfPass_mono rest d p v) h4
      · by_cases hlt : (dval d u' + Dist.fin w').blt (dval d v') = true
        · simp only [bfPass, hlt, if_true]
          have h4 := ih (aset d v' (dval d u' + Dist.fin w')) (aset p v' (some u')) htl
          have h5 : dval (aset d v' (dval d u' + Dist.fin w')) u ≤ dval d u :=
            dval_aset_le hlt u
          exact Dist.le_trans h4 (Dist.add_right_mono _ h5)
        · simp only [bfPass, hlt, if_false]
          exact ih d p htl

/-- Invariant carried through the Bellman-Ford passes: soundness of the
distance table, predecessors only on finite entries, and a source entry
at most `0`. -/
def BInv (g : Graph α) (s : α) (d : DTable α) (p : PTable α) : Prop :=
  (∀ v, dval d v ≠ Dist.inf →
    ∃ steps, IsWalk g s steps v ∧ Dist.fin (walkW steps) = dval d v) ∧
  (∀ v, pval p v ≠ none → dval d v ≠ Dist.inf) ∧
  dval d s ≤ Dist.fin 0

theorem bInv_init (g : Graph α) (s : α) :
    BInv g s (aset (initD g) s (Dist.fin 0)) (initP g) := by
  refine ⟨?_, ?_, ?_⟩
  · intro v hv
    rw [dval_d0] at hv ⊢
    by_cases h : v = s
    · subst h
      simp only [if_pos rfl]
      exact ⟨[], rfl, rfl⟩
    · simp [h] at hv
  · intro v hv
    rw [pval_initP] at hv
    exact absurd rfl hv
  · rw [dval_d0]
    simp

theorem bfPass_bInv {g : Graph α} {s : α} {es : List (α × α × Int)}
    (hes : ∀ e ∈ es, e ∈ edgesOf g) {d : DTable α} {p : PTable α}
    (h : BInv g s d p) : BInv g s (bfPass es d p).1 (bfPass es d p).2 := by
  induction es generalizing d p with
  | nil => exact h
  | cons e rest ih =>
      rcases e with ⟨u, v, w⟩
      have hedge : (u, v, w) ∈ edgesOf g := hes _ (List.mem_cons_self _ _)
      have hrest : ∀ e ∈ rest, e ∈ edgesOf g :=
        fun e he => hes e (List.mem_cons_of_mem _ he)
      by_cases hlt : (dval d u + Dist.fin w).blt (dval d v) = true
      · simp only [bfPass, hlt, if_true]
        refine ih hrest ⟨?_, ?_, ?_⟩
        · intro x hx
          by_cases hxv : x = v
          · rw [hxv] at hx ⊢
            rw [dval_aset_self] at hx ⊢
            have hu : dval d u ≠ Dist.inf := by
              intro hc
              rw [hc] at hlt
              exact absurd hlt (by simp [Dist.inf_add, Dist.blt])
            rcases h.1 u hu with ⟨steps, hwk, hwt⟩
            refine ⟨steps ++ [(v, w)], isWalk_append hwk ⟨hedge, rfl⟩, ?_⟩
            rw [walkW_append, ← hwt]
            simp [walkW]
          · rw [dval_aset_ne _ _ (fun hc => hxv hc.symm)] at hx ⊢
            exact h.1 x hx
        · intro x hx
          by_cases hxv : x = v
          · rw [hxv]
            rw [dval_aset_self]
            have hu : dval d u ≠ Dist.inf := by
              intro hc
              rw [hc] at hlt
              exact absurd hlt (by simp [Dist.inf_add, Dist.blt])
            rcases Dist.ne_inf_iff.1 hu with ⟨a, ha⟩
            rw [ha]
            simp
          · rw [pval_aset_ne _ _ (fun hc => hxv hc.symm)] at hx
            rw [dval_aset_ne _ _ (fun hc => hxv hc.symm)]
            exact h.2.1 x hx
        · exact Dist.le_trans (dval_aset_le hlt s) h.2.2
      · simp only [bfPass, hlt, if_false]
        exact ih hrest h

theorem bfPassN_succ (es : List (α × α × Int)) (n : Nat) (d : DTable α)
    (p : PTable α) :
    bfPassN es (n + 1) d p =
      bfPass es (bfPassN es n d p).1 (bfPassN es n d p).2 := by
  induction n generalizing d p with
  | zero => rfl
  | succ n ih =>
      have h1 : bfPassN es (n + 1 + 1) d p =
          bfPassN es (n + 1) (bfPass es d p).1 (bfPass es d p).2 := rfl
      rw [h1, ih]
      rfl

theorem bfPassN_bInv {g : Graph α} {s : α} (n : Nat) {d : DTable α}
    {p : PTable α} (h : BInv g s d p) :
    BInv g s (bfPassN (edgesOf g) n d p).1 (bfPassN (edgesOf g) n d p).2 := by
  induction n with
  | zero => exact h
  | succ n ih =>
      rw [bfPassN_succ]
      exact bfPass_bInv (fun e he => he) ih

theorem bfPassN_complete {g : Graph α} {s : α} :
    ∀ (n : Nat) {v : α} {steps : List (α × Int)}, IsWalk g s steps v →
      steps.length ≤ n →
      dval (bfPassN (edgesOf g) n (aset (initD g) s (Dist.fin 0)) (initP g)).1 v ≤
        Dist.fin (walkW steps) := by
  intro n
  induction n with
  | zero =>
      intro v steps hwk hlen
      have hnil : steps = [] := List.length_eq_zero.1 (Nat.le_zero.1 hlen)
      subst hnil
      rw [← isWalk_nil.1 hwk]
      simp only [bfPassN, walkW_nil, dval_d0, if_pos rfl]
      exact Dist.le_refl _
  | succ n ih =>
      intro v steps hwk hlen
      rw [bfPassN_succ]
      by_cases hsh : steps.length ≤ n
      · exact Dist.le_trans (bfPass_mono _ _ _ v) (ih hwk hsh)
      · rcases List.eq_nil_or_concat steps with rfl | ⟨pre, last, rfl⟩
        · simp at hsh
        · rcases last with ⟨x, w⟩
          rw [List.concat_eq_append] at hwk hlen ⊢
          rcases isWalk_append_split hwk with ⟨m, hpre, hlast⟩
          rcases isWalk_single.1 hlast with ⟨hedge, rfl⟩
          have hplen : pre.length ≤ n := by
            simp only [List.length_append, List.length_cons, List.length_nil] at hlen
            omega
          have h1 := ih hpre hplen
          have h2 := bfPass_edge_le (edgesOf g)
            (bfPassN (edgesOf g) n (aset (initD g) s (Dist.fin 0)) (initP g)).1
            (bfPassN (edgesOf g) n (aset (initD g) s (Dist.fin 0)) (initP g)).2 hedge
          have h3 := Dist.add_right_mono (Dist.fin w) h1
          have h4 := Dist.le_trans h2 h3
          rw [Dist.fin_add_fin] at h4
          have hww : walkW (pre ++ [(x, w)]) = walkW pre + w := by
            rw [walkW_append]
            simp [walkW]
          rw [hww]
          exact h4

/-- Shape of a successful `bellman_ford_algorithm` run: the returned
tables are the result of `|V| - 1` passes, and the check pass found no
relaxable edge. -/
theorem bf_ok_elim {g : Graph α} {s : α} {d : DTable α} {p : PTable α}
    (h : bellman_ford_algorithm g s = .ok (d, p)) :
    (d, p) = bfPassN (edgesOf g) (g.length - 1) (aset (initD g) s (Dist.fin 0))
      (initP g) ∧ bfCheck (edgesOf g) d = false := by
  unfold bellman_ford_algorithm at h
  by_cases hc : bfCheck (edgesOf g)
      (bfPassN (edgesOf g) (g.length - 1) (aset (initD g) s (Dist.fin 0))
        (initP g)).1 = true
  · rw [if_pos hc] at h
    exact absurd h (by simp)
  · rw [if_neg hc] at h
    injection h with h
    constructor
    · exact h.symm
    · rw [h] at hc
      simp only [Bool.not_eq_true] at hc
      exact hc

theorem bfCheck_false_stable {g : Graph α} {d : DTable α}
    (h : bfCheck (edgesOf g) d = false) : StableT g (dval d) := by
  intro e he
  have h1 := List.any_eq_false.1 h e he
  exact Dist.not_lt.1 h1

/-- A successful Bellman-Ford run yields a good table whose predecessors
point only at finite entries. -/
theorem bf_ok_goodT {g : Graph α} {s : α} {d : DTable α} {p : PTable α}
    (h : bellman_ford_algorithm g s = .ok (d, p)) :
    GoodT g s (dval d) ∧ (∀ v, pval p v ≠ none → dval d v ≠ Dist.inf) := by
  rcases bf_ok_elim h with ⟨hdp, hchk⟩
  have hinv := bfPassN_bInv (g.length - 1) (bInv_init g s)
  rw [← hdp] at hinv
  exact ⟨⟨hinv.2.2, bfCheck_false_stable hchk, hinv.1⟩, hinv.2.1⟩

/-- On a well-formed graph with no negative cycle reachable from a source
in the graph, Bellman-Ford does not raise. -/
theorem bf_no_error {g : Graph α} {s : α} (hw : WF g) (hs : s ∈ keys g)
    (hng : NoNegFrom g s) :
    ∃ d p, bellman_ford_algorithm g s = .ok (d, p) := by
  unfold bellman_ford_algorithm
  set dp := bfPassN (edgesOf g) (g.length - 1) (aset (initD g) s (Dist.fin 0))
    (initP g) with hdp
  by_cases hc : bfCheck (edgesOf g) dp.1 = true
  · exfalso
    rcases List.any_eq_true.1 hc with ⟨⟨u, v, w⟩, he, hrel⟩
    have hlt : dval dp.1 u + Dist.fin w < dval dp.1 v := hrel
    have hu : dval dp.1 u ≠ Dist.inf := by
      intro hcu
      rw [hcu] at hlt
      exact Dist.not_inf_lt _ hlt
    have hinv := bfPassN_bInv (g.length - 1) (bInv_init g s)
    rw [← hdp] at hinv
    rcases hinv.1 u hu with ⟨steps, hwk, hwt⟩
    have hwkv : IsWalk g s (steps ++ [(v, w)]) v := isWalk_append hwk ⟨he, rfl⟩
    rcases walk_shorten hw hng hs hwkv with ⟨t, ht, htw, htl⟩
    have hcomp := bfPassN_complete (g.length - 1) ht
      (by omega)
    rw [← hdp] at hcomp
    have h5 : Dist.fin (walkW t) ≤ Dist.fin (walkW (steps ++ [(v, w)])) :=
      Dist.fin_le_fin.2 htw
    have h6 : Dist.fin (walkW (steps ++ [(v, w)])) = dval dp.1 u + Dist.fin w := by
      rw [walkW_append, ← hwt]
      simp [walkW]
    have h7 := Dist.le_trans hcomp (h6 ▸ h5)
    exact Dist.lt_irrefl _ (Dist.lt_of_le_of_lt h7 hlt)
  · rw [if_neg hc]
    exact ⟨dp.1, dp.2, rfl⟩

end BFProofs

section BFFrozen

variable {α : Type} [DecidableEq α]

theorem bfPass_frozen {es : List (α × α × Int)} {d : DTable α} {p : PTable α}
    (h : ∀ e ∈ es, dval d e.1 = Dist.inf) : bfPass es d p = (d, p) := by
  induction es with
  | nil => rfl
  | cons e rest ih =>
      rcases e with ⟨u, v, w⟩
      have hu : dval d u = Dist.inf := h _ (List.mem_cons_self _ _)
      have hcond : (dval d u + Dist.fin w).blt (dval d v) = false := by
        rw [hu]
        rfl
      simp only [bfPass, hcond, if_false]
      exact ih (fun e he => h e (List.mem_cons_of_mem _ he))

theorem bfCheck_frozen {es : List (α × α × Int)} {d : DTable α}
    (h : ∀ e ∈ es, dval d e.1 = Dist.inf) : bfCheck es d = false := by
  apply List.any_eq_false.2
  intro e he
  rw [h e he]
  simp [Dist.inf_add, Dist.blt]

/-- With a source that is not a vertex of the graph, Bellman-Ford does not
fail: every relaxation is frozen at `inf`, and the initial tables are
returned unchanged. -/
theorem bf_unknown_source (g : Graph α) {s : α} (hs : s ∉ keys g) :
    bellman_ford_algorithm g s =
      .ok (aset (initD g) s (Dist.fin 0), initP g) ∧
      ∀ v ∈ keys g, dval (aset (initD g) s (Dist.fin 0)) v = Dist.inf := by
  have hinf : ∀ v ∈ keys g, dval (aset (initD g) s (Dist.fin 0)) v = Dist.inf := by
    intro v hv
    rw [dval_d0]
    have : v ≠ s := fun hc => hs (hc ▸ hv)
    simp [this]
  have hfr : ∀ e ∈ edgesOf g, dval (aset (initD g) s (Dist.fin 0)) e.1 = Dist.inf :=
    fun e he => hinf e.1 (@edge_fst_mem_keys α _ g e.1 e.2.1 e.2.2 he)
  have hN : ∀ n, bfPassN (edgesOf g) n (aset (initD g) s (Dist.fin 0)) (initP g) =
      (aset (initD g) s (Dist.fin 0), initP g) := by
    intro n
    induction n with
    | zero => rfl
    | succ n ih =>
        rw [bfPassN_succ, ih]
        exact bfPass_frozen hfr
  constructor
  · simp only [bellman_ford_algorithm, hN (g.length - 1), bfCheck_frozen hfr]
    rfl
  · exact hinf

end BFFrozen

section ReconstructLemmas

variable {α : Type} [DecidableEq α]

/-- A vertex whose predecessor entry is `None` reconstructs to the
one-element path `[v]` (not the empty path). -/
theorem reconstruct_of_pred_none {p : PTable α} {v : α}
    (hmem : v ∈ p.map Prod.fst) (hp : pval p v = none) :
    reconstruct_path p v = some (.ok [v]) := by
  rcases aget_isSome_of_mem p v hmem with ⟨b, hb⟩
  have hbnone : b = none := by
    have h1 := hp
    rw [pval, hb] at h1
    exact h1
  subst hbnone
  unfold reconstruct_path
  simp only [recAux, hb]

/-- Reconstruction from a missing key raises `KeyError`. -/
theorem reconstruct_unknown {p : PTable α} {v : α}
    (hmem : v ∉ p.map Prod.fst) :
    reconstruct_path p v = some (.error .keyError) := by
  have hb : aget p v = none := (aget_eq_none_iff p v).2 hmem
  unfold reconstruct_path
  simp only [recAux, hb]

theorem bfPass_pred_keys (es : List (α × α × Int)) (d : DTable α)
    (p : PTable α) {v : α} (h : v ∈ p.map Prod.fst) :
    v ∈ ((bfPass es d p).2).map Prod.fst := by
  induction es generalizing d p with
  | nil => exact h
  | cons e rest ih =>
      rcases e with ⟨u, v', w⟩
      by_cases hlt : (dval d u + Dist.fin w).blt (dval d v') = true
      · simp only [bfPass, hlt, if_true]
        exact ih _ _ ((mem_keys_aset _ _ _ _).2 (Or.inl h))
      · simp only [bfPass, hlt, if_false]
        exact ih _ _ h

theorem bfPassN_pred_keys (es : List (α × α × Int)) (n : Nat) (d : DTable α)
    (p : PTable α) {v : α} (h : v ∈ p.map Prod.fst) :
    v ∈ ((bfPassN es n d p).2).map Prod.fst := by
  induction n generalizing d p with
  | zero => exact h
  | succ n ih =>
      rw [bfPassN_succ]
      exact bfPass_pred_keys _ _ _ (ih _ _ h)

/-- A successful Bellman-Ford run keeps every graph vertex among the
predecessor dict's keys. -/
theorem bf_ok_pred_keys {g : Graph α} {s : α} {d : DTable α} {p : PTable α}
    (h : bellman_ford_algorithm g s = .ok (d, p)) {v : α} (hv : v ∈ keys g) :
    v ∈ p.map Prod.fst := by
  rcases bf_ok_elim h with ⟨hdp, _⟩
  have h1 : v ∈ (initP g).map Prod.fst := by
    rw [keys_initP]
    exact hv
  have h2 := bfPassN_pred_keys (edgesOf g) (g.length - 1)
    (aset (initD g) s (Dist.fin 0)) (initP g) h1
  have h3 : p = (bfPassN (edgesOf g) (g.length - 1)
      (aset (initD g) s (Dist.fin 0)) (initP g)).2 := by
    rw [← hdp]
  rw [h3]
  exact h2

end ReconstructLemmas

section PopMinLemmas

variable {α : Type} [LinearOrder α]

theorem popMin_none_iff (pq : List (Int × α)) : popMin pq = none ↔ pq = [] := by
  cases pq with
  | nil => simp [popMin]
  | cons x xs =>
      simp only [popMin]
      cases h : popMin xs with
      | none => simp
      | some m =>
          rcases m with ⟨m, rest⟩
          by_cases hl : lexLt m x = true <;> simp [hl]

theorem popMin_mem {pq : List (Int × α)} {e : Int × α} {rest : List (Int × α)}
    (h : popMin pq = some (e, rest)) : e ∈ pq := by
  induction pq generalizing e rest with
  | nil => simp [popMin] at h
  | cons x xs ih =>
      cases hx : popMin xs with
      | none =>
          simp only [popMin, hx] at h
          injection h with h
          injection h with h1 h2
          exact h1 ▸ List.mem_cons_self _ _
      | some m =>
          rcases m with ⟨m, mrest⟩
          simp only [popMin, hx] at h
          by_cases hl : lexLt m x = true
          · rw [if_pos hl] at h
            injection h with h
            injection h with h1 h2
            exact h1 ▸ List.mem_cons_of_mem _ (ih hx)
          · rw [if_neg hl] at h
            injection h with h
            injection h with h1 h2
            exact h1 ▸ List.mem_cons_self _ _

theorem popMin_rest_sub {pq : List (Int × α)} {e : Int × α}
    {rest : List (Int × α)} (h : popMin pq = some (e, rest)) :
    ∀ x ∈ rest, x ∈ pq := by
  induction pq generalizing e rest with
  | nil => simp [popMin] at h
  | cons a xs ih =>
      cases hx : popMin xs with
      | none =>
          simp only [popMin, hx] at h
          injection h with h
          injection h with h1 h2
          rw [← h2]
          intro x hx2
          simp at hx2
      | some m =>
          rcases m with ⟨m, mrest⟩
          simp only [popMin, hx] at h
          by_cases hl : lexLt m a = true
          · rw [if_pos hl] at h
            injection h with h
            injection h with h1 h2
            rw [← h2]
            intro x hx2
            rcases List.mem_cons.1 hx2 with rfl | hx2
            · exact List.mem_cons_self _ _
            · exact List.mem_cons_of_mem _ (ih hx x hx2)
          · rw [if_neg hl] at h
            injection h with h
            injection h with h1 h2
            rw [← h2]
            intro x hx2
            exact List.mem_cons_of_mem _ hx2

theorem popMin_cover {pq : List (Int × α)} {e : Int × α}
    {rest : List (Int × α)} (h : popMin pq = some (e, rest)) :
    ∀ x ∈ pq, x = e ∨ x ∈ rest := by
  induction pq generalizing e rest with
  | nil => simp [popMin] at h
  | cons a xs ih =>
      cases hx : popMin xs with
      | none =>
          simp only [popMin, hx] at h
          injection h with h
          injection h with h1 h2
          have hnil : xs = [] := (popMin_none_iff xs).1 hx
          subst hnil
          intro x hx2
          rcases List.mem_cons.1 hx2 with rfl | hx2
          · exact Or.inl h1
          · simp at hx2
      | some m =>
          rcases m with ⟨m, mrest⟩
          simp only [popMin, hx] at h
          by_cases hl : lexLt m a = true
          · rw [if_pos hl] at h
            injection h with h
            injection h with h1 h2
            subst h1
            rw [← h2]
            intro x hx2
            rcases List.mem_cons.1 hx2 with rfl | hx2
            · exact Or.inr (List.mem_cons_self _ _)
            · rcases ih hx x hx2 with rfl | hmem
              · exact Or.inl rfl
              · exact Or.inr (List.mem_cons_of_mem _ hmem)
          · rw [if_neg hl] at h
            injection h with h
            injection h with h1 h2
            subst h1
            rw [← h2]
            intro x hx2
            rcases List.mem_cons.1 hx2 with rfl | hx2
            · exact Or.inl rfl
            · exact Or.inr hx2

theorem popMin_length {pq : List (Int × α)} {e : Int × α}
    {rest : List (Int × α)} (h : popMin pq = some (e, rest)) :
    rest.length + 1 = pq.length := by
  induction pq generalizing e rest with
  | nil => simp [popMin] at h
  | cons a xs ih =>
      cases hx : popMin xs with
      | none =>
          simp only [popMin, hx] at h
          injection h with h
          injection h with h1 h2
          have hnil : xs = [] := (popMin_none_iff xs).1 hx
          subst hnil
          rw [← h2]
          rfl
      | some m =>
          rcases m with ⟨m, mrest⟩
          simp only [popMin, hx] at h
          by_cases hl : lexLt m a = true
          · rw [if_pos hl] at h
            injection h with h
            injection h with h1 h2
            rw [← h2]
            have hlen := ih hx
            simp only [List.length_cons] at hlen ⊢
            omega
          · rw [if_neg hl] at h
            injection h with h
            injection h with h1 h2
            rw [← h2]
            rfl

theorem lexLt_false_le {m x : Int × α} (h : ¬ lexLt m x = true) : x.1 ≤ m.1 := by
  unfold lexLt at h
  simp only [Bool.or_eq_true, Bool.and_eq_true, decide_eq_true_eq] at h
  push_neg at h
  exact h.1

theorem lexLt_true_le {m x : Int × α} (h : lexLt m x = true) : m.1 ≤ x.1 := by
  unfold lexLt at h
  simp only [Bool.or_eq_true, Bool.and_eq_true, decide_eq_true_eq] at h
  rcases h with h | ⟨h, _⟩
  · exact le_of_lt h
  · omega

theorem popMin_min {pq : List (Int × α)} {e : Int × α}
    {rest : List (Int × α)} (h : popMin pq = some (e, rest)) :
    ∀ x ∈ pq, e.1 ≤ x.1 := by
  induction pq generalizing e rest with
  | nil => simp [popMin] at h
  | cons a xs ih =>
      cases hx : popMin xs with
      | none =>
          simp only [popMin, hx] at h
          injection h with h
          injection h with h1 h2
          have hnil : xs = [] := (popMin_none_iff xs).1 hx
          subst hnil
          subst h1
          intro x hx2
          rcases List.mem_cons.1 hx2 with rfl | hx2
          · exact le_refl _
          · simp at hx2
      | some m =>
          rcases m with ⟨m, mrest⟩
          simp only [popMin, hx] at h
          by_cases hl : lexLt m a = true
          · rw [if_pos hl] at h
            injection h with h
            injection h with h1 h2
            subst h1
            intro x hx2
            rcases List.mem_cons.1 hx2 with rfl | hx2
            · exact lexLt_true_le hl
            · exact ih hx x hx2
          · rw [if_neg hl] at h
            injection h with h
            injection h with h1 h2
            subst h1
            intro x hx2
            rcases List.mem_cons.1 hx2 with rfl | hx2
            · exact le_refl _
            · exact le_trans (lexLt_false_le hl) (ih hx x hx2)

end PopMinLemmas

section DijkstraPartial

variable {α : Type} [LinearOrder α]

/-- Invariant preserved by every iteration of the Dijkstra loop,
regardless of edge signs: queue entries bound the table, queue entries
and finite table entries are walk weights, the source entry is at most
`0`, and predecessors point only at finite entries. -/
def PInv (g : Graph α) (s : α) (pq : List (Int × α)) (d : DTable α)
    (p : PTable α) : Prop :=
  (∀ e ∈ pq, dval d e.2 ≤ Dist.fin e.1) ∧
  (∀ e ∈ pq, ∃ steps, IsWalk g s steps e.2 ∧ walkW steps = e.1) ∧
  (∀ v, dval d v ≠ Dist.inf →
    ∃ steps, IsWalk g s steps v ∧ Dist.fin (walkW steps) = dval d v) ∧
  dval d s ≤ Dist.fin 0 ∧
  (∀ v, pval p v ≠ none → dval d v ≠ Dist.inf)

theorem pInv_init (g : Graph α) (s : α) :
    PInv g s [(0, s)] (aset (initD g) s (Dist.fin 0)) (initP g) := by
  refine ⟨?_, ?_, ?_, ?_, ?_⟩
  · intro e he
    rcases List.mem_singleton.1 he with rfl
    rw [show ((0, s) : Int × α).2 = s from rfl, dval_d0, if_pos rfl]
    exact Dist.le_refl _
  · intro e he
    rcases List.mem_singleton.1 he with rfl
    exact ⟨[], rfl, rfl⟩
  · intro v hv
    rw [dval_d0] at hv ⊢
    by_cases h : v = s
    · rw [if_pos h] at hv ⊢
      exact ⟨[], by rw [isWalk_nil, h], rfl⟩
    · rw [if_neg h] at hv
      exact absurd rfl hv
  · rw [dval_d0, if_pos rfl]
    exact Dist.le_refl _
  · intro v hv
    rw [pval_initP] at hv
    exact absurd rfl hv

theorem relaxNbrs_pinv {g : Graph α} {s u : α} {c : Int} {adj : List (α × Int)}
    (hedges : ∀ vw ∈ adj, (u, vw.1, vw.2) ∈ edgesOf g)
    (hwalk : ∃ steps, IsWalk g s steps u ∧ walkW steps = c) :
    ∀ {pq : List (Int × α)} {d : DTable α} {p : PTable α}, PInv g s pq d p →
      PInv g s (relaxNbrs u c adj pq d p).1 (relaxNbrs u c adj pq d p).2.1
        (relaxNbrs u c adj pq d p).2.2 := by
  induction adj with
  | nil =>
      intro pq d p h
      exact h
  | cons vw rest ih =>
      rcases vw with ⟨v, w⟩
      intro pq d p h
      have hrest : ∀ vw ∈ rest, (u, vw.1, vw.2) ∈ edgesOf g :=
        fun vw hvw => hedges vw (List.mem_cons_of_mem _ hvw)
      have hedge : (u, v, w) ∈ edgesOf g := hedges _ (List.mem_cons_self _ _)
      by_cases hlt : (Dist.fin (c + w)).blt (dval d v) = true
      · simp only [relaxNbrs, hlt, if_true]
        rcases hwalk with ⟨su, hsu, hsuw⟩
        have hnewwalk : IsWalk g s (su ++ [(v, w)]) v :=
          isWalk_append hsu ⟨hedge, rfl⟩
        have hnww : walkW (su ++ [(v, w)]) = c + w := by
          rw [walkW_append, hsuw]
          simp [walkW]
        refine ih hrest ⟨?_, ?_, ?_, ?_, ?_⟩
        · intro e he
          rcases List.mem_append.1 he with he | he
          · exact Dist.le_trans (dval_aset_le hlt e.2) (h.1 e he)
          · rcases List.mem_singleton.1 he with rfl
            rw [show ((c + w, v) : Int × α).2 = v from rfl, dval_aset_self]
            exact Dist.le_refl _
        · intro e he
          rcases List.mem_append.1 he with he | he
          · exact h.2.1 e he
          · rcases List.mem_singleton.1 he with rfl
            exact ⟨su ++ [(v, w)], hnewwalk, hnww⟩
        · intro x hx
          by_cases hxv : x = v
          · rw [hxv] at hx ⊢
            rw [dval_aset_self] at hx ⊢
            exact ⟨su ++ [(v, w)], hnewwalk, by rw [hnww]⟩
          · rw [dval_aset_ne _ _ (fun hc2 => hxv hc2.symm)] at hx ⊢
            exact h.2.2.1 x hx
        · exact Dist.le_trans (dval_aset_le hlt s) h.2.2.2.1
        · intro x hx
          by_cases hxv : x = v
          · rw [hxv, dval_aset_self]
            simp
          · rw [pval_aset_ne _ _ (fun hc2 => hxv hc2.symm)] at hx
            rw [dval_aset_ne _ _ (fun hc2 => hxv hc2.symm)]
            exact h.2.2.2.2 x hx
      · simp only [relaxNbrs, hlt, if_false]
        exact ih hrest h

theorem pInv_rest {g : Graph α} {s : α} {pq rest : List (Int × α)}
    {e : Int × α} {d : DTable α} {p : PTable α} (hinv : PInv g s pq d p)
    (hpop : popMin pq = some (e, rest)) : PInv g s rest d p :=
  ⟨fun x hx => hinv.1 x (popMin_rest_sub hpop x hx),
   fun x hx => hinv.2.1 x (popMin_rest_sub hpop x hx),
   hinv.2.2.1, hinv.2.2.2.1, hinv.2.2.2.2⟩

/-- Partial correctness of the Dijkstra loop: whatever the edge signs,
if the loop returns tables, every finite distance is a walk weight, the
source entry is at most `0`, and predecessors point at finite entries. -/
theorem dijkstraAux_partial {g : Graph α} {s : α} :
    ∀ (fuel : Nat) {pq : List (Int × α)} {d : DTable α} {p : PTable α}
      {d' : DTable α} {p' : PTable α},
      PInv g s pq d p →
      dijkstraAux g fuel pq d p = some (.ok (d', p')) →
      SoundT g s (dval d') ∧ dval d' s ≤ Dist.fin 0 ∧
        (∀ v, pval p' v ≠ none → dval d' v ≠ Dist.inf) := by
  intro fuel
  induction fuel with
  | zero =>
      intro pq d p d' p' hinv h
      simp [dijkstraAux] at h
  | succ fuel ih =>
      intro pq d p d' p' hinv h
      cases hpop : popMin pq with
      | none =>
          simp only [dijkstraAux, hpop] at h
          injection h with h
          injection h with h
          injection h with h1 h2
          subst h1
          subst h2
          exact ⟨hinv.2.2.1, hinv.2.2.2.1, hinv.2.2.2.2⟩
      | some t =>
          rcases t with ⟨⟨c, u⟩, rest⟩
          simp only [dijkstraAux, hpop] at h
          by_cases hstale : (dval d u).blt (Dist.fin c) = true
          · rw [if_pos hstale] at h
            exact ih (pInv_rest hinv hpop) h
          · rw [if_neg hstale] at h
            cases hadj : aget g u with
            | none =>
                rw [hadj] at h
                exact absurd h (by simp)
            | some adj =>
                rw [hadj] at h
                have hedges : ∀ vw ∈ adj, (u, vw.1, vw.2) ∈ edgesOf g :=
                  fun vw hvw => mem_edgesOf.2 ⟨adj, aget_mem _ hadj, hvw⟩
                have hwalk : ∃ steps, IsWalk g s steps u ∧ walkW steps = c :=
                  hinv.2.1 (c, u) (popMin_mem hpop)
                exact ih (relaxNbrs_pinv hedges hwalk (pInv_rest hinv hpop)) h

end DijkstraPartial

section DijkstraTotal

variable {α : Type} [LinearOrder α]

/-- All outgoing edges of `u` are non-relaxable in the table `f`. -/
def StableAt (g : Graph α) (f : α → Dist) (u : α) : Prop :=
  ∀ vw ∈ adjOf g u, f vw.1 ≤ f u + Dist.fin vw.2

theorem relaxNbrs_mono (u : α) (c : Int) :
    ∀ (adj : List (α × Int)) (pq : List (Int × α)) (d : DTable α)
      (p : PTable α) (x : α),
      dval (relaxNbrs u c adj pq d p).2.1 x ≤ dval d x := by
  intro adj
  induction adj with
  | nil =>
      intro pq d p x
      exact Dist.le_refl _
  | cons vw rest ih =>
      rcases vw with ⟨v, w⟩
      intro pq d p x
      by_cases hlt : (Dist.fin (c + w)).blt (dval d v) = true
      · simp only [relaxNbrs, hlt, if_true]
        exact Dist.le_trans (ih _ _ _ x) (dval_aset_le hlt x)
      · simp only [relaxNbrs, hlt, if_false]
        exact ih _ _ _ x

theorem relaxNbrs_pq_keep (u : α) (c : Int) :
    ∀ (adj : List (α × Int)) (pq : List (Int × α)) (d : DTable α)
      (p : PTable α), ∀ e ∈ pq, e ∈ (relaxNbrs u c adj pq d p).1 := by
  intro adj
  induction adj with
  | nil =>
      intro pq d p e he
      exact he
  | cons vw rest ih =>
      rcases vw with ⟨v, w⟩
      intro pq d p e he
      by_cases hlt : (Dist.fin (c + w)).blt (dval d v) = true
      · simp only [relaxNbrs, hlt, if_true]
        exact ih _ _ _ e (List.mem_append.2 (Or.inl he))
      · simp only [relaxNbrs, hlt, if_false]
        exact ih _ _ _ e he

theorem relaxNbrs_pq_from (u : α) (c : Int) :
    ∀ (adj : List (α × Int)) (pq : List (Int × α)) (d : DTable α)
      (p : PTable α), ∀ e ∈ (relaxNbrs u c adj pq d p).1,
        e ∈ pq ∨ ∃ vw ∈ adj, e = (c + vw.2, vw.1) := by
  intro adj
  induction adj with
  | nil =>
      intro pq d p e he
      exact Or.inl he
  | cons vw rest ih =>
      rcases vw with ⟨v, w⟩
      intro pq d p e he
      by_cases hlt : (Dist.fin (c + w)).blt (dval d v) = true
      · simp only [relaxNbrs, hlt, if_true] at he
        rcases ih _ _ _ e he with hmem | ⟨vw2, hvw2, he2⟩
        · rcases List.mem_append.1 hmem with hmem | hmem
          · exact Or.inl hmem
          · rcases List.mem_singleton.1 hmem with rfl
            exact Or.inr ⟨(v, w), List.mem_cons_self _ _, rfl⟩
        · exact Or.inr ⟨vw2, List.mem_cons_of_mem _ hvw2, he2⟩
      · simp only [relaxNbrs, hlt, if_false] at he
        rcases ih _ _ _ e he with hmem | ⟨vw2, hvw2, he2⟩
        · exact Or.inl hmem
        · exact Or.inr ⟨vw2, List.mem_cons_of_mem _ hvw2, he2⟩

theorem relaxNbrs_pq_len (u : α) (c : Int) :
    ∀ (adj : List (α × Int)) (pq : List (Int × α)) (d : DTable α)
      (p : PTable α),
      (relaxNbrs u c adj pq d p).1.length ≤ pq.length + adj.length := by
  intro adj
  induction adj with
  | nil =>
      intro pq d p
      simp [relaxNbrs]
  | cons vw rest ih =>
      rcases vw with ⟨v, w⟩
      intro pq d p
      by_cases hlt : (Dist.fin (c + w)).blt (dval d v) = true
      · have hred : relaxNbrs u c ((v, w) :: rest) pq d p =
            relaxNbrs u c rest (pq ++ [(c + w, v)]) (aset d v (Dist.fin (c + w)))
              (aset p v (some u)) := by
          simp only [relaxNbrs]
          rw [if_pos hlt]
        rw [hred]
        have h1 := ih (pq ++ [(c + w, v)]) (aset d v (Dist.fin (c + w)))
          (aset p v (some u))
        simp only [List.length_append, List.length_cons, List.length_nil,
          List.length_cons] at h1 ⊢
        omega
      · have hred : relaxNbrs u c ((v, w) :: rest) pq d p =
            relaxNbrs u c rest pq d p := by
          simp only [relaxNbrs]
          rw [if_neg hlt]
        rw [hred]
        have h1 := ih pq d p
        simp only [List.length_cons]
        omega

theorem relaxNbrs_keep_low {u : α} {c : Int} :
    ∀ {adj : List (α × Int)}, (∀ vw ∈ adj, 0 ≤ vw.2) →
      ∀ {pq : List (Int × α)} {d : DTable α} {p : PTable α} {x : α},
        dval d x ≤ Dist.fin c →
        dval (relaxNbrs u c adj pq d p).2.1 x = dval d x := by
  intro adj
  induction adj with
  | nil =>
      intro _ pq d p x _
      rfl
  | cons vw rest ih =>
      rcases vw with ⟨v, w⟩
      intro hwnn pq d p x hx
      have hw0 : 0 ≤ w := hwnn _ (List.mem_cons_self _ _)
      have hwr : ∀ vw ∈ rest, 0 ≤ vw.2 :=
        fun vw hvw => hwnn vw (List.mem_cons_of_mem _ hvw)
      by_cases hlt : (Dist.fin (c + w)).blt (dval d v) = true
      · simp only [relaxNbrs, hlt, if_true]
        have hxv : x ≠ v := by
          intro hc
          subst hc
          have h1 : Dist.fin (c + w) < Dist.fin c :=
            Dist.lt_of_lt_of_le hlt hx
          have h2 := Dist.fin_lt_fin.1 h1
          omega
        have hkeep : dval (aset d v (Dist.fin (c + w))) x = dval d x :=
          dval_aset_ne _ _ (fun hc => hxv hc.symm)
        rw [ih hwr (by rw [hkeep]; exact hx), hkeep]
      · simp only [relaxNbrs, hlt, if_false]
        exact ih hwr hx

theorem relaxNbrs_u_keep {u : α} {c : Int} {adj : List (α × Int)}
    (hwnn : ∀ vw ∈ adj, 0 ≤ vw.2) {pq : List (Int × α)} {d : DTable α}
    {p : PTable α} (hu : dval d u = Dist.fin c) :
    dval (relaxNbrs u c adj pq d p).2.1 u = Dist.fin c := by
  rw [relaxNbrs_keep_low hwnn (by rw [hu]; exact Dist.le_refl _)]
  exact hu

theorem relaxNbrs_stable_post {u : α} {c : Int} :
    ∀ {adj : List (α × Int)}, (∀ vw ∈ adj, 0 ≤ vw.2) →
      ∀ {pq : List (Int × α)} {d : DTable α} {p : PTable α},
        dval d u = Dist.fin c →
        ∀ vw ∈ adj, dval (relaxNbrs u c adj pq d p).2.1 vw.1 ≤
          Dist.fin (c + vw.2) := by
  intro adj
  induction adj with
  | nil =>
      intro _ pq d p _ vw hvw
      simp at hvw
  | cons hd rest ih =>
      rcases hd with ⟨v, w⟩
      intro hwnn pq d p hu vw hvw
      have hw0 : 0 ≤ w := hwnn _ (List.mem_cons_self _ _)
      have hwr : ∀ vw ∈ rest, 0 ≤ vw.2 :=
        fun vw hvw => hwnn vw (List.mem_cons_of_mem _ hvw)
      by_cases hlt : (Dist.fin (c + w)).blt (dval d v) = true
      · simp only [relaxNbrs, hlt, if_true]
        have huv : u ≠ v := by
          intro hc
          subst hc
          rw [hu] at hlt
          have h2 := Dist.fin_lt_fin.1 hlt
          omega
        have hu1 : dval (aset d v (Dist.fin (c + w))) u = Dist.fin c := by
          rw [dval_aset_ne _ _ (fun hc => huv hc.symm)]
          exact hu
        rcases List.mem_cons.1 hvw with rfl | hvw2
        · have hmono := relaxNbrs_mono u c rest (pq ++ [(c + w, v)])
            (aset d v (Dist.fin (c + w))) (aset p v (some u)) v
          rw [dval_aset_self] at hmono
          exact hmono
        · exact ih hwr hu1 vw hvw2
      · simp only [relaxNbrs, hlt, if_false]
        rcases List.mem_cons.1 hvw with rfl | hvw2
        · have hle : dval d v ≤ Dist.fin (c + w) := Dist.not_lt.1 hlt
          exact Dist.le_trans (relaxNbrs_mono u c rest pq d p v) hle
        · exact ih hwr hu vw hvw2

theorem relaxNbrs_change_entry (u : α) (c : Int) :
    ∀ (adj : List (α × Int)) (pq : List (Int × α)) (d : DTable α)
      (p : PTable α) (x : α),
      dval (relaxNbrs u c adj pq d p).2.1 x = dval d x ∨
      ∃ c', (c', x) ∈ (relaxNbrs u c adj pq d p).1 ∧
        Dist.fin c' = dval (relaxNbrs u c adj pq d p).2.1 x := by
  intro adj
  induction adj with
  | nil =>
      intro pq d p x
      exact Or.inl rfl
  | cons vw rest ih =>
      rcases vw with ⟨v, w⟩
      intro pq d p x
      by_cases hlt : (Dist.fin (c + w)).blt (dval d v) = true
      · simp only [relaxNbrs, hlt, if_true]
        rcases ih (pq ++ [(c + w, v)]) (aset d v (Dist.fin (c + w)))
          (aset p v (some u)) x with hsame | ⟨c', hc1, hc2⟩
        · by_cases hxv : x = v
          · subst hxv
            refine Or.inr ⟨c + w, ?_, ?_⟩
            · exact relaxNbrs_pq_keep u c rest _ _ _ _
                (List.mem_append.2 (Or.inr (List.mem_singleton.2 rfl)))
            · rw [hsame, dval_aset_self]
          · rw [hsame, dval_aset_ne _ _ (fun hc => hxv hc.symm)]
            exact Or.inl rfl
        · exact Or.inr ⟨c', hc1, hc2⟩
      · simp only [relaxNbrs, hlt, if_false]
        exact ih pq d p x

theorem relaxNbrs_frozen {u : α} {c : Int} :
    ∀ {adj : List (α × Int)} {pq : List (Int × α)} {d : DTable α}
      {p : PTable α},
      (∀ vw ∈ adj, ¬ (Dist.fin (c + vw.2)).blt (dval d vw.1) = true) →
      relaxNbrs u c adj pq d p = (pq, d, p) := by
  intro adj
  induction adj with
  | nil =>
      intro pq d p _
      rfl
  | cons vw rest ih =>
      rcases vw with ⟨v, w⟩
      intro pq d p h
      have hlt : ¬ (Dist.fin (c + w)).blt (dval d v) = true :=
        h _ (List.mem_cons_self _ _)
      simp only [relaxNbrs, hlt, if_false]
      exact ih (fun vw hvw => h vw (List.mem_cons_of_mem _ hvw))

/-- Ghost invariant for termination: queue vertices are graph vertices,
queue values are non-negative, every finite table entry has a matching
queue entry or is already stable, and every settled vertex is finite,
stable, and below every queue value. -/
def TInv (g : Graph α) (S : List α) (pq : List (Int × α)) (d : DTable α) :
    Prop :=
  (∀ e ∈ pq, e.2 ∈ keys g) ∧
  (∀ e ∈ pq, 0 ≤ e.1) ∧
  (∀ v, dval d v ≠ Dist.inf →
    (∃ c, (c, v) ∈ pq ∧ Dist.fin c = dval d v) ∨ StableAt g (dval d) v) ∧
  (∀ x ∈ S, dval d x ≠ Dist.inf ∧ StableAt g (dval d) x ∧
    ∀ e ∈ pq, dval d x ≤ Dist.fin e.1)

/-- Loop measure: one unit per queue entry, plus the processing budget of
every not-yet-settled vertex. -/
def Msr (g : Graph α) (S : List α) (pq : List (Int × α)) : Nat :=
  pq.length + (((keys g).filter (fun v => decide (v ∉ S))).map
    (fun v => 1 + (adjOf g v).length)).sum

theorem filter_notmem_eq_of_ne (S : List α) {u : α} :
    ∀ {l : List α}, (∀ x ∈ l, x ≠ u) →
      l.filter (fun v => decide (v ∉ S)) =
        l.filter (fun v => decide (v ∉ u :: S)) := by
  intro l
  induction l with
  | nil =>
      intro _
      rfl
  | cons a t ih =>
      intro h
      have ha : a ≠ u := h a (List.mem_cons_self _ _)
      have ht := ih (fun x hx => h x (List.mem_cons_of_mem _ hx))
      by_cases hmem : a ∈ S
      · have h1 : decide (a ∉ S) = false := by simp [hmem]
        have h2 : decide (a ∉ u :: S) = false := by simp [hmem]
        rw [List.filter_cons, List.filter_cons]
        simp only [h1, h2, ht]
      · have h1 : decide (a ∉ S) = true := by simp [hmem]
        have h2 : decide (a ∉ u :: S) = true := by simp [hmem, ha]
        rw [List.filter_cons, List.filter_cons]
        simp only [h1, h2, ht, if_true]

theorem sum_split_at (f : α → Nat) {S : List α} {u : α} :
    ∀ {l : List α}, l.Nodup → u ∈ l → u ∉ S →
      ((l.filter (fun v => decide (v ∉ S))).map f).sum =
        f u + ((l.filter (fun v => decide (v ∉ u :: S))).map f).sum := by
  intro l
  induction l with
  | nil =>
      intro _ hu _
      simp at hu
  | cons a t ih =>
      intro hnd hu hus
      rw [List.nodup_cons] at hnd
      rcases List.mem_cons.1 hu with rfl | hu2
      · have h1 : decide (u ∉ S) = true := by simp [hus]
        have h2 : decide (u ∉ u :: S) = false := by simp
        have ht : ∀ x ∈ t, x ≠ u := fun x hx hc => hnd.1 (hc ▸ hx)
        rw [List.filter_cons, List.filter_cons]
        simp only [h1, h2, if_true, Bool.false_eq_true, if_false,
          List.map_cons, List.sum_cons]
        rw [filter_notmem_eq_of_ne S ht]
      · have ha : a ≠ u := fun hc => hnd.1 (hc ▸ hu2)
        have hrec := ih hnd.2 hu2 hus
        by_cases hmem : a ∈ S
        · have h1 : decide (a ∉ S) = false := by simp [hmem]
          have h2 : decide (a ∉ u :: S) = false := by simp [hmem]
          rw [List.filter_cons, List.filter_cons]
          simp only [h1, h2]
          exact hrec
        · have h1 : decide (a ∉ S) = true := by simp [hmem]
          have h2 : decide (a ∉ u :: S) = true := by simp [hmem, ha]
          rw [List.filter_cons, List.filter_cons]
          simp only [h1, h2, if_true, List.map_cons, List.sum_cons]
          omega

/-- Termination and exit stability of the Dijkstra loop on a well-formed
graph with non-negative weights: with the measure below the fuel, the
loop returns tables and the final distance table admits no relaxable
edge. -/
theorem dijkstraAux_total {g : Graph α} {s : α} (hw : WF g) (hnn : NN g) :
    ∀ (fuel : Nat) (S : List α) (pq : List (Int × α)) (d : DTable α)
      (p : PTable α),
      PInv g s pq d p → TInv g S pq d →
      Msr g S pq < fuel →
      ∃ d' p', dijkstraAux g fuel pq d p = some (.ok (d', p')) ∧
        StableT g (dval d') := by
  intro fuel
  induction fuel with
  | zero =>
      intro S pq d p _ _ hm
      omega
  | succ fuel ih =>
      intro S pq d p hpinv htinv hm
      cases hpop : popMin pq with
      | none =>
          refine ⟨d, p, by simp only [dijkstraAux, hpop], ?_⟩
          have hempty : pq = [] := (popMin_none_iff pq).1 hpop
          subst hempty
          intro e he
          by_cases hdu : dval d e.1 = Dist.inf
          · rw [hdu, Dist.inf_add]
            exact Dist.le_inf _
          · rcases htinv.2.2.1 e.1 hdu with ⟨c, hc, _⟩ | hstab
            · simp at hc
            · exact hstab _ (mem_adjOf_of_edge hw he)
      | some t =>
          rcases t with ⟨⟨c, u⟩, rest⟩
          have hlen := popMin_length hpop
          have htinv_rest : ∀ x ∈ S, dval d x ≠ Dist.inf ∧
              StableAt g (dval d) x ∧ ∀ e ∈ rest, dval d x ≤ Dist.fin e.1 :=
            fun x hx => ⟨(htinv.2.2.2 x hx).1, (htinv.2.2.2 x hx).2.1,
              fun e he => (htinv.2.2.2 x hx).2.2 e (popMin_rest_sub hpop e he)⟩
          by_cases hstale : (dval d u).blt (Dist.fin c) = true
          · -- stale entry: discard
            have hrec := ih S rest d p (pInv_rest hpinv hpop)
              ⟨fun e he => htinv.1 e (popMin_rest_sub hpop e he),
               fun e he => htinv.2.1 e (popMin_rest_sub hpop e he),
               ?_, htinv_rest⟩ ?_
            · rcases hrec with ⟨d', p', heq, hstab⟩
              refine ⟨d', p', ?_, hstab⟩
              simp only [dijkstraAux, hpop]
              rw [if_pos hstale]
              exact heq
            · intro v hv
              rcases htinv.2.2.1 v hv with ⟨c', hc1, hc2⟩ | hstab
              · rcases popMin_cover hpop _ hc1 with heqp | hmem
                · exfalso
                  injection heqp with hcc hvu
                  subst hcc
                  subst hvu
                  rw [← hc2] at hstale
                  exact (Dist.lt_irrefl _) hstale
                · exact Or.inl ⟨c', hmem, hc2⟩
              · exact Or.inr hstab
            · unfold Msr at hm ⊢
              omega
          · -- non-stale: dval d u = fin c
            have hle : dval d u ≤ Dist.fin c := hpinv.1 (c, u) (popMin_mem hpop)
            have hueq : dval d u = Dist.fin c :=
              Dist.le_antisymm hle (Dist.not_lt.1 hstale)
            have humem : u ∈ keys g := htinv.1 (c, u) (popMin_mem hpop)
            rcases aget_isSome_of_mem g u humem with ⟨adj, hadj⟩
            have hadjof : adjOf g u = adj := by
              unfold adjOf agetD
              rw [hadj]
              rfl
            have hedges : ∀ vw ∈ adj, (u, vw.1, vw.2) ∈ edgesOf g :=
              fun vw hvw => mem_edgesOf.2 ⟨adj, aget_mem _ hadj, hvw⟩
            have hwadj : ∀ vw ∈ adj, 0 ≤ vw.2 := fun vw hvw =>
              hnn _ (hedges vw hvw)
            have hcpos : 0 ≤ c := htinv.2.1 (c, u) (popMin_mem hpop)
            by_cases hS : u ∈ S
            · -- settled vertex popped again: no relaxation fires
              have hstab_u : StableAt g (dval d) u := (htinv.2.2.2 u hS).2.1
              have hfroz : relaxNbrs u c adj rest d p = (rest, d, p) := by
                apply relaxNbrs_frozen
                intro vw hvw
                have h1 : dval d vw.1 ≤ dval d u + Dist.fin vw.2 :=
                  hstab_u vw (by rw [hadjof]; exact hvw)
                rw [hueq] at h1
                exact fun hcc => Dist.lt_irrefl _ (Dist.lt_of_lt_of_le hcc h1)
              have hrec := ih S rest d p (pInv_rest hpinv hpop)
                ⟨fun e he => htinv.1 e (popMin_rest_sub hpop e he),
                 fun e he => htinv.2.1 e (popMin_rest_sub hpop e he),
                 ?_, htinv_rest⟩ ?_
              · rcases hrec with ⟨d', p', heq, hstab⟩
                refine ⟨d', p', ?_, hstab⟩
                simp only [dijkstraAux, hpop]
                rw [if_neg hstale, hadj]
                simp only [hfroz]
                exact heq
              · intro v hv
                rcases htinv.2.2.1 v hv with ⟨c', hc1, hc2⟩ | hstab
                · rcases popMin_cover hpop _ hc1 with heqp | hmem
                  · injection heqp with hcc hvu
                    subst hcc
                    subst hvu
                    exact Or.inr hstab_u
                  · exact Or.inl ⟨c', hmem, hc2⟩
                · exact Or.inr hstab
              · unfold Msr at hm ⊢
                omega
            · -- fresh settle: process u, settle it, recurse
              have hpinvR : PInv g s (relaxNbrs u c adj rest d p).1 (relaxNbrs u c adj rest d p).2.1 (relaxNbrs u c adj rest d p).2.2 :=
                relaxNbrs_pinv hedges
                  (hpinv.2.1 (c, u) (popMin_mem hpop)) (pInv_rest hpinv hpop)
              have huR : dval (relaxNbrs u c adj rest d p).2.1 u = Dist.fin c := relaxNbrs_u_keep hwadj hueq
              have hstabR_u : StableAt g (dval (relaxNbrs u c adj rest d p).2.1) u := by
                intro vw hvw
                rw [huR]
                exact relaxNbrs_stable_post hwadj hueq vw (by rw [← hadjof]; exact hvw)
              have hlowkeep : ∀ x, dval d x ≤ Dist.fin c →
                  dval (relaxNbrs u c adj rest d p).2.1 x = dval d x := fun x hx => relaxNbrs_keep_low hwadj hx
              have hc_min : ∀ e ∈ rest, c ≤ e.1 := fun e he =>
                popMin_min hpop e (popMin_rest_sub hpop e he)
              have hq_from := relaxNbrs_pq_from u c adj rest d p
              have hq_keep := relaxNbrs_pq_keep u c adj rest d p
              have htinvR : TInv g (u :: S) (relaxNbrs u c adj rest d p).1 (relaxNbrs u c adj rest d p).2.1 := by
                refine ⟨?_, ?_, ?_, ?_⟩
                · intro e he
                  rcases hq_from e he with hmem | ⟨vw, hvw, rfl⟩
                  · exact htinv.1 e (popMin_rest_sub hpop e hmem)
                  · exact hw.2 _ (hedges vw hvw)
                · intro e he
                  rcases hq_from e he with hmem | ⟨vw, hvw, rfl⟩
                  · exact htinv.2.1 e (popMin_rest_sub hpop e hmem)
                  · have := hwadj vw hvw
                    simp only
                    omega
                · intro v hv
                  rcases relaxNbrs_change_entry u c adj rest d p v with hsame | hnew
                  · rw [hsame] at hv ⊢
                    rcases htinv.2.2.1 v hv with ⟨c', hc1, hc2⟩ | hstab
                    · rcases popMin_cover hpop _ hc1 with heqp | hmem
                      · injection heqp with hcc hvu
                        subst hcc
                        subst hvu
                        right
                        intro vw hvw
                        exact hstabR_u vw hvw
                      · exact Or.inl ⟨c', hq_keep _ hmem, hc2⟩
                    · right
                      intro vw hvw
                      have h1 := hstab vw hvw
                      rw [hsame]
                      exact Dist.le_trans (relaxNbrs_mono u c adj rest d p vw.1) h1
                  · exact Or.inl hnew
                · intro x hx
                  rcases List.mem_cons.1 hx with rfl | hxS
                  · refine ⟨by rw [huR]; simp, hstabR_u, ?_⟩
                    intro e he
                    rw [huR]
                    rcases hq_from e he with hmem | ⟨vw, hvw, rfl⟩
                    · exact Dist.fin_le_fin.2 (hc_min e hmem)
                    · have := hwadj vw hvw
                      simp only
                      exact Dist.fin_le_fin.2 (by omega)
                  · have hold := htinv.2.2.2 x hxS
                    have hxlow : dval d x ≤ Dist.fin c :=
                      hold.2.2 (c, u) (popMin_mem hpop)
                    have hxkeep : dval (relaxNbrs u c adj rest d p).2.1 x = dval d x := hlowkeep x hxlow
                    refine ⟨by rw [hxkeep]; exact hold.1, ?_, ?_⟩
                    · intro vw hvw
                      rw [hxkeep]
                      exact Dist.le_trans (relaxNbrs_mono u c adj rest d p vw.1)
                        (hold.2.1 vw hvw)
                    · intro e he
                      rw [hxkeep]
                      rcases hq_from e he with hmem | ⟨vw, hvw, rfl⟩
                      · exact hold.2.2 e (popMin_rest_sub hpop e hmem)
                      · have := hwadj vw hvw
                        refine Dist.le_trans hxlow ?_
                        simp only
                        exact Dist.fin_le_fin.2 (by omega)
              have hmsr : Msr g (u :: S) (relaxNbrs u c adj rest d p).1 < fuel := by
                have hRlen := relaxNbrs_pq_len u c adj rest d p
                have hsplit := sum_split_at (fun v => 1 + (adjOf g v).length)
                  hw.1 humem hS
                unfold Msr at hm ⊢
                rw [hsplit] at hm
                simp only at hm
                rw [hadjof] at hm
                omega
              have hrec := ih (u :: S) (relaxNbrs u c adj rest d p).1 (relaxNbrs u c adj rest d p).2.1 (relaxNbrs u c adj rest d p).2.2 hpinvR htinvR hmsr
              rcases hrec with ⟨d', p', heq, hstab⟩
              refine ⟨d', p', ?_, hstab⟩
              simp only [dijkstraAux, hpop]
              rw [if_neg hstale, hadj]
              exact heq

end DijkstraTotal

section DijkstraMain

variable {α : Type} [LinearOrder α]

theorem sum_budget_eq :
    ∀ (g : Graph α), (keys g).Nodup →
      ((keys g).map (fun v => 1 + (adjOf g v).length)).sum =
        g.length + (edgesOf g).length := by
  intro g
  induction g with
  | nil =>
      intro _
      rfl
  | cons h t ih =>
      rcases h with ⟨u, adj⟩
      intro hnd
      have hkeys : keys ((u, adj) :: t) = u :: keys t := rfl
      rw [hkeys, List.nodup_cons] at hnd
      have hadju : adjOf ((u, adj) :: t) u = adj := by
        unfold adjOf agetD aget
        simp
      have htail : ∀ v ∈ keys t,
          (fun v => 1 + (adjOf ((u, adj) :: t) v).length) v =
          (fun v => 1 + (adjOf t v).length) v := by
        intro v hv
        have hne : u ≠ v := fun hc => hnd.1 (hc ▸ hv)
        have hget : aget ((u, adj) :: t) v = aget t v := by
          simp [aget, hne]
        simp only [adjOf, agetD, hget]
      rw [hkeys, List.map_cons, List.sum_cons, hadju,
        List.map_congr_left htail, ih hnd.2]
      have hlen : (edgesOf ((u, adj) :: t)).length =
          adj.length + (edgesOf t).length := by
        simp [edgesOf]
      rw [hlen]
      simp only [List.length_cons]
      omega

/-- On a well-formed graph with non-negative weights and a source in the
graph, Dijkstra terminates within its fuel, raises nothing, and produces
a good table with predecessors pointing only at finite entries. -/
theorem dijkstra_ok {g : Graph α} {s : α} (hw : WF g) (hnn : NN g)
    (hs : s ∈ keys g) :
    ∃ d p, dijkstra_algorithm g s = some (.ok (d, p)) ∧ GoodT g s (dval d) ∧
      (∀ v, pval p v ≠ none → dval d v ≠ Dist.inf) := by
  have hfilter : (keys g).filter (fun v => decide (v ∉ ([] : List α))) = keys g :=
    List.filter_eq_self.2 (fun a _ => by simp)
  have hmsr0 : Msr g [] [(0, s)] < dijkstraFuel g := by
    unfold Msr dijkstraFuel
    rw [hfilter, sum_budget_eq g hw.1]
    simp only [List.length_cons, List.length_nil]
    omega
  have htinv0 : TInv g [] [(0, s)] (aset (initD g) s (Dist.fin 0)) := by
    refine ⟨?_, ?_, ?_, ?_⟩
    · intro e he
      rcases List.mem_singleton.1 he with rfl
      exact hs
    · intro e he
      rcases List.mem_singleton.1 he with rfl
      exact le_refl _
    · intro v hv
      rw [dval_d0] at hv
      by_cases hvs : v = s
      · subst hvs
        left
        exact ⟨0, List.mem_singleton.2 rfl, by rw [dval_d0, if_pos rfl]⟩
      · rw [if_neg hvs] at hv
        exact absurd rfl hv
    · intro x hx
      simp at hx
  rcases dijkstraAux_total hw hnn (dijkstraFuel g) [] [(0, s)]
      (aset (initD g) s (Dist.fin 0)) (initP g) (pInv_init g s) htinv0 hmsr0 with
    ⟨d, p, heq, hstab⟩
  have hpart := dijkstraAux_partial (dijkstraFuel g) (pInv_init g s) heq
  exact ⟨d, p, heq, ⟨hpart.2.1, hstab, hpart.1⟩, hpart.2.2⟩

/-- With a source vertex that is not in the graph, `dijkstra_algorithm`
raises `KeyError` at `graph[current_vertex]` on its first iteration. -/
theorem dijkstra_unknown_source (g : Graph α) {s : α} (hs : s ∉ keys g) :
    dijkstra_algorithm g s = some (.error .keyError) := by
  have hd : dval (aset (initD g) s (Dist.fin 0)) s = Dist.fin 0 := by
    rw [dval_d0, if_pos rfl]
  have hg : aget g s = none := (aget_eq_none_iff g s).2 hs
  have hfuel : ∃ n, dijkstraFuel g = n + 1 := ⟨g.length + (edgesOf g).length + 1, rfl⟩
  rcases hfuel with ⟨n, hn⟩
  unfold dijkstra_algorithm
  rw [hn]
  have hpop : popMin [((0 : Int), s)] = some ((0, s), []) := rfl
  simp only [dijkstraAux, hpop]
  rw [hd]
  have hstale : (Dist.fin 0).blt (Dist.fin 0) = false := by
    simp [Dist.blt]
  rw [hstale]
  simp only [Bool.false_eq_true, if_false, hg]

/-- On a well-formed graph with non-negative weights, Dijkstra and
Bellman-Ford both succeed and produce pointwise-equal distance tables. -/
theorem dijkstra_bf_agree {g : Graph α} {s : α} (hw : WF g) (hnn : NN g)
    (hs : s ∈ keys g) :
    ∃ dD pD dB pB, dijkstra_algorithm g s = some (.ok (dD, pD)) ∧
      bellman_ford_algorithm g s = .ok (dB, pB) ∧
      ∀ v, dval dD v = dval dB v := by
  rcases dijkstra_ok hw hnn hs with ⟨dD, pD, heqD, hgoodD, _⟩
  rcases bf_no_error hw hs (noNegFrom_of_noNegCycle (noNegCycle_of_NN hnn) s) with
    ⟨dB, pB, heqB⟩
  have hgoodB := (bf_ok_goodT heqB).1
  exact ⟨dD, pD, dB, pB, heqD, heqB, goodT_unique hgoodD hgoodB⟩

end DijkstraMain

section MoreSupport

variable {α : Type} [DecidableEq α]

/-- Decidability of walk-hood, for concrete evaluation. -/
def isWalkDec (g : Graph α) :
    ∀ (s : α) (steps : List (α × Int)) (t : α), Decidable (IsWalk g s steps t)
  | s, [], t => decidable_of_iff (s = t) isWalk_nil.symm
  | s, (v, w) :: rest, t =>
      haveI h2 : Decidable (IsWalk g v rest t) := isWalkDec g v rest t
      decidable_of_iff ((s, v, w) ∈ edgesOf g ∧ IsWalk g v rest t) Iff.rfl

instance (g : Graph α) (s : α) (steps : List (α × Int)) (t : α) :
    Decidable (IsWalk g s steps t) := isWalkDec g s steps t

/-- Bellman-Ford raises exactly when the check pass after `|V| - 1` full
relaxation passes still finds a relaxable edge. -/
theorem bf_error_iff (g : Graph α) (s : α) :
    bellman_ford_algorithm g s = .error .negativeCycle ↔
      bfCheck (edgesOf g) (bfPassN (edgesOf g) (g.length - 1)
        (aset (initD g) s (Dist.fin 0)) (initP g)).1 = true := by
  unfold bellman_ford_algorithm
  by_cases hc : bfCheck (edgesOf g) (bfPassN (edgesOf g) (g.length - 1)
      (aset (initD g) s (Dist.fin 0)) (initP g)).1 = true
  · rw [if_pos hc]
    simp [hc]
  · rw [if_neg hc]
    simp [hc]

end MoreSupport

section DijkstraPredKeys

variable {α : Type} [LinearOrder α]

theorem relaxNbrs_pred_keys (u : α) (c : Int) :
    ∀ (adj : List (α × Int)) (pq : List (Int × α)) (d : DTable α)
      (p : PTable α) (x : α), x ∈ p.map Prod.fst →
      x ∈ ((relaxNbrs u c adj pq d p).2.2).map Prod.fst := by
  intro adj
  induction adj with
  | nil =>
      intro pq d p x hx
      exact hx
  | cons vw rest ih =>
      rcases vw with ⟨v, w⟩
      intro pq d p x hx
      by_cases hlt : (Dist.fin (c + w)).blt (dval d v) = true
      · simp only [relaxNbrs, hlt, if_true]
        exact ih _ _ _ x ((mem_keys_aset _ _ _ _).2 (Or.inl hx))
      · simp only [relaxNbrs, hlt, if_false]
        exact ih _ _ _ x hx

theorem dijkstraAux_pred_keys {g : Graph α} :
    ∀ (fuel : Nat) {pq : List (Int × α)} {d : DTable α} {p : PTable α}
      {d' : DTable α} {p' : PTable α},
      dijkstraAux g fuel pq d p = some (.ok (d', p')) →
      ∀ x, x ∈ p.map Prod.fst → x ∈ p'.map Prod.fst := by
  intro fuel
  induction fuel with
  | zero =>
      intro pq d p d' p' h
      simp [dijkstraAux] at h
  | succ fuel ih =>
      intro pq d p d' p' h
      cases hpop : popMin pq with
      | none =>
          simp only [dijkstraAux, hpop] at h
          injection h with h
          injection h with h
          injection h with h1 h2
          subst h2
          intro x hx
          exact hx
      | some t =>
          rcases t with ⟨⟨c, u⟩, rest⟩
          simp only [dijkstraAux, hpop] at h
          by_cases hstale : (dval d u).blt (Dist.fin c) = true
          · rw [if_pos hstale] at h
            exact ih h
          · rw [if_neg hstale] at h
            cases hadj : aget g u with
            | none =>
                rw [hadj] at h
                exact absurd h (by simp)
            | some adj =>
                rw [hadj] at h
                intro x hx
                exact ih h x (relaxNbrs_pred_keys u c adj rest d p x hx)

/-- A successful Dijkstra run keeps every initial predecessor key. -/
theorem dijkstra_ok_pred_keys {g : Graph α} {s : α} {d : DTable α}
    {p : PTable α} (h : dijkstra_algorithm g s = some (.ok (d, p)))
    {v : α} (hv : v ∈ keys g) : v ∈ p.map Prod.fst := by
  unfold dijkstra_algorithm at h
  exact dijkstraAux_pred_keys (dijkstraFuel g) h v (by rw [keys_initP]; exact hv)

end DijkstraPredKeys

section FWEval

variable {α : Type} [DecidableEq α]

theorem mupd_eq_ite {β : Type} (m : α → α → β) (i j x y : α) (v : β) :
    mupd m i j v x y = if x = i ∧ y = j then v else m x y := by
  unfold mupd
  by_cases hx : x = i
  · subst hx
    by_cases hy : y = j
    · subst hy
      rw [if_pos rfl, if_pos rfl, if_pos ⟨rfl, rfl⟩]
    · rw [if_pos rfl, if_neg hy, if_neg (fun hc => hy hc.2)]
  · rw [if_neg hx, if_neg (fun hc => hx hc.1)]

theorem Dist.fin_zero_add (a : Dist) : Dist.fin 0 + a = a := by
  cases a <;> simp

theorem Dist.le_add_of_nonneg_right {a b : Dist} (h : Dist.fin 0 ≤ b) :
    a ≤ a + b := by
  have h2 := Dist.add_left_mono a h
  rwa [Dist.add_fin_zero] at h2

theorem Dist.le_add_of_nonneg_left {a b : Dist} (h : Dist.fin 0 ≤ a) :
    b ≤ a + b := by
  have h2 := Dist.add_right_mono b h
  rwa [Dist.fin_zero_add] at h2

theorem Dist.add_lt_add_left_fin {b c : Dist} (w : Int) (h : b < c) :
    Dist.fin w + b < Dist.fin w + c := by
  cases b <;> cases c <;> simp_all <;> omega

/-- The distance value one Floyd-Warshall stage `k` leaves at `(x, y)`:
relax through `k` exactly when strictly shorter. -/
def passSpec (dm : Mat α) (k x y : α) : Dist :=
  if ((dm x k).add (dm k y)).blt (dm x y) then (dm x k).add (dm k y) else dm x y

/-- The next-hop entry one stage `k` leaves at `(x, y)`. -/
def passSpecN (dm : Mat α) (nm : NMat α) (k x y : α) : Option α :=
  if ((dm x k).add (dm k y)).blt (dm x y) then nm x k else nm x y

theorem pass_cond_xk {dm : Mat α} {k : α} (hkk : Dist.fin 0 ≤ dm k k) (x : α) :
    ((dm x k).add (dm k k)).blt (dm x k) = false :=
  Dist.le_def.1 (Dist.le_add_of_nonneg_right hkk)

theorem pass_cond_ky {dm : Mat α} {k : α} (hkk : Dist.fin 0 ≤ dm k k) (y : α) :
    ((dm k k).add (dm k y)).blt (dm k y) = false :=
  Dist.le_def.1 (Dist.le_add_of_nonneg_left hkk)

theorem passSpec_le (dm : Mat α) (k x y : α) : passSpec dm k x y ≤ dm x y := by
  unfold passSpec
  by_cases hb : ((dm x k).add (dm k y)).blt (dm x y) = true
  · rw [if_pos hb]
    exact Dist.le_of_lt hb
  · rw [if_neg hb]
    exact Dist.le_refl _

/-- A stage never improves an entry `(x, k)` into the column of its own
intermediate once that intermediate has a non-negative self-distance. -/
theorem passSpec_xk {dm : Mat α} {k : α} (hkk : Dist.fin 0 ≤ dm k k) (x : α) :
    passSpec dm k x k = dm x k := by
  have hc : ¬ (((dm x k).add (dm k k)).blt (dm x k) = true) := by
    rw [pass_cond_xk hkk x]
    exact Bool.false_ne_true
  unfold passSpec
  rw [if_neg hc]

theorem passSpecN_xk {dm : Mat α} {nm : NMat α} {k : α}
    (hkk : Dist.fin 0 ≤ dm k k) (x : α) : passSpecN dm nm k x k = nm x k := by
  have hc : ¬ (((dm x k).add (dm k k)).blt (dm x k) = true) := by
    rw [pass_cond_xk hkk x]
    exact Bool.false_ne_true
  unfold passSpecN
  rw [if_neg hc]

theorem passSpec_ky {dm : Mat α} {k : α} (hkk : Dist.fin 0 ≤ dm k k) (y : α) :
    passSpec dm k k y = dm k y := by
  have hc : ¬ (((dm k k).add (dm k y)).blt (dm k y) = true) := by
    rw [pass_cond_ky hkk y]
    exact Bool.false_ne_true
  unfold passSpec
  rw [if_neg hc]

theorem passSpecN_ky {dm : Mat α} {nm : NMat α} {k : α}
    (hkk : Dist.fin 0 ≤ dm k k) (y : α) : passSpecN dm nm k k y = nm k y := by
  have hc : ¬ (((dm k k).add (dm k y)).blt (dm k y) = true) := by
    rw [pass_cond_ky hkk y]
    exact Bool.false_ne_true
  unfold passSpecN
  rw [if_neg hc]

/-- Row sweep of the inner `j` loop: as long as the reads of row `k`, of
the pivot cell `(i, k)` and of the untouched cells agree with the
stage-entry matrix `dm`, the loop writes `passSpec` on the processed
cells and leaves everything else alone. -/
theorem fwRowAux {dm : Mat α} {nm : NMat α} {k i : α}
    (hkk : Dist.fin 0 ≤ dm k k) :
    ∀ (js : List α) (mn : Mat α × NMat α), js.Nodup →
      mn.1 i k = dm i k → mn.2 i k = nm i k →
      (∀ j, mn.1 k j = dm k j) →
      (∀ j ∈ js, mn.1 i j = dm i j) → (∀ j ∈ js, mn.2 i j = nm i j) →
      ∀ x y, ((List.foldl (fwCell k i) mn js).1 x y =
          if x = i ∧ y ∈ js then passSpec dm k x y else mn.1 x y) ∧
        ((List.foldl (fwCell k i) mn js).2 x y =
          if x = i ∧ y ∈ js then passSpecN dm nm k x y else mn.2 x y) := by
  intro js
  induction js with
  | nil =>
      intro mn _ _ _ _ _ _ x y
      constructor <;> simp [List.foldl_nil]
  | cons j js ih =>
      intro mn hnd hik hnik hkrow hirow hnirow
      have hkj : mn.1 k j = dm k j := hkrow j
      have hij : mn.1 i j = dm i j := hirow j (List.mem_cons_self j js)
      have hnij : mn.2 i j = nm i j := hnirow j (List.mem_cons_self j js)
      have hcell1 : ∀ a b, (fwCell k i mn j).1 a b =
          if a = i ∧ b = j then passSpec dm k i j else mn.1 a b := by
        intro a b
        unfold fwCell
        rw [hik, hkj, hij]
        by_cases hb : ((dm i k).add (dm k j)).blt (dm i j) = true
        · rw [if_pos hb]
          show mupd mn.1 i j ((dm i k).add (dm k j)) a b = _
          rw [mupd_eq_ite]
          unfold passSpec
          rw [if_pos hb]
        · rw [if_neg hb]
          show mn.1 a b = _
          unfold passSpec
          rw [if_neg hb]
          by_cases hab : a = i ∧ b = j
          · obtain ⟨ha, hb2⟩ := hab
            subst ha
            subst hb2
            rw [if_pos ⟨rfl, rfl⟩, hij]
          · rw [if_neg hab]
      have hcell2 : ∀ a b, (fwCell k i mn j).2 a b =
          if a = i ∧ b = j then passSpecN dm nm k i j else mn.2 a b := by
        intro a b
        unfold fwCell
        rw [hik, hkj, hij]
        by_cases hb : ((dm i k).add (dm k j)).blt (dm i j) = true
        · rw [if_pos hb]
          show mupd mn.2 i j (mn.2 i k) a b = _
          rw [mupd_eq_ite, hnik]
          unfold passSpecN
          rw [if_pos hb]
        · rw [if_neg hb]
          show mn.2 a b = _
          unfold passSpecN
          rw [if_neg hb]
          by_cases hab : a = i ∧ b = j
          · obtain ⟨ha, hb2⟩ := hab
            subst ha
            subst hb2
            rw [if_pos ⟨rfl, rfl⟩, hnij]
          · rw [if_neg hab]
      have h1 : (fwCell k i mn j).1 i k = dm i k := by
        rw [hcell1]
        by_cases hkj2 : k = j
        · subst hkj2
          rw [if_pos ⟨rfl, rfl⟩, passSpec_xk hkk i]
        · rw [if_neg (fun hc => hkj2 hc.2), hik]
      have h2 : (fwCell k i mn j).2 i k = nm i k := by
        rw [hcell2]
        by_cases hkj2 : k = j
        · subst hkj2
          rw [if_pos ⟨rfl, rfl⟩, passSpecN_xk hkk i]
        · rw [if_neg (fun hc => hkj2 hc.2), hnik]
      have h3 : ∀ j2, (fwCell k i mn j).1 k j2 = dm k j2 := by
        intro j2
        rw [hcell1]
        by_cases hki : k = i ∧ j2 = j
        · obtain ⟨hki1, hki2⟩ := hki
          rw [if_pos ⟨hki1, hki2⟩, ← hki1, passSpec_ky hkk j, hki2]
        · rw [if_neg hki, hkrow j2]
      have h4 : ∀ j2 ∈ js, (fwCell k i mn j).1 i j2 = dm i j2 := by
        intro j2 hj2
        rw [hcell1]
        have hne : j2 ≠ j := fun hc => (List.nodup_cons.1 hnd).1 (hc ▸ hj2)
        rw [if_neg (fun hc => hne hc.2), hirow j2 (List.mem_cons_of_mem j hj2)]
      have h5 : ∀ j2 ∈ js, (fwCell k i mn j).2 i j2 = nm i j2 := by
        intro j2 hj2
        rw [hcell2]
        have hne : j2 ≠ j := fun hc => (List.nodup_cons.1 hnd).1 (hc ▸ hj2)
        rw [if_neg (fun hc => hne hc.2), hnirow j2 (List.mem_cons_of_mem j hj2)]
      have hrec := ih (fwCell k i mn j) (List.nodup_cons.1 hnd).2 h1 h2 h3 h4 h5
      intro x y
      obtain ⟨ihd, ihn⟩ := hrec x y
      rw [List.foldl_cons]
      constructor
      · rw [ihd, hcell1 x y]
        by_cases hxi : x = i
        · by_cases hyjs : y ∈ js
          · rw [if_pos ⟨hxi, hyjs⟩, if_pos ⟨hxi, List.mem_cons_of_mem j hyjs⟩]
          · rw [if_neg (fun hc : x = i ∧ y ∈ js => hyjs hc.2)]
            by_cases hyj : y = j
            · rw [if_pos ⟨hxi, hyj⟩,
                if_pos ⟨hxi, by rw [hyj]; exact List.mem_cons_self j js⟩,
                hxi, hyj]
            · rw [if_neg (fun hc : x = i ∧ y = j => hyj hc.2),
                if_neg (fun hc : x = i ∧ y ∈ j :: js =>
                  (List.mem_cons.1 hc.2).elim hyj hyjs)]
        · rw [if_neg (fun hc : x = i ∧ y ∈ js => hxi hc.1),
            if_neg (fun hc : x = i ∧ y = j => hxi hc.1),
            if_neg (fun hc : x = i ∧ y ∈ j :: js => hxi hc.1)]
      · rw [ihn, hcell2 x y]
        by_cases hxi : x = i
        · by_cases hyjs : y ∈ js
          · rw [if_pos ⟨hxi, hyjs⟩, if_pos ⟨hxi, List.mem_cons_of_mem j hyjs⟩]
          · rw [if_neg (fun hc : x = i ∧ y ∈ js => hyjs hc.2)]
            by_cases hyj : y = j
            · rw [if_pos ⟨hxi, hyj⟩,
                if_pos ⟨hxi, by rw [hyj]; exact List.mem_cons_self j js⟩,
                hxi, hyj]
            · rw [if_neg (fun hc : x = i ∧ y = j => hyj hc.2),
                if_neg (fun hc : x = i ∧ y ∈ j :: js =>
                  (List.mem_cons.1 hc.2).elim hyj hyjs)]
        · rw [if_neg (fun hc : x = i ∧ y ∈ js => hxi hc.1),
            if_neg (fun hc : x = i ∧ y = j => hxi hc.1),
            if_neg (fun hc : x = i ∧ y ∈ j :: js => hxi hc.1)]

/-- Outer `i` sweep of one stage. -/
theorem fwStepAux {dm : Mat α} {nm : NMat α} {k : α} {vs : List α}
    (hvs : vs.Nodup) (hkk : Dist.fin 0 ≤ dm k k) :
    ∀ (is2 : List α) (mn : Mat α × NMat α), is2.Nodup →
      (∀ j, mn.1 k j = dm k j) → (∀ j, mn.2 k j = nm k j) →
      (∀ i ∈ is2, ∀ j, mn.1 i j = dm i j) →
      (∀ i ∈ is2, ∀ j, mn.2 i j = nm i j) →
      ∀ x y, ((List.foldl (fwRow k vs) mn is2).1 x y =
          if x ∈ is2 ∧ y ∈ vs then passSpec dm k x y else mn.1 x y) ∧
        ((List.foldl (fwRow k vs) mn is2).2 x y =
          if x ∈ is2 ∧ y ∈ vs then passSpecN dm nm k x y else mn.2 x y) := by
  intro is2
  induction is2 with
  | nil =>
      intro mn _ _ _ _ _ x y
      constructor <;> simp [List.foldl_nil]
  | cons i0 is2 ih =>
      intro mn hnd hkrow hnkrow hrows hnrows
      have hrow := fwRowAux hkk vs mn hvs
        (hrows i0 (List.mem_cons_self i0 is2) k)
        (hnrows i0 (List.mem_cons_self i0 is2) k)
        hkrow
        (fun j _ => hrows i0 (List.mem_cons_self i0 is2) j)
        (fun j _ => hnrows i0 (List.mem_cons_self i0 is2) j)
      have hrowd : ∀ x y, (fwRow k vs mn i0).1 x y =
          if x = i0 ∧ y ∈ vs then passSpec dm k x y else mn.1 x y :=
        fun x y => (hrow x y).1
      have hrown : ∀ x y, (fwRow k vs mn i0).2 x y =
          if x = i0 ∧ y ∈ vs then passSpecN dm nm k x y else mn.2 x y :=
        fun x y => (hrow x y).2
      have h1 : ∀ j, (fwRow k vs mn i0).1 k j = dm k j := by
        intro j
        rw [hrowd]
        by_cases hki : k = i0 ∧ j ∈ vs
        · rw [if_pos hki]
          exact passSpec_ky hkk j
        · rw [if_neg hki, hkrow j]
      have h2 : ∀ j, (fwRow k vs mn i0).2 k j = nm k j := by
        intro j
        rw [hrown]
        by_cases hki : k = i0 ∧ j ∈ vs
        · rw [if_pos hki]
          exact passSpecN_ky hkk j
        · rw [if_neg hki, hnkrow j]
      have h3 : ∀ i ∈ is2, ∀ j, (fwRow k vs mn i0).1 i j = dm i j := by
        intro i hi j
        rw [hrowd]
        have hne : i ≠ i0 := fun hc => (List.nodup_cons.1 hnd).1 (hc ▸ hi)
        rw [if_neg (fun hc => hne hc.1), hrows i (List.mem_cons_of_mem i0 hi) j]
      have h4 : ∀ i ∈ is2, ∀ j, (fwRow k vs mn i0).2 i j = nm i j := by
        intro i hi j
        rw [hrown]
        have hne : i ≠ i0 := fun hc => (List.nodup_cons.1 hnd).1 (hc ▸ hi)
        rw [if_neg (fun hc => hne hc.1), hnrows i (List.mem_cons_of_mem i0 hi) j]
      have hrec := ih (fwRow k vs mn i0) (List.nodup_cons.1 hnd).2 h1 h2 h3 h4
      intro x y
      obtain ⟨ihd, ihn⟩ := hrec x y
      rw [List.foldl_cons]
      constructor
      · rw [ihd, hrowd x y]
        by_cases hyvs : y ∈ vs
        · by_cases hxs : x ∈ is2
          · rw [if_pos ⟨hxs, hyvs⟩, if_pos ⟨List.mem_cons_of_mem i0 hxs, hyvs⟩]
          · rw [if_neg (fun hc : x ∈ is2 ∧ y ∈ vs => hxs hc.1)]
            by_cases hxi : x = i0
            · rw [if_pos ⟨hxi, hyvs⟩,
                if_pos ⟨by rw [hxi]; exact List.mem_cons_self i0 is2, hyvs⟩]
            · rw [if_neg (fun hc : x = i0 ∧ y ∈ vs => hxi hc.1),
                if_neg (fun hc : x ∈ i0 :: is2 ∧ y ∈ vs =>
                  (List.mem_cons.1 hc.1).elim hxi hxs)]
        · rw [if_neg (fun hc : x ∈ is2 ∧ y ∈ vs => hyvs hc.2),
            if_neg (fun hc : x = i0 ∧ y ∈ vs => hyvs hc.2),
            if_neg (fun hc : x ∈ i0 :: is2 ∧ y ∈ vs => hyvs hc.2)]
      · rw [ihn, hrown x y]
        by_cases hyvs : y ∈ vs
        · by_cases hxs : x ∈ is2
          · rw [if_pos ⟨hxs, hyvs⟩, if_pos ⟨List.mem_cons_of_mem i0 hxs, hyvs⟩]
          · rw [if_neg (fun hc : x ∈ is2 ∧ y ∈ vs => hxs hc.1)]
            by_cases hxi : x = i0
            · rw [if_pos ⟨hxi, hyvs⟩,
                if_pos ⟨by rw [hxi]; exact List.mem_cons_self i0 is2, hyvs⟩]
            · rw [if_neg (fun hc : x = i0 ∧ y ∈ vs => hxi hc.1),
                if_neg (fun hc : x ∈ i0 :: is2 ∧ y ∈ vs =>
                  (List.mem_cons.1 hc.1).elim hxi hxs)]
        · rw [if_neg (fun hc : x ∈ is2 ∧ y ∈ vs => hyvs hc.2),
            if_neg (fun hc : x = i0 ∧ y ∈ vs => hyvs hc.2),
            if_neg (fun hc : x ∈ i0 :: is2 ∧ y ∈ vs => hyvs hc.2)]

/-- Pointwise semantics of one whole stage `k`: provided the intermediate
has a non-negative self-distance, stage `k` computes `passSpec` /
`passSpecN` at every pair of listed vertices and touches nothing else. -/
theorem fwStepK_eval {dm : Mat α} {nm : NMat α} {k : α} {vs : List α}
    (hvs : vs.Nodup) (hkk : Dist.fin 0 ≤ dm k k) (x y : α) :
    ((fwStepK vs k (dm, nm)).1 x y =
        if x ∈ vs ∧ y ∈ vs then passSpec dm k x y else dm x y) ∧
      ((fwStepK vs k (dm, nm)).2 x y =
        if x ∈ vs ∧ y ∈ vs then passSpecN dm nm k x y else nm x y) := by
  have h := fwStepAux hvs hkk vs (dm, nm) hvs (fun _ => rfl) (fun _ => rfl)
    (fun _ _ _ => rfl) (fun _ _ _ => rfl) x y
  exact h

end FWEval

section FWInit

variable {α : Type} [DecidableEq α]

/-- The weight of the last-listed edge to `y` in an adjacency list — the
entry that survives the overwriting initialization — if any. -/
def lastW : List (α × Int) → α → Option Int
  | [], _ => none
  | (v, w) :: rest, y =>
      match lastW rest y with
      | some w2 => some w2
      | none => if v = y then some w else none

/-- No adjacency list names the same destination twice (no parallel
edges between one ordered pair). -/
def NoDupEdges (g : Graph α) : Prop := ∀ p ∈ g, (p.2.map Prod.fst).Nodup

instance (g : Graph α) : Decidable (NoDupEdges g) := by
  unfold NoDupEdges; infer_instance

theorem lastW_mem : ∀ {adj : List (α × Int)} {y : α} {w : Int},
    lastW adj y = some w → (y, w) ∈ adj := by
  intro adj
  induction adj with
  | nil => intro y w h; simp [lastW] at h
  | cons p rest ih =>
      intro y w h
      cases p with
      | mk v w2 =>
          cases hlw : lastW rest y with
          | some w3 =>
              simp only [lastW, hlw] at h
              injection h with h
              exact List.mem_cons_of_mem _ (h ▸ ih hlw)
          | none =>
              simp only [lastW, hlw] at h
              by_cases hvy : v = y
              · rw [if_pos hvy] at h
                injection h with h
                rw [← hvy, ← h]
                exact List.mem_cons_self _ _
              · rw [if_neg hvy] at h
                cases h

theorem lastW_isSome_iff {adj : List (α × Int)} {y : α} :
    (lastW adj y).isSome = true ↔ y ∈ adj.map Prod.fst := by
  induction adj with
  | nil => simp [lastW]
  | cons p rest ih =>
      cases p with
      | mk v w2 =>
          cases hlw : lastW rest y with
          | some w3 =>
              rw [hlw] at ih
              simp only [lastW, hlw, List.map_cons, List.mem_cons,
                Option.isSome_some] at ih ⊢
              exact ⟨fun _ => Or.inr (ih.1 trivial), fun _ => trivial⟩
          | none =>
              rw [hlw] at ih
              simp only [lastW, hlw, List.map_cons, List.mem_cons,
                Option.isSome_none] at ih ⊢
              by_cases hvy : v = y
              · rw [if_pos hvy]
                simp only [Option.isSome_some]
                exact ⟨fun _ => Or.inl hvy.symm, fun _ => trivial⟩
              · rw [if_neg hvy]
                simp only [Option.isSome_none]
                constructor
                · intro hc
                  exact absurd hc (by simp)
                · intro hc
                  rcases hc with hc | hc
                  · exact absurd hc.symm hvy
                  · exact absurd (ih.2 hc) (by simp)

theorem lastW_of_mem_nodup : ∀ {adj : List (α × Int)} {y : α} {w : Int},
    (adj.map Prod.fst).Nodup → (y, w) ∈ adj → lastW adj y = some w := by
  intro adj
  induction adj with
  | nil => intro y w _ h; cases h
  | cons p rest ih =>
      intro y w hnd hm
      cases p with
      | mk v w2 =>
          rcases List.mem_cons.1 hm with heq | hm2
          · injection heq with h1 h2
            have hvnot : v ∉ rest.map Prod.fst := by
              simp only [List.map_cons, List.nodup_cons] at hnd
              exact hnd.1
            have hnone : lastW rest y = none := by
              cases hlw : lastW rest y with
              | none => rfl
              | some w3 =>
                  have hmem : y ∈ rest.map Prod.fst :=
                    List.mem_map.2 ⟨(y, w3), lastW_mem hlw, rfl⟩
                  exact absurd (h1 ▸ hmem) hvnot
            simp only [lastW, hnone]
            rw [if_pos h1.symm, h2]
          · have hnd2 : (rest.map Prod.fst).Nodup := by
              simp only [List.map_cons, List.nodup_cons] at hnd
              exact hnd.2
            have hlw := ih hnd2 hm2
            simp only [lastW, hlw]

theorem fwDiag_aux (vs : List α) :
    ∀ (m : Mat α) (x y : α),
      (vs.foldl (fun m v => mupd m v v (Dist.fin 0)) m) x y =
        if x = y ∧ x ∈ vs then Dist.fin 0 else m x y := by
  induction vs with
  | nil =>
      intro m x y
      simp [List.foldl_nil]
  | cons v vs ih =>
      intro m x y
      rw [List.foldl_cons, ih]
      by_cases hxy : x = y
      · by_cases hxvs : x ∈ vs
        · rw [if_pos ⟨hxy, hxvs⟩, if_pos ⟨hxy, List.mem_cons_of_mem v hxvs⟩]
        · rw [if_neg (fun hc : x = y ∧ x ∈ vs => hxvs hc.2), mupd_eq_ite]
          by_cases hxv : x = v
          · rw [if_pos ⟨hxv, hxy.symm.trans hxv⟩,
              if_pos ⟨hxy, by rw [hxv]; exact List.mem_cons_self v vs⟩]
          · rw [if_neg (fun hc : x = v ∧ y = v => hxv hc.1),
              if_neg (fun hc : x = y ∧ x ∈ v :: vs =>
                (List.mem_cons.1 hc.2).elim hxv hxvs)]
      · rw [if_neg (fun hc : x = y ∧ x ∈ vs => hxy hc.1), mupd_eq_ite,
          if_neg (fun hc : x = v ∧ y = v => hxy (hc.1.trans hc.2.symm)),
          if_neg (fun hc : x = y ∧ x ∈ v :: vs => hxy hc.1)]

theorem fwDiag_eval (vs : List α) (x y : α) :
    fwDiag vs x y = if x = y ∧ x ∈ vs then Dist.fin 0 else Dist.inf := by
  unfold fwDiag
  rw [fwDiag_aux]

theorem fwInitAdj_ne (u : α) :
    ∀ (adj : List (α × Int)) (mn : Mat α × NMat α) {x : α}, x ≠ u →
      ∀ y, (fwInitAdj u adj mn).1 x y = mn.1 x y ∧
        (fwInitAdj u adj mn).2 x y = mn.2 x y := by
  intro adj
  induction adj with
  | nil => intro mn x hx y; exact ⟨rfl, rfl⟩
  | cons p rest ih =>
      intro mn x hx y
      cases p with
      | mk v w =>
          simp only [fwInitAdj]
          obtain ⟨h1, h2⟩ :=
            ih (mupd mn.1 u v (Dist.fin w), mupd mn.2 u v (some v)) hx y
          constructor
          · rw [h1]
            show mupd mn.1 u v (Dist.fin w) x y = mn.1 x y
            rw [mupd_eq_ite, if_neg (fun hc : x = u ∧ y = v => hx hc.1)]
          · rw [h2]
            show mupd mn.2 u v (some v) x y = mn.2 x y
            rw [mupd_eq_ite, if_neg (fun hc : x = u ∧ y = v => hx hc.1)]

theorem fwInitAdj_eval (u : α) :
    ∀ (adj : List (α × Int)) (mn : Mat α × NMat α) (y : α),
      ((fwInitAdj u adj mn).1 u y =
        (match lastW adj y with
         | some w => Dist.fin w
         | none => mn.1 u y)) ∧
      ((fwInitAdj u adj mn).2 u y =
        (match lastW adj y with
         | some _ => some y
         | none => mn.2 u y)) := by
  intro adj
  induction adj with
  | nil => intro mn y; exact ⟨rfl, rfl⟩
  | cons p rest ih =>
      intro mn y
      cases p with
      | mk v w =>
          obtain ⟨h1, h2⟩ :=
            ih (mupd mn.1 u v (Dist.fin w), mupd mn.2 u v (some v)) y
          cases hlw : lastW rest y with
          | some w2 =>
              constructor
              · simp only [fwInitAdj, lastW, hlw]
                rw [h1, hlw]
              · simp only [fwInitAdj, lastW, hlw]
                rw [h2, hlw]
          | none =>
              constructor
              · simp only [fwInitAdj, lastW, hlw]
                rw [h1, hlw]
                show mupd mn.1 u v (Dist.fin w) u y = _
                rw [mupd_eq_ite]
                by_cases hvy : v = y
                · rw [if_pos ⟨rfl, hvy.symm⟩, if_pos hvy]
                · rw [if_neg (fun hc : u = u ∧ y = v => hvy hc.2.symm),
                    if_neg hvy]
              · simp only [fwInitAdj, lastW, hlw]
                rw [h2, hlw]
                show mupd mn.2 u v (some v) u y = _
                rw [mupd_eq_ite]
                by_cases hvy : v = y
                · rw [if_pos ⟨rfl, hvy.symm⟩, if_pos hvy, hvy]
                · rw [if_neg (fun hc : u = u ∧ y = v => hvy hc.2.symm),
                    if_neg hvy]

theorem fwInitEdges_ne :
    ∀ (g : Graph α) (mn : Mat α × NMat α) {x : α}, x ∉ keys g →
      ∀ y, (fwInitEdges g mn).1 x y = mn.1 x y ∧
        (fwInitEdges g mn).2 x y = mn.2 x y := by
  intro g
  induction g with
  | nil => intro mn x hx y; exact ⟨rfl, rfl⟩
  | cons p rest ih =>
      intro mn x hx y
      cases p with
      | mk u adj =>
          simp only [fwInitEdges]
          simp only [keys, List.map_cons, List.mem_cons, not_or] at hx
          obtain ⟨h1, h2⟩ := ih (fwInitAdj u adj mn) hx.2 y
          obtain ⟨h3, h4⟩ := fwInitAdj_ne u adj mn hx.1 y
          exact ⟨h1.trans h3, h2.trans h4⟩

theorem fwInitEdges_eval :
    ∀ (g : Graph α), (keys g).Nodup →
      ∀ (mn : Mat α × NMat α) {x : α}, x ∈ keys g → ∀ y,
        ((fwInitEdges g mn).1 x y =
          (match lastW (adjOf g x) y with
           | some w => Dist.fin w
           | none => mn.1 x y)) ∧
        ((fwInitEdges g mn).2 x y =
          (match lastW (adjOf g x) y with
           | some _ => some y
           | none => mn.2 x y)) := by
  intro g
  induction g with
  | nil =>
      intro _ mn x hx
      simp [keys] at hx
  | cons p rest ih =>
      intro hnd mn x hx y
      cases p with
      | mk u adj =>
          simp only [keys, List.map_cons, List.nodup_cons] at hnd
          simp only [keys, List.map_cons, List.mem_cons] at hx
          simp only [fwInitEdges]
          by_cases hxu : x = u
          · have hadj : adjOf ((u, adj) :: rest) x = adj := by
              simp only [adjOf, agetD, aget]
              rw [if_pos hxu.symm]
              rfl
            rw [hadj]
            have hxr : x ∉ keys rest := fun hc => hnd.1 (hxu ▸ hc)
            obtain ⟨h1, h2⟩ := fwInitEdges_ne rest (fwInitAdj u adj mn) hxr y
            obtain ⟨h3, h4⟩ := fwInitAdj_eval u adj mn y
            rw [hxu] at h1 h2 ⊢
            exact ⟨h1.trans h3, h2.trans h4⟩
          · have hadj : adjOf ((u, adj) :: rest) x = adjOf rest x := by
              simp only [adjOf, agetD, aget]
              rw [if_neg (fun hc : u = x => hxu hc.symm)]
            rw [hadj]
            have hxr : x ∈ keys rest := hx.elim (fun hc => absurd hc hxu) id
            obtain ⟨h1, h2⟩ := ih hnd.2 (fwInitAdj u adj mn) hxr y
            obtain ⟨h3, h4⟩ := fwInitAdj_ne u adj mn hxu y
            rw [h3] at h1
            rw [h4] at h2
            exact ⟨h1, h2⟩

/-- Value of the initial distance matrix: the last-listed direct edge if
one exists, else `0` on the diagonal of a listed vertex, else `inf`. -/
theorem fwInit_dist {g : Graph α} (hnd : (keys g).Nodup) (x y : α) :
    (fwInit g).1 x y =
      (match lastW (adjOf g x) y with
       | some w => Dist.fin w
       | none => if x = y ∧ x ∈ keys g then Dist.fin 0 else Dist.inf) := by
  by_cases hx : x ∈ keys g
  · obtain ⟨h1, _⟩ :=
      fwInitEdges_eval g hnd (fwDiag (keys g), fun _ _ => none) hx y
    unfold fwInit
    rw [h1]
    cases lastW (adjOf g x) y with
    | some w => rfl
    | none =>
        show fwDiag (keys g) x y = _
        rw [fwDiag_eval]
  · have hadj : adjOf g x = [] := by
      unfold adjOf agetD
      rw [(aget_eq_none_iff g x).2 hx]
      rfl
    rw [hadj]
    obtain ⟨h1, _⟩ :=
      fwInitEdges_ne g (fwDiag (keys g), fun _ _ => none) hx y
    unfold fwInit
    rw [h1]
    show fwDiag (keys g) x y = _
    rw [fwDiag_eval,
      if_neg (fun hc : x = y ∧ x ∈ keys g => hx hc.2),
      show lastW ([] : List (α × Int)) y = none from rfl]

/-- Value of the initial next-hop matrix: the destination itself exactly
when a direct edge is listed. -/
theorem fwInit_nxt {g : Graph α} (hnd : (keys g).Nodup) (x y : α) :
    (fwInit g).2 x y =
      (match lastW (adjOf g x) y with
       | some _ => some y
       | none => none) := by
  by_cases hx : x ∈ keys g
  · obtain ⟨_, h2⟩ :=
      fwInitEdges_eval g hnd (fwDiag (keys g), fun _ _ => none) hx y
    unfold fwInit
    rw [h2]
  · have hadj : adjOf g x = [] := by
      unfold adjOf agetD
      rw [(aget_eq_none_iff g x).2 hx]
      rfl
    rw [hadj]
    obtain ⟨_, h2⟩ :=
      fwInitEdges_ne g (fwDiag (keys g), fun _ _ => none) hx y
    unfold fwInit
    rw [h2]
    rfl

end FWInit

section FWInvariant

variable {α : Type} [DecidableEq α]

theorem passSpec_eq (dm : Mat α) (k x y : α) :
    passSpec dm k x y =
      if dm x k + dm k y < dm x y then dm x k + dm k y else dm x y := rfl

theorem passSpecN_eq (dm : Mat α) (nm : NMat α) (k x y : α) :
    passSpecN dm nm k x y =
      if dm x k + dm k y < dm x y then nm x k else nm x y := rfl

/-- Every finite entry is realized by some walk of exactly that weight. -/
def FWSound (g : Graph α) (dm : Mat α) : Prop :=
  ∀ x y, dm x y ≠ Dist.inf →
    ∃ steps, IsWalk g x steps y ∧ Dist.fin (walkW steps) = dm x y

/-- Entries bound every nonempty walk whose interior stays inside the
processed prefix `P` of intermediates. -/
def FWCompl (g : Graph α) (P : List α) (dm : Mat α) : Prop :=
  ∀ x y steps, steps ≠ [] → x ∈ keys g → IsWalk g x steps y →
    (∀ z ∈ innerV steps, z ∈ P) → dm x y ≤ Dist.fin (walkW steps)

/-- Off-diagonal finite entries carry a next-hop pointer. -/
def FWPtr (dm : Mat α) (nm : NMat α) : Prop :=
  ∀ x y, x ≠ y → dm x y ≠ Dist.inf → nm x y ≠ none

/-- A pointer chain towards `tgt`: a walk whose first hop is the stored
next hop and whose distance entry at every suffix start equals the exact
remaining walk weight. -/
def ChainR (g : Graph α) (dm : Mat α) (nm : NMat α) (tgt : α) :
    α → List (α × Int) → Prop
  | x, [] => x = tgt
  | x, (v, w) :: rest =>
      (x, v, w) ∈ edgesOf g ∧ nm x tgt = some v ∧
        dm x tgt = Dist.fin (w + walkW rest) ∧ ChainR g dm nm tgt v rest

/-- Every stored pointer is explained by a chain whose interior lies in
the processed prefix. -/
def FWChains (g : Graph α) (P : List α) (dm : Mat α) (nm : NMat α) : Prop :=
  ∀ x y, nm x y ≠ none →
    ∃ steps, steps ≠ [] ∧ ChainR g dm nm y x steps ∧
      ∀ z ∈ innerV steps, z ∈ P

/-- The stage invariant of the triple loop, after the intermediates in
`P` have been processed. -/
def FWInv (g : Graph α) (P : List α) (mn : Mat α × NMat α) : Prop :=
  FWSound g mn.1 ∧ FWCompl g P mn.1 ∧ FWPtr mn.1 mn.2 ∧
    FWChains g P mn.1 mn.2

theorem chainR_isWalk {g : Graph α} {dm : Mat α} {nm : NMat α} {tgt : α} :
    ∀ {steps : List (α × Int)} {x : α}, ChainR g dm nm tgt x steps →
      IsWalk g x steps tgt := by
  intro steps
  induction steps with
  | nil => intro x h; exact h
  | cons p rest ih =>
      intro x h
      cases p with
      | mk v w => exact ⟨h.1, ih h.2.2.2⟩

theorem chainR_dist {g : Graph α} {dm : Mat α} {nm : NMat α} {tgt : α}
    {steps : List (α × Int)} {x : α} (h : ChainR g dm nm tgt x steps)
    (hne : steps ≠ []) : dm x tgt = Dist.fin (walkW steps) := by
  cases steps with
  | nil => exact absurd rfl hne
  | cons p rest =>
      cases p with
      | mk v w => exact h.2.2.1

theorem chainR_nxt {g : Graph α} {dm : Mat α} {nm : NMat α} {tgt : α}
    {p : α × Int} {rest : List (α × Int)} {x : α}
    (h : ChainR g dm nm tgt x (p :: rest)) : nm x tgt = some p.1 := by
  cases p with
  | mk v w => exact h.2.1

theorem sound_diag_nonneg {g : Graph α} {dm : Mat α} (hs : FWSound g dm)
    (hnc : NoNegCycle g) (k : α) : Dist.fin 0 ≤ dm k k := by
  cases hd : dm k k with
  | inf => exact Dist.le_inf _
  | fin w =>
      rcases hs k k (by rw [hd]; exact fun hc => Dist.noConfusion hc) with
        ⟨steps, hwk, hww⟩
      have h0 := hnc k steps hwk
      rw [hd] at hww
      injection hww with hww
      rw [Dist.fin_le_fin]
      omega

theorem fwInit_dist_some {g : Graph α} (hnd : (keys g).Nodup) {x y : α}
    {w : Int} (hlw : lastW (adjOf g x) y = some w) :
    (fwInit g).1 x y = Dist.fin w := by
  rw [fwInit_dist hnd x y, hlw]

theorem fwInit_dist_none {g : Graph α} (hnd : (keys g).Nodup) {x y : α}
    (hlw : lastW (adjOf g x) y = none) :
    (fwInit g).1 x y =
      if x = y ∧ x ∈ keys g then Dist.fin 0 else Dist.inf := by
  rw [fwInit_dist hnd x y, hlw]

theorem fwInit_nxt_some {g : Graph α} (hnd : (keys g).Nodup) {x y : α}
    {w : Int} (hlw : lastW (adjOf g x) y = some w) :
    (fwInit g).2 x y = some y := by
  rw [fwInit_nxt hnd x y, hlw]

theorem fwInit_nxt_none {g : Graph α} (hnd : (keys g).Nodup) {x y : α}
    (hlw : lastW (adjOf g x) y = none) : (fwInit g).2 x y = none := by
  rw [fwInit_nxt hnd x y, hlw]

theorem adjOf_nodup {g : Graph α} (hde : NoDupEdges g) (x : α) :
    ((adjOf g x).map Prod.fst).Nodup := by
  unfold adjOf agetD
  cases hg : aget g x with
  | none => simp
  | some adj =>
      have h := hde (x, adj) (aget_mem g hg)
      simpa using h

theorem fwInit_sound {g : Graph α} (hnd : (keys g).Nodup) :
    FWSound g (fwInit g).1 := by
  intro x y hfin
  cases hlw : lastW (adjOf g x) y with
  | some w =>
      rw [fwInit_dist_some hnd hlw]
      have hedge : (x, y, w) ∈ edgesOf g := adjOf_mem_edgesOf (lastW_mem hlw)
      exact ⟨[(y, w)], ⟨hedge, rfl⟩, by simp [walkW]⟩
  | none =>
      rw [fwInit_dist_none hnd hlw] at hfin
      by_cases hc : x = y ∧ x ∈ keys g
      · refine ⟨[], hc.1, ?_⟩
        rw [fwInit_dist_none hnd hlw, if_pos hc]
        rfl
      · rw [if_neg hc] at hfin
        exact absurd rfl hfin

theorem innerV_single (v : α) (w : Int) : innerV [(v, w)] = [] := rfl

theorem innerV_cons_of_ne {p : α × Int} {rest : List (α × Int)}
    (h : rest ≠ []) : innerV (p :: rest) = p.1 :: innerV rest := by
  unfold innerV
  rw [List.map_cons]
  cases rest with
  | nil => exact absurd rfl h
  | cons q r => rw [List.map_cons, List.dropLast_cons₂]

theorem innerV_append_left {a b : List (α × Int)} (hb : b ≠ []) :
    innerV (a ++ b) = a.map Prod.fst ++ innerV b := by
  unfold innerV
  rw [List.map_append, List.dropLast_append_of_ne_nil]
  intro hc
  exact hb (List.map_eq_nil.1 hc)

theorem fwInit_compl {g : Graph α} (hw : WF g) (hde : NoDupEdges g) :
    FWCompl g [] (fwInit g).1 := by
  intro x y steps hne hx hwalk hinner
  cases steps with
  | nil => exact absurd rfl hne
  | cons p rest =>
      cases p with
      | mk v w =>
          cases rest with
          | cons q rest2 =>
              exfalso
              have hv : v ∈ innerV ((v, w) :: q :: rest2) := by
                rw [innerV_cons_of_ne (by simp)]
                exact List.mem_cons_self _ _
              exact absurd (hinner v hv) (List.not_mem_nil v)
          | nil =>
              obtain ⟨hedge, hvy⟩ := isWalk_single.1 hwalk
              have hmem : (v, w) ∈ adjOf g x := mem_adjOf_of_edge hw hedge
              have hlw : lastW (adjOf g x) y = some w := by
                rw [← hvy]
                exact lastW_of_mem_nodup (adjOf_nodup hde x) hmem
              rw [fwInit_dist_some hw.1 hlw]
              simp [walkW]

theorem fwInit_ptr {g : Graph α} (hnd : (keys g).Nodup) :
    FWPtr (fwInit g).1 (fwInit g).2 := by
  intro x y hxy hfin
  cases hlw : lastW (adjOf g x) y with
  | some w =>
      rw [fwInit_nxt_some hnd hlw]
      simp
  | none =>
      rw [fwInit_dist_none hnd hlw,
        if_neg (fun hc : x = y ∧ x ∈ keys g => hxy hc.1)] at hfin
      exact absurd rfl hfin

theorem fwInit_chains {g : Graph α} (hnd : (keys g).Nodup) :
    FWChains g [] (fwInit g).1 (fwInit g).2 := by
  intro x y hne
  cases hlw : lastW (adjOf g x) y with
  | none =>
      rw [fwInit_nxt_none hnd hlw] at hne
      exact absurd rfl hne
  | some w =>
      have hedge : (x, y, w) ∈ edgesOf g := adjOf_mem_edgesOf (lastW_mem hlw)
      refine ⟨[(y, w)], by simp, ?_, ?_⟩
      · refine ⟨hedge, fwInit_nxt_some hnd hlw, ?_, rfl⟩
        rw [fwInit_dist_some hnd hlw]
        simp [walkW]
      · rw [innerV_single]
        intro z hz
        exact absurd hz (List.not_mem_nil z)

theorem mem_first_split {β : Type} [DecidableEq β] {x : β} :
    ∀ {l : List β}, x ∈ l → ∃ l1 l2, l = l1 ++ x :: l2 ∧ x ∉ l1 := by
  intro l
  induction l with
  | nil => intro h; cases h
  | cons a t ih =>
      intro h
      by_cases hax : a = x
      · exact ⟨[], t, by rw [hax, List.nil_append], List.not_mem_nil x⟩
      · have hxt : x ∈ t := by
          rcases List.mem_cons.1 h with hc | hc
          · exact absurd hc.symm hax
          · exact hc
        rcases ih hxt with ⟨l1, l2, heq, hnx⟩
        refine ⟨a :: l1, l2, by rw [heq]; rfl, ?_⟩
        intro hc
        rcases List.mem_cons.1 hc with hc | hc
        · exact hax hc.symm
        · exact hnx hc

/-- Any walk out of `k` can be trimmed (dropping closed sub-walks at `k`)
to one avoiding `k` in its interior without increasing its weight. -/
theorem walk_trim {g : Graph α} (hnc : NoNegCycle g) {k y : α} :
    ∀ (n : Nat) {steps : List (α × Int)}, steps.length ≤ n →
      IsWalk g k steps y →
      ∃ t, IsWalk g k t y ∧ walkW t ≤ walkW steps ∧ k ∉ innerV t ∧
        (∀ z ∈ innerV t, z ∈ innerV steps) := by
  intro n
  induction n with
  | zero =>
      intro steps hlen hwk
      have hnil : steps = [] := List.length_eq_zero.1 (Nat.le_zero.1 hlen)
      subst hnil
      exact ⟨[], hwk, le_refl _, by simp [innerV], fun z hz => hz⟩
  | succ n ih =>
      intro steps hlen hwk
      by_cases hkin : k ∈ innerV steps
      · have hkmem : k ∈ steps.map Prod.fst :=
          (List.dropLast_sublist _).subset hkin
        rcases mem_first_split hkmem with ⟨m1, m2, hm, hknot⟩
        rcases walk_split_of_map hwk hm with
          ⟨t1, t2, heq, hmap1, hmap2, hw1, hw2⟩
        have ht2ne : t2 ≠ [] := by
          intro hc
          subst hc
          have hm2 : m2 = [] := by
            cases m2 with
            | nil => rfl
            | cons c cs => exact absurd hmap2.symm (by simp)
          subst hm2
          unfold innerV at hkin
          rw [hm, List.dropLast_concat] at hkin
          exact hknot hkin
        have ht1ne : t1 ≠ [] := by
          intro hc
          rw [hc] at hmap1
          exact absurd hmap1.symm (by simp)
        have hlen2 : t2.length ≤ n := by
          have hA := congrArg List.length heq
          have hB : 1 ≤ t1.length := by
            cases t1 with
            | nil => exact absurd rfl ht1ne
            | cons c cs => simp
          simp only [List.length_append] at hA
          omega
        rcases ih hlen2 hw2 with ⟨t, hwt, hwle, hknotin, hsub⟩
        have hcl : 0 ≤ walkW t1 := hnc k t1 hw1
        refine ⟨t, hwt, ?_, hknotin, ?_⟩
        · have hws : walkW steps = walkW t1 + walkW t2 := by
            rw [heq, walkW_append]
          omega
        · intro z hz
          have hz2 := hsub z hz
          rw [heq, innerV_append_left ht2ne]
          exact List.mem_append_right _ hz2
      · exact ⟨steps, hwk, le_refl _, hkin, fun z hz => hz⟩

theorem passSpec_sound {g : Graph α} {dm : Mat α} (hs : FWSound g dm)
    (k x y : α) (hfin : passSpec dm k x y ≠ Dist.inf) :
    ∃ steps, IsWalk g x steps y ∧
      Dist.fin (walkW steps) = passSpec dm k x y := by
  rw [passSpec_eq] at hfin ⊢
  by_cases hupd : dm x k + dm k y < dm x y
  · rw [if_pos hupd] at hfin ⊢
    cases hxk : dm x k with
    | inf =>
        rw [hxk, Dist.inf_add] at hfin
        exact absurd rfl hfin
    | fin w1 =>
        cases hky : dm k y with
        | inf =>
            rw [hky, Dist.add_inf] at hfin
            exact absurd rfl hfin
        | fin w2 =>
            rcases hs x k (by rw [hxk]; exact fun hc => Dist.noConfusion hc)
              with ⟨s1, hw1, hv1⟩
            rcases hs k y (by rw [hky]; exact fun hc => Dist.noConfusion hc)
              with ⟨s2, hw2, hv2⟩
            refine ⟨s1 ++ s2, isWalk_append hw1 hw2, ?_⟩
            rw [walkW_append, Dist.fin_add_fin]
            rw [hxk] at hv1
            rw [hky] at hv2
            injection hv1 with hv1
            injection hv2 with hv2
            rw [hv1, hv2]
  · rw [if_neg hupd]
    rw [if_neg hupd] at hfin
    exact hs x y hfin

theorem fwSound_step {g : Graph α} {dm f : Mat α} (hs : FWSound g dm) (k : α)
    (hf : ∀ a b, f a b =
      if a ∈ keys g ∧ b ∈ keys g then passSpec dm k a b else dm a b) :
    FWSound g f := by
  intro x y hfin
  rw [hf] at hfin ⊢
  by_cases hxy : x ∈ keys g ∧ y ∈ keys g
  · rw [if_pos hxy] at hfin ⊢
    exact passSpec_sound hs k x y hfin
  · rw [if_neg hxy] at hfin ⊢
    exact hs x y hfin

theorem fwCompl_step {g : Graph α} (hw : WF g) (hnc : NoNegCycle g)
    {P : List α} {k : α} (hk : k ∈ keys g) {dm f : Mat α}
    (hcp : FWCompl g P dm)
    (hf : ∀ a b, f a b =
      if a ∈ keys g ∧ b ∈ keys g then passSpec dm k a b else dm a b) :
    FWCompl g (P ++ [k]) f := by
  have hfle : ∀ a b, f a b ≤ dm a b := by
    intro a b
    rw [hf]
    by_cases hab : a ∈ keys g ∧ b ∈ keys g
    · rw [if_pos hab]
      exact passSpec_le dm k a b
    · rw [if_neg hab]
      exact Dist.le_refl _
  have hfmin : ∀ a b, a ∈ keys g → b ∈ keys g →
      f a b ≤ dm a k + dm k b := by
    intro a b ha hb
    rw [hf, if_pos ⟨ha, hb⟩, passSpec_eq]
    by_cases hupd : dm a k + dm k b < dm a b
    · rw [if_pos hupd]
      exact Dist.le_refl _
    · rw [if_neg hupd]
      exact Dist.not_lt.1 hupd
  intro x y steps hne hx hwalk hinner
  by_cases hkin : k ∈ innerV steps
  · have hkmem : k ∈ steps.map Prod.fst :=
      (List.dropLast_sublist _).subset hkin
    rcases mem_first_split hkmem with ⟨m1, m2, hm, hknot⟩
    rcases walk_split_of_map hwalk hm with
      ⟨t1, t2, heq, hmap1, hmap2, hw1, hw2⟩
    have ht1ne : t1 ≠ [] := by
      intro hc
      rw [hc] at hmap1
      exact absurd hmap1.symm (by simp)
    have hin1 : ∀ z ∈ innerV t1, z ∈ P := by
      intro z hz
      have hz1 : z ∈ m1 := by
        have : innerV t1 = m1 := by
          unfold innerV
          rw [hmap1, List.dropLast_concat]
        rwa [this] at hz
      have hz2 : z ∈ innerV steps := by
        unfold innerV
        rw [hm,
          List.dropLast_append_of_ne_nil _ (by simp : (k :: m2 : List α) ≠ [])]
        exact List.mem_append_left _ hz1
      rcases List.mem_append.1 (hinner z hz2) with hz3 | hz3
      · exact hz3
      · exfalso
        have hzk : z = k := by simpa using hz3
        exact hknot (hzk ▸ hz1)
    have hdxk : dm x k ≤ Dist.fin (walkW t1) := hcp x k t1 ht1ne hx hw1 hin1
    by_cases hyk : y = k
    · have ht2cl : 0 ≤ walkW t2 := by
        have hw2k : IsWalk g k t2 k := by rw [hyk] at hw2; exact hw2
        exact hnc k t2 hw2k
      have hws : walkW steps = walkW t1 + walkW t2 := by
        rw [heq, walkW_append]
      have h1 : f x y ≤ dm x y := hfle x y
      have h2 : dm x y ≤ Dist.fin (walkW t1) := by
        rw [hyk]
        exact hdxk
      refine Dist.le_trans (Dist.le_trans h1 h2) ?_
      rw [Dist.fin_le_fin, hws]
      omega
    · have ht2ne : t2 ≠ [] := by
        intro hc
        rw [hc] at hw2
        exact hyk (isWalk_nil.1 hw2).symm
      have hin2 : ∀ z ∈ innerV t2, z ∈ innerV steps := by
        intro z hz
        rw [heq, innerV_append_left ht2ne]
        exact List.mem_append_right _ hz
      rcases walk_trim hnc t2.length (le_refl _) hw2 with
        ⟨t, hwt, hwle, hknotin, hsub⟩
      have htne : t ≠ [] := by
        intro hc
        rw [hc] at hwt
        exact hyk (isWalk_nil.1 hwt).symm
      have hint : ∀ z ∈ innerV t, z ∈ P := by
        intro z hz
        have hz2 := hin2 z (hsub z hz)
        rcases List.mem_append.1 (hinner z hz2) with hz3 | hz3
        · exact hz3
        · exfalso
          have hzk : z = k := by simpa using hz3
          exact hknotin (hzk ▸ hz)
      have hy : y ∈ keys g := by
        have hymem : y ∈ t2.map Prod.fst := by
          have hl := walk_getLast hw2 ht2ne
          cases hml : (t2.map Prod.fst).getLast? with
          | none =>
              rw [hml] at hl
              cases hl
          | some a =>
              rw [hml] at hl
              injection hl with hl
              exact hl ▸ List.mem_of_mem_getLast? hml
        exact walk_fst_mem_keys hw hw2 y hymem
      have hdky : dm k y ≤ Dist.fin (walkW t) := hcp k y t htne hk hwt hint
      have hstep : f x y ≤ dm x k + dm k y := hfmin x y hx hy
      have hcomb : dm x k + dm k y ≤
          Dist.fin (walkW t1) + Dist.fin (walkW t) := by
        exact Dist.le_trans (Dist.add_right_mono _ hdxk)
          (Dist.add_left_mono _ hdky)
      refine Dist.le_trans hstep (Dist.le_trans hcomb ?_)
      rw [Dist.fin_add_fin, Dist.fin_le_fin, heq, walkW_append]
      have := Dist.fin_le_fin.1 (Dist.le_trans (Dist.le_refl _)
        (by rw [← Dist.fin_le_fin] at hwle; exact hwle))
      omega
  · have hinP : ∀ z ∈ innerV steps, z ∈ P := by
      intro z hz
      rcases List.mem_append.1 (hinner z hz) with hz3 | hz3
      · exact hz3
      · exfalso
        have hzk : z = k := by simpa using hz3
        exact hkin (hzk ▸ hz)
    exact Dist.le_trans (hfle x y) (hcp x y steps hne hx hwalk hinP)

theorem fwPtr_step {g : Graph α} {k : α} {dm f : Mat α}
    {nm fn : NMat α} (hkk : Dist.fin 0 ≤ dm k k) (hptr : FWPtr dm nm)
    (hf : ∀ a b, f a b =
      if a ∈ keys g ∧ b ∈ keys g then passSpec dm k a b else dm a b)
    (hfn : ∀ a b, fn a b =
      if a ∈ keys g ∧ b ∈ keys g then passSpecN dm nm k a b else nm a b) :
    FWPtr f fn := by
  intro x y hxy hfin
  rw [hf] at hfin
  rw [hfn]
  by_cases hxyk : x ∈ keys g ∧ y ∈ keys g
  · rw [if_pos hxyk] at hfin
    rw [if_pos hxyk, passSpecN_eq]
    rw [passSpec_eq] at hfin
    by_cases hupd : dm x k + dm k y < dm x y
    · rw [if_pos hupd] at hfin
      rw [if_pos hupd]
      have hxk : x ≠ k := by
        intro hc
        rw [hc] at hupd
        exact absurd (Dist.lt_of_le_of_lt (Dist.le_add_of_nonneg_left hkk) hupd)
          (Dist.lt_irrefl _)
      have hdxk : dm x k ≠ Dist.inf := by
        intro hc
        rw [hc, Dist.inf_add] at hfin
        exact hfin rfl
      exact hptr x k hxk hdxk
    · rw [if_neg hupd] at hfin
      rw [if_neg hupd]
      exact hptr x y hxy hfin
  · rw [if_neg hxyk] at hfin
    rw [if_neg hxyk]
    exact hptr x y hxy hfin

end FWInvariant

section FWChainsStep

variable {α : Type} [DecidableEq α]

/-- If a stage-`k` update fires at an interior vertex of a chain, it also
fires at the chain's start (the through-`k` route improves upstream too). -/
theorem chain_update_prop {g : Graph α} (hw : WF g) (hnc : NoNegCycle g)
    {P : List α} {k : α} (hkP : k ∉ P) {dm : Mat α} {nm : NMat α}
    (hptr : FWPtr dm nm) (hch : FWChains g P dm nm) (hcp : FWCompl g P dm)
    {tgt x v : α} {w : Int} {rest : List (α × Int)}
    (hedge : (x, v, w) ∈ edgesOf g)
    (hdist : dm x tgt = Dist.fin (w + walkW rest))
    (htail : ChainR g dm nm tgt v rest)
    (hinner : ∀ z ∈ innerV ((v, w) :: rest), z ∈ P)
    (hrest : rest ≠ [])
    (hupd : dm v k + dm k tgt < dm v tgt) :
    dm x k + dm k tgt < dm x tgt := by
  have hvP : v ∈ P := by
    apply hinner
    rw [innerV_cons_of_ne hrest]
    exact List.mem_cons_self _ _
  have hvk : v ≠ k := fun hc => hkP (hc ▸ hvP)
  have hdvk : dm v k ≠ Dist.inf := by
    intro hc
    rw [hc, Dist.inf_add] at hupd
    exact absurd hupd (Dist.not_inf_lt _)
  have hnvk : nm v k ≠ none := hptr v k hvk hdvk
  rcases hch v k hnvk with ⟨t, htne, htch, htin⟩
  have hwt : IsWalk g v t k := chainR_isWalk htch
  have hdt : dm v k = Dist.fin (walkW t) := chainR_dist htch htne
  have hxkeys : x ∈ keys g := edge_fst_mem_keys hedge
  have hcin : ∀ z ∈ innerV ((v, w) :: t), z ∈ P := by
    intro z hz
    rw [innerV_cons_of_ne htne] at hz
    rcases List.mem_cons.1 hz with hz | hz
    · exact hz ▸ hvP
    · exact htin z hz
  have hdxk : dm x k ≤ Dist.fin (w + walkW t) := by
    have := hcp x k ((v, w) :: t) (by simp) hxkeys ⟨hedge, hwt⟩ hcin
    simpa [walkW] using this
  have hdvtgt : dm v tgt = Dist.fin (walkW rest) := chainR_dist htail hrest
  have hdxk2 : dm x k ≤ Dist.fin w + dm v k := by
    rw [hdt, Dist.fin_add_fin]
    exact hdxk
  have h1 : dm x k + dm k tgt ≤ Dist.fin w + (dm v k + dm k tgt) := by
    have h := Dist.add_right_mono (dm k tgt) hdxk2
    rwa [Dist.add_assoc] at h
  have h2 : Dist.fin w + (dm v k + dm k tgt) < Dist.fin w + dm v tgt :=
    Dist.add_lt_add_left_fin w hupd
  have h3 : Dist.fin w + dm v tgt = dm x tgt := by
    rw [hdvtgt, Dist.fin_add_fin, ← hdist]
  exact h3 ▸ Dist.lt_of_le_of_lt h1 h2

/-- A chain none of whose entries the stage updates survives the stage
verbatim. -/
theorem chain_preserved {g : Graph α} (hw : WF g) (hnc : NoNegCycle g)
    {P : List α} {k : α} (hkP : k ∉ P) {dm f : Mat α} {nm fn : NMat α}
    (hptr : FWPtr dm nm) (hch : FWChains g P dm nm) (hcp : FWCompl g P dm)
    (hf : ∀ a b, f a b =
      if a ∈ keys g ∧ b ∈ keys g then passSpec dm k a b else dm a b)
    (hfn : ∀ a b, fn a b =
      if a ∈ keys g ∧ b ∈ keys g then passSpecN dm nm k a b else nm a b)
    {tgt : α} :
    ∀ {steps : List (α × Int)} {x : α}, ChainR g dm nm tgt x steps →
      (∀ z ∈ innerV steps, z ∈ P) →
      ¬ (dm x k + dm k tgt < dm x tgt) →
      ChainR g f fn tgt x steps := by
  intro steps
  induction steps with
  | nil =>
      intro x h _ _
      exact h
  | cons p rest ih =>
      intro x h hinner hnupd
      cases p with
      | mk v w =>
          obtain ⟨hedge, hnxt, hdist, htail⟩ := h
          have hfeq : f x tgt = dm x tgt := by
            rw [hf]
            by_cases hxy : x ∈ keys g ∧ tgt ∈ keys g
            · rw [if_pos hxy, passSpec_eq, if_neg hnupd]
            · rw [if_neg hxy]
          have hfneq : fn x tgt = nm x tgt := by
            rw [hfn]
            by_cases hxy : x ∈ keys g ∧ tgt ∈ keys g
            · rw [if_pos hxy, passSpecN_eq, if_neg hnupd]
            · rw [if_neg hxy]
          refine ⟨hedge, by rw [hfneq]; exact hnxt,
            by rw [hfeq]; exact hdist, ?_⟩
          cases rest with
          | nil => exact htail
          | cons q rest2 =>
              have hrne : (q :: rest2 : List (α × Int)) ≠ [] := by simp
              have hinner2 : ∀ z ∈ innerV (q :: rest2), z ∈ P := by
                intro z hz
                apply hinner
                rw [innerV_cons_of_ne hrne]
                exact List.mem_cons_of_mem _ hz
              have hnupdv : ¬ (dm v k + dm k tgt < dm v tgt) := fun hc =>
                hnupd (chain_update_prop hw hnc hkP hptr hch hcp
                  hedge hdist htail hinner hrne hc)
              exact ih htail hinner2 hnupdv

/-- An entry the stage updates gets a new chain: the stored `(x, k)`
chain rerouted into the (unchanged) `(k, tgt)` chain, shortcutting at the
first of its vertices that the stage also updates. -/
theorem chain_new {g : Graph α} (hw : WF g) (hnc : NoNegCycle g)
    {P : List α} {k : α} (hkP : k ∉ P) {dm f : Mat α} {nm fn : NMat α}
    (hkk : Dist.fin 0 ≤ dm k k)
    (hs : FWSound g dm) (hptr : FWPtr dm nm) (hch : FWChains g P dm nm)
    (hcp : FWCompl g P dm)
    (hf : ∀ a b, f a b =
      if a ∈ keys g ∧ b ∈ keys g then passSpec dm k a b else dm a b)
    (hfn : ∀ a b, fn a b =
      if a ∈ keys g ∧ b ∈ keys g then passSpecN dm nm k a b else nm a b)
    {tgt : α} (htgt : tgt ∈ keys g) :
    ∀ {cs : List (α × Int)} {x : α}, ChainR g dm nm k x cs →
      (∀ z ∈ innerV cs, z ∈ P) → x ∈ keys g →
      (dm x k + dm k tgt < dm x tgt) →
      ∃ steps, steps ≠ [] ∧ ChainR g f fn tgt x steps ∧
        ∀ z ∈ innerV steps, z ∈ P ++ [k] := by
  intro cs
  induction cs with
  | nil =>
      intro x hcs _ _ hupd
      exfalso
      have hxk : x = k := hcs
      rw [hxk] at hupd
      exact absurd
        (Dist.lt_of_le_of_lt (Dist.le_add_of_nonneg_left hkk) hupd)
        (Dist.lt_irrefl _)
  | cons p ct ih =>
      intro x hcs hinner hx hupd
      cases p with
      | mk v w =>
          obtain ⟨hedge, hnxtk, hdistk, htailk⟩ := hcs
          have hktgt_ne : k ≠ tgt := by
            intro hc
            rw [← hc] at hupd
            exact absurd
              (Dist.lt_of_le_of_lt (Dist.le_add_of_nonneg_right hkk) hupd)
              (Dist.lt_irrefl _)
          have hdkt_fin : dm k tgt ≠ Dist.inf := by
            intro hc
            rw [hc, Dist.add_inf] at hupd
            exact absurd hupd (Dist.not_inf_lt _)
          have hnkt : nm k tgt ≠ none := hptr k tgt hktgt_ne hdkt_fin
          rcases hch k tgt hnkt with ⟨ct2, hct2ne, hct2, hct2in⟩
          have hnupd_kt : ¬ (dm k k + dm k tgt < dm k tgt) := by
            intro hc
            exact absurd
              (Dist.lt_of_le_of_lt (Dist.le_add_of_nonneg_left hkk) hc)
              (Dist.lt_irrefl _)
          have hct2f : ChainR g f fn tgt k ct2 :=
            chain_preserved hw hnc hkP hptr hch hcp hf hfn hct2 hct2in hnupd_kt
          have hdkt : dm k tgt = Dist.fin (walkW ct2) := chainR_dist hct2 hct2ne
          have hfx : f x tgt = dm x k + dm k tgt := by
            rw [hf, if_pos ⟨hx, htgt⟩, passSpec_eq, if_pos hupd]
          have hfnx : fn x tgt = nm x k := by
            rw [hfn, if_pos ⟨hx, htgt⟩, passSpecN_eq, if_pos hupd]
          cases ct with
          | nil =>
              have hvk : v = k := htailk
              refine ⟨(v, w) :: ct2, by simp, ?_, ?_⟩
              · refine ⟨hedge, by rw [hfnx]; exact hnxtk, ?_,
                  by rw [hvk]; exact hct2f⟩
                rw [hfx, hdistk, hdkt, Dist.fin_add_fin]
                congr 1
                simp [walkW]
              · intro z hz
                rw [innerV_cons_of_ne hct2ne] at hz
                rcases List.mem_cons.1 hz with hz | hz
                · rw [hz, hvk]
                  exact List.mem_append_right _ (List.mem_cons_self _ _)
                · exact List.mem_append_left _ (hct2in z hz)
          | cons q ct2b =>
              have hctne : (q :: ct2b : List (α × Int)) ≠ [] := by simp
              have hvP : v ∈ P := by
                apply hinner
                rw [innerV_cons_of_ne hctne]
                exact List.mem_cons_self _ _
              have hvkeys : v ∈ keys g := edge_snd_mem_keys hw hedge
              have hdvk : dm v k = Dist.fin (walkW (q :: ct2b)) :=
                chainR_dist htailk hctne
              have hinner2 : ∀ z ∈ innerV (q :: ct2b), z ∈ P := by
                intro z hz
                apply hinner
                rw [innerV_cons_of_ne hctne]
                exact List.mem_cons_of_mem _ hz
              have hvtgt : v ≠ tgt := by
                intro hc
                have hone : dm x tgt ≤ Dist.fin (walkW [(v, w)]) :=
                  hcp x tgt [(v, w)] (by simp) hx ⟨hedge, hc⟩
                    (fun z hz => absurd hz (List.not_mem_nil z))
                simp only [walkW] at hone
                rcases Dist.ne_inf_iff.1 hdkt_fin with ⟨dkt, hdkt2⟩
                rcases hs k tgt hdkt_fin with ⟨s2, hws2, hvs2⟩
                rw [← hc] at hws2
                have hcl : IsWalk g v ((q :: ct2b) ++ s2) v :=
                  isWalk_append (chainR_isWalk htailk) hws2
                have h0 := hnc v _ hcl
                rw [walkW_append] at h0
                rw [hdkt2] at hvs2
                injection hvs2 with hvs2
                have hlt := hupd
                rw [hdistk, hdkt2, Dist.fin_add_fin] at hlt
                have hcom := Dist.lt_of_lt_of_le hlt hone
                rw [Dist.fin_lt_fin] at hcom
                omega
              by_cases hupdv : dm v k + dm k tgt < dm v tgt
              · rcases ih htailk hinner2 hvkeys hupdv with ⟨t, htne2, htch, htin⟩
                refine ⟨(v, w) :: t, by simp, ?_, ?_⟩
                · refine ⟨hedge, by rw [hfnx]; exact hnxtk, ?_, htch⟩
                  have hfv : f v tgt = dm v k + dm k tgt := by
                    rw [hf, if_pos ⟨hvkeys, htgt⟩, passSpec_eq, if_pos hupdv]
                  have hfvt : f v tgt = Dist.fin (walkW t) :=
                    chainR_dist htch htne2
                  rw [hfx, hdistk]
                  rcases Dist.ne_inf_iff.1 hdkt_fin with ⟨dkt, hdkt2⟩
                  rw [hdkt2, Dist.fin_add_fin]
                  have hnum : Dist.fin (walkW (q :: ct2b)) + Dist.fin dkt =
                      Dist.fin (walkW t) := by
                    rw [← hdvk, ← hdkt2, ← hfv, hfvt]
                  rw [Dist.fin_add_fin] at hnum
                  injection hnum with hnum
                  congr 1
                  omega
                · intro z hz
                  rw [innerV_cons_of_ne htne2] at hz
                  rcases List.mem_cons.1 hz with hz | hz
                  · rw [hz]
                    exact List.mem_append_left _ hvP
                  · exact htin z hz
              · have hlev : dm v tgt ≤ dm v k + dm k tgt := Dist.not_lt.1 hupdv
                by_cases hlt2 : dm v tgt < dm v k + dm k tgt
                · exfalso
                  have hdvt_fin : dm v tgt ≠ Dist.inf := by
                    intro hc
                    rw [hc] at hlt2
                    exact absurd hlt2 (Dist.not_inf_lt _)
                  have hnvt : nm v tgt ≠ none := hptr v tgt hvtgt hdvt_fin
                  rcases hch v tgt hnvt with ⟨t, htne2, htch, htin⟩
                  have hdvt : dm v tgt = Dist.fin (walkW t) :=
                    chainR_dist htch htne2
                  have hcin : ∀ z ∈ innerV ((v, w) :: t), z ∈ P := by
                    intro z hz
                    rw [innerV_cons_of_ne htne2] at hz
                    rcases List.mem_cons.1 hz with hz | hz
                    · exact hz ▸ hvP
                    · exact htin z hz
                  have hcomp : dm x tgt ≤ Dist.fin (w + walkW t) := by
                    have := hcp x tgt ((v, w) :: t) (by simp) hx
                      ⟨hedge, chainR_isWalk htch⟩ hcin
                    simpa [walkW] using this
                  have h1 : dm x tgt ≤ Dist.fin w + dm v tgt := by
                    rw [hdvt, Dist.fin_add_fin]
                    exact hcomp
                  have h2 : Dist.fin w + dm v tgt <
                      Dist.fin w + (dm v k + dm k tgt) :=
                    Dist.add_lt_add_left_fin w hlt2
                  have h3 : Dist.fin w + (dm v k + dm k tgt) =
                      dm x k + dm k tgt := by
                    rw [← Dist.add_assoc, hdvk, Dist.fin_add_fin, ← hdistk]
                  have hA : dm x tgt < dm x k + dm k tgt := by
                    rw [← h3]
                    exact Dist.lt_of_le_of_lt h1 h2
                  exact absurd (Dist.lt_of_le_of_lt (Dist.le_of_lt hA) hupd)
                    (Dist.lt_irrefl _)
                · have heq : dm v tgt = dm v k + dm k tgt :=
                    Dist.le_antisymm hlev (Dist.not_lt.1 hlt2)
                  have hdvt_fin : dm v tgt ≠ Dist.inf := by
                    rw [heq]
                    rcases Dist.ne_inf_iff.1 hdkt_fin with ⟨dkt, hdkt2⟩
                    rw [hdvk, hdkt2, Dist.fin_add_fin]
                    exact fun hc => Dist.noConfusion hc
                  have hnvt : nm v tgt ≠ none := hptr v tgt hvtgt hdvt_fin
                  rcases hch v tgt hnvt with ⟨t, htne2, htch, htin⟩
                  have htchf : ChainR g f fn tgt v t :=
                    chain_preserved hw hnc hkP hptr hch hcp hf hfn
                      htch htin hupdv
                  have hdvt : dm v tgt = Dist.fin (walkW t) :=
                    chainR_dist htch htne2
                  refine ⟨(v, w) :: t, by simp, ?_, ?_⟩
                  · refine ⟨hedge, by rw [hfnx]; exact hnxtk, ?_, htchf⟩
                    rw [hfx, hdistk]
                    rcases Dist.ne_inf_iff.1 hdkt_fin with ⟨dkt, hdkt2⟩
                    rw [hdkt2, Dist.fin_add_fin]
                    have hnum : Dist.fin (walkW (q :: ct2b) + dkt) =
                        Dist.fin (walkW t) := by
                      rw [← Dist.fin_add_fin, ← hdvk, ← hdkt2, ← heq, hdvt]
                    injection hnum with hnum
                    congr 1
                    omega
                  · intro z hz
                    rw [innerV_cons_of_ne htne2] at hz
                    rcases List.mem_cons.1 hz with hz | hz
                    · rw [hz]
                      exact List.mem_append_left _ hvP
                    · exact List.mem_append_left _ (htin z hz)

theorem fwChains_step {g : Graph α} (hw : WF g) (hnc : NoNegCycle g)
    {P : List α} {k : α} (hkP : k ∉ P) (hkg : k ∈ keys g)
    {dm f : Mat α} {nm fn : NMat α} (hkk : Dist.fin 0 ≤ dm k k)
    (hs : FWSound g dm) (hptr : FWPtr dm nm) (hch : FWChains g P dm nm)
    (hcp : FWCompl g P dm)
    (hf : ∀ a b, f a b =
      if a ∈ keys g ∧ b ∈ keys g then passSpec dm k a b else dm a b)
    (hfn : ∀ a b, fn a b =
      if a ∈ keys g ∧ b ∈ keys g then passSpecN dm nm k a b else nm a b) :
    FWChains g (P ++ [k]) f fn := by
  intro x tgt hne
  by_cases hxy : x ∈ keys g ∧ tgt ∈ keys g
  · rw [hfn, if_pos hxy, passSpecN_eq] at hne
    by_cases hupd : dm x k + dm k tgt < dm x tgt
    · rw [if_pos hupd] at hne
      rcases hch x k hne with ⟨cs, csne, csch, csin⟩
      exact chain_new hw hnc hkP hkk hs hptr hch hcp hf hfn hxy.2
        csch csin hxy.1 hupd
    · rw [if_neg hupd] at hne
      rcases hch x tgt hne with ⟨cs, csne, csch, csin⟩
      exact ⟨cs, csne,
        chain_preserved hw hnc hkP hptr hch hcp hf hfn csch csin hupd,
        fun z hz => List.mem_append_left _ (csin z hz)⟩
  · rw [hfn, if_neg hxy] at hne
    rcases hch x tgt hne with ⟨cs, csne, csch, csin⟩
    exfalso
    apply hxy
    constructor
    · cases cs with
      | nil => exact absurd rfl csne
      | cons p rest =>
          cases p with
          | mk v w => exact edge_fst_mem_keys csch.1
    · have hwk := chainR_isWalk csch
      have hl := walk_getLast hwk csne
      have hmem : tgt ∈ cs.map Prod.fst := by
        cases hml : (cs.map Prod.fst).getLast? with
        | none =>
            rw [hml] at hl
            cases hl
        | some a =>
            rw [hml] at hl
            injection hl with hl
            exact hl ▸ List.mem_of_mem_getLast? hml
      exact walk_fst_mem_keys hw hwk tgt hmem

/-- One full stage preserves the invariant and appends its intermediate
to the processed prefix. -/
theorem fwInv_step {g : Graph α} (hw : WF g) (hnc : NoNegCycle g)
    {P : List α} {k : α} (hk : k ∈ keys g) (hkP : k ∉ P)
    {mn : Mat α × NMat α} (hinv : FWInv g P mn) :
    FWInv g (P ++ [k]) (fwStepK (keys g) k mn) := by
  obtain ⟨hs, hcp, hptr, hch⟩ := hinv
  have hkk : Dist.fin 0 ≤ mn.1 k k := sound_diag_nonneg hs hnc k
  have hf : ∀ a b, (fwStepK (keys g) k mn).1 a b =
      if a ∈ keys g ∧ b ∈ keys g then passSpec mn.1 k a b else mn.1 a b :=
    fun a b => (fwStepK_eval hw.1 hkk a b).1
  have hfn : ∀ a b, (fwStepK (keys g) k mn).2 a b =
      if a ∈ keys g ∧ b ∈ keys g then passSpecN mn.1 mn.2 k a b
      else mn.2 a b :=
    fun a b => (fwStepK_eval hw.1 hkk a b).2
  exact ⟨fwSound_step hs k hf,
    fwCompl_step hw hnc hk hcp hf,
    fwPtr_step hkk hptr hf hfn,
    fwChains_step hw hnc hkP hk hkk hs hptr hch hcp hf hfn⟩

theorem fwLoop_inv {g : Graph α} (hw : WF g) (hnc : NoNegCycle g) :
    ∀ (ks P : List α) (mn : Mat α × NMat α),
      (∀ z ∈ ks, z ∈ keys g) → (P ++ ks).Nodup → FWInv g P mn →
      FWInv g (P ++ ks)
        (List.foldl (fun mn k => fwStepK (keys g) k mn) mn ks) := by
  intro ks
  induction ks with
  | nil =>
      intro P mn _ _ hinv
      rw [List.foldl_nil, List.append_nil]
      exact hinv
  | cons k ks ih =>
      intro P mn hmem hnd hinv
      rw [List.foldl_cons]
      have hkP : k ∉ P := by
        intro hc
        exact (List.disjoint_of_nodup_append hnd) hc (List.mem_cons_self k ks)
      have hstep := fwInv_step hw hnc (hmem k (List.mem_cons_self k ks))
        hkP hinv
      have hres := ih (P ++ [k]) (fwStepK (keys g) k mn)
        (fun z hz => hmem z (List.mem_cons_of_mem k hz))
        (by rw [List.append_assoc, List.singleton_append]; exact hnd)
        hstep
      rw [List.append_assoc, List.singleton_append] at hres
      exact hres

/-- The invariant at the end of the triple loop: all vertices processed. -/
theorem fw_final_inv {g : Graph α} (hw : WF g) (hde : NoDupEdges g)
    (hnc : NoNegCycle g) :
    FWInv g (keys g) (fwLoop (keys g) (fwInit g)) := by
  have hinit : FWInv g [] (fwInit g) :=
    ⟨fwInit_sound hw.1, fwInit_compl hw hde, fwInit_ptr hw.1,
      fwInit_chains hw.1⟩
  have hres := fwLoop_inv hw hnc (keys g) [] (fwInit g)
    (fun z hz => hz) (by rw [List.nil_append]; exact hw.1) hinit
  rw [List.nil_append] at hres
  exact hres

end FWChainsStep

section FWConsequences

variable {α : Type} [DecidableEq α]

/-- Along the loop the distance entries only decrease (soundness is
carried to supply the non-negative diagonal each stage needs). -/
theorem fwLoop_sound_le {g : Graph α} (hnd : (keys g).Nodup)
    (hnc : NoNegCycle g) :
    ∀ (ks : List α) (mn : Mat α × NMat α), FWSound g mn.1 →
      FWSound g (List.foldl (fun mn k => fwStepK (keys g) k mn) mn ks).1 ∧
      ∀ x y,
        (List.foldl (fun mn k => fwStepK (keys g) k mn) mn ks).1 x y ≤
          mn.1 x y := by
  intro ks
  induction ks with
  | nil =>
      intro mn hs
      exact ⟨hs, fun x y => Dist.le_refl _⟩
  | cons k ks ih =>
      intro mn hs
      have hkk : Dist.fin 0 ≤ mn.1 k k := sound_diag_nonneg hs hnc k
      have hf : ∀ a b, (fwStepK (keys g) k mn).1 a b =
          if a ∈ keys g ∧ b ∈ keys g then passSpec mn.1 k a b
          else mn.1 a b :=
        fun a b => (fwStepK_eval hnd hkk a b).1
      have hs2 : FWSound g (fwStepK (keys g) k mn).1 := fwSound_step hs k hf
      rcases ih (fwStepK (keys g) k mn) hs2 with ⟨ha, hb⟩
      rw [List.foldl_cons]
      refine ⟨ha, fun x y => Dist.le_trans (hb x y) ?_⟩
      rw [hf]
      by_cases hxy : x ∈ keys g ∧ y ∈ keys g
      · rw [if_pos hxy]
        exact passSpec_le _ _ _ _
      · rw [if_neg hxy]
        exact Dist.le_refl _

/-- Without self-loops and negative cycles the final diagonal is exactly
zero at every listed vertex. -/
theorem fw_diag_zero {g : Graph α} (hnd : (keys g).Nodup)
    (hnc : NoNegCycle g) (hsl : NoSelfLoop g) {v : α} (hv : v ∈ keys g) :
    (fwLoop (keys g) (fwInit g)).1 v v = Dist.fin 0 := by
  have hlwnone : lastW (adjOf g v) v = none := by
    cases hlw : lastW (adjOf g v) v with
    | none => rfl
    | some w =>
        exfalso
        exact hsl _ (adjOf_mem_edgesOf (lastW_mem hlw)) rfl
  have hinit : (fwInit g).1 v v = Dist.fin 0 := by
    rw [fwInit_dist_none hnd hlwnone, if_pos ⟨rfl, hv⟩]
  obtain ⟨hsf, hle⟩ :=
    fwLoop_sound_le hnd hnc (keys g) (fwInit g) (fwInit_sound hnd)
  have h1 : (fwLoop (keys g) (fwInit g)).1 v v ≤ Dist.fin 0 := by
    have h := hle v v
    rwa [hinit] at h
  have h2 : Dist.fin 0 ≤ (fwLoop (keys g) (fwInit g)).1 v v :=
    sound_diag_nonneg hsf hnc v
  exact Dist.le_antisymm h1 h2

/-- Each row of the final distance matrix is a good single-source table
for its row vertex. -/
theorem fw_row_goodT {g : Graph α} (hw : WF g) (hde : NoDupEdges g)
    (hnc : NoNegCycle g) (hsl : NoSelfLoop g) {i : α} (hi : i ∈ keys g) :
    GoodT g i (fun j => (fwLoop (keys g) (fwInit g)).1 i j) := by
  obtain ⟨hs, hcp, hptr, hch⟩ := fw_final_inv hw hde hnc
  refine ⟨?_, ?_, fun j hfin => hs i j hfin⟩
  · show (fwLoop (keys g) (fwInit g)).1 i i ≤ Dist.fin 0
    rw [fw_diag_zero hw.1 hnc hsl hi]
    exact Dist.le_refl _
  · intro e he
    obtain ⟨u, v, w⟩ := e
    show (fwLoop (keys g) (fwInit g)).1 i v ≤
      (fwLoop (keys g) (fwInit g)).1 i u + Dist.fin w
    cases hdu : (fwLoop (keys g) (fwInit g)).1 i u with
    | inf =>
        rw [Dist.inf_add]
        exact Dist.le_inf _
    | fin d =>
        rcases hs i u (by rw [hdu]; exact fun hc => Dist.noConfusion hc) with
          ⟨s1, hws1, hvs1⟩
        have hwalk2 : IsWalk g i (s1 ++ [(v, w)]) v :=
          isWalk_append hws1 ⟨he, rfl⟩
        have hinner : ∀ z ∈ innerV (s1 ++ [(v, w)]), z ∈ keys g := by
          intro z hz
          rw [innerV_append_left (by simp), innerV_single,
            List.append_nil] at hz
          exact walk_fst_mem_keys hw hws1 z hz
        have hb := hcp i v (s1 ++ [(v, w)]) (by simp) hi hwalk2 hinner
        have hnum : walkW (s1 ++ [(v, w)]) = d + w := by
          rw [walkW_append]
          rw [hdu] at hvs1
          injection hvs1 with h1
          simp only [walkW]
          omega
        rw [hnum] at hb
        rw [Dist.fin_add_fin]
        exact hb

/-- For graphs with distinct keys, no parallel edges, no self-loops and
no negative cycles, the Floyd-Warshall row agrees with Bellman-Ford run
from the row vertex. -/
theorem fw_bf_agree {g : Graph α} (hw : WF g) (hde : NoDupEdges g)
    (hnc : NoNegCycle g) (hsl : NoSelfLoop g) {i : α} (hi : i ∈ keys g) :
    ∃ d p, bellman_ford_algorithm g i = .ok (d, p) ∧
      ∀ j, (fwLoop (keys g) (fwInit g)).1 i j = dval d j := by
  rcases bf_no_error hw hi (noNegFrom_of_noNegCycle hnc i) with ⟨d, p, hok⟩
  exact ⟨d, p, hok,
    goodT_unique (fw_row_goodT hw hde hnc hsl hi) (bf_ok_goodT hok).1⟩

theorem fw_error_iff (g : Graph α) :
    floyd_warshall_algorithm g = .error .emptyGraph ↔ g = [] := by
  unfold floyd_warshall_algorithm
  by_cases hg : g.isEmpty
  · rw [if_pos hg]
    rw [List.isEmpty_iff] at hg
    constructor
    · intro _
      exact hg
    · intro _
      rfl
  · rw [if_neg hg]
    rw [List.isEmpty_iff] at hg
    constructor
    · intro hc
      exact absurd hc (fun hc2 => Except.noConfusion hc2)
    · intro hc
      exact absurd hc hg

theorem fw_ok_elim {g : Graph α} (hne : g ≠ []) :
    floyd_warshall_algorithm g =
      .ok ((fwLoop (keys g) (fwInit g)).1,
        (fwLoop (keys g) (fwInit g)).2, keys g) := by
  unfold floyd_warshall_algorithm
  rw [if_neg (fun hc => hne (List.isEmpty_iff.1 hc))]

/-- The surviving initialization entry is the last-listed edge between
the ordered pair. -/
theorem lastW_last_occ :
    ∀ (a1 : List (α × Int)) (y : α) (w : Int) (a2 : List (α × Int)),
      y ∉ a2.map Prod.fst → lastW (a1 ++ (y, w) :: a2) y = some w := by
  intro a1
  induction a1 with
  | nil =>
      intro y w a2 hy
      have hnone : lastW a2 y = none := by
        cases hlw : lastW a2 y with
        | none => rfl
        | some w2 =>
            exact absurd (List.mem_map.2 ⟨(y, w2), lastW_mem hlw, rfl⟩) hy
      simp only [List.nil_append, lastW, hnone]
      simp
  | cons p rest ih =>
      intro y w a2 hy
      cases p with
      | mk v w2 =>
          have hlw := ih y w a2 hy
          rw [List.cons_append]
          cases hcase : lastW (rest ++ (y, w) :: a2) y with
          | none =>
              rw [hcase] at hlw
              cases hlw
          | some w3 =>
              simp only [lastW, hcase]
              rw [hcase] at hlw
              injection hlw with h
              rw [h]

end FWConsequences

section FWReconstruct

variable {α : Type} [DecidableEq α]

/-- The prefix of a vertex list before its first occurrence of `e`. -/
def preE (e : α) : List α → List α
  | [] => []
  | x :: rest => if x = e then [] else x :: preE e rest

theorem preE_subset (e : α) : ∀ (l : List α), ∀ z ∈ preE e l, z ∈ l := by
  intro l
  induction l with
  | nil =>
      intro z hz
      exact absurd hz (List.not_mem_nil z)
  | cons x rest ih =>
      intro z hz
      simp only [preE] at hz
      by_cases hx : x = e
      · rw [if_pos hx] at hz
        exact absurd hz (List.not_mem_nil z)
      · rw [if_neg hx] at hz
        rcases List.mem_cons.1 hz with hz | hz
        · exact hz ▸ List.mem_cons_self _ _
        · exact List.mem_cons_of_mem _ (ih z hz)

theorem preE_ne (e : α) : ∀ (l : List α), ∀ z ∈ preE e l, z ≠ e := by
  intro l
  induction l with
  | nil =>
      intro z hz
      exact absurd hz (List.not_mem_nil z)
  | cons x rest ih =>
      intro z hz
      simp only [preE] at hz
      by_cases hx : x = e
      · rw [if_pos hx] at hz
        exact absurd hz (List.not_mem_nil z)
      · rw [if_neg hx] at hz
        rcases List.mem_cons.1 hz with hz | hz
        · exact hz ▸ hx
        · exact ih z hz

theorem preE_cons_ne {e x : α} (h : x ≠ e) (l : List α) :
    preE e (x :: l) = x :: preE e l := by
  simp only [preE, if_neg h]

theorem preE_cons_eq (e : α) (l : List α) : preE e (e :: l) = [] := by
  simp [preE]

/-- Any chain passing through a vertex yields a strictly shorter chain
from that vertex. -/
theorem chainR_at_mem {g : Graph α} {dm : Mat α} {nm : NMat α} {e : α} :
    ∀ {cs : List (α × Int)} {x u : α}, ChainR g dm nm e x cs →
      u ∈ cs.map Prod.fst →
      ∃ cs2, ChainR g dm nm e u cs2 ∧ cs2.length < cs.length := by
  intro cs
  induction cs with
  | nil =>
      intro x u _ hu
      exact absurd hu (List.not_mem_nil u)
  | cons p rest ih =>
      intro x u h hu
      cases p with
      | mk v w =>
          rw [List.map_cons] at hu
          rcases List.mem_cons.1 hu with hu | hu
          · exact ⟨rest, hu.symm ▸ h.2.2.2, by rw [List.length_cons]; omega⟩
          · rcases ih h.2.2.2 hu with ⟨cs2, hc2, hl2⟩
            exact ⟨cs2, hc2, by rw [List.length_cons]; omega⟩

/-- Every chain can be replaced by one (no longer) whose vertices before
the first arrival at the target are pairwise distinct. -/
theorem chainR_dedup {g : Graph α} {dm : Mat α} {nm : NMat α} {e : α} :
    ∀ (n : Nat) {cs : List (α × Int)} {x : α}, cs.length ≤ n →
      ChainR g dm nm e x cs →
      ∃ cs2, ChainR g dm nm e x cs2 ∧ cs2.length ≤ cs.length ∧
        (preE e (x :: cs2.map Prod.fst)).Nodup := by
  intro n
  induction n with
  | zero =>
      intro cs x hlen h
      have hnil : cs = [] := List.length_eq_zero.1 (Nat.le_zero.1 hlen)
      subst hnil
      have hx : x = e := h
      refine ⟨[], h, le_refl _, ?_⟩
      rw [List.map_nil, hx, preE_cons_eq]
      exact List.nodup_nil
  | succ n ih =>
      intro cs x hlen h
      by_cases hx : x = e
      · refine ⟨[], hx, Nat.zero_le _, ?_⟩
        rw [List.map_nil, hx, preE_cons_eq]
        exact List.nodup_nil
      · cases cs with
        | nil => exact absurd h hx
        | cons p rest =>
            cases p with
            | mk v w =>
                obtain ⟨hedge, hnm, hdist, htail⟩ := h
                by_cases hv : v = e
                · refine ⟨(v, w) :: rest, ⟨hedge, hnm, hdist, htail⟩,
                    le_refl _, ?_⟩
                  rw [List.map_cons, preE_cons_ne hx, hv, preE_cons_eq]
                  exact List.nodup_cons.2 ⟨List.not_mem_nil x, List.nodup_nil⟩
                · have hrestne : rest ≠ [] := by
                    intro hc
                    rw [hc] at htail
                    exact hv htail
                  have hlen2 : rest.length ≤ n := by
                    rw [List.length_cons] at hlen
                    omega
                  rcases ih hlen2 htail with ⟨rest2, hch2, hlen3, hpre2⟩
                  have hrest2ne : rest2 ≠ [] := by
                    intro hc
                    rw [hc] at hch2
                    exact hv hch2
                  have hw1 : dm v e = Dist.fin (walkW rest) :=
                    chainR_dist htail hrestne
                  have hw2 : dm v e = Dist.fin (walkW rest2) :=
                    chainR_dist hch2 hrest2ne
                  have hweq : walkW rest2 = walkW rest := by
                    rw [hw1] at hw2
                    injection hw2 with h2
                    omega
                  have hch0 : ChainR g dm nm e x ((v, w) :: rest2) :=
                    ⟨hedge, hnm, by rw [hdist, hweq], hch2⟩
                  by_cases hxin : x ∈ preE e (v :: rest2.map Prod.fst)
                  · have hxin2 : x ∈ ((v, w) :: rest2).map Prod.fst := by
                      rw [List.map_cons]
                      exact preE_subset e _ x hxin
                    rcases chainR_at_mem hch0 hxin2 with ⟨cs3, hch3, hlen4⟩
                    have hlen5 : cs3.length ≤ n := by
                      rw [List.length_cons] at hlen4
                      omega
                    rcases ih hlen5 hch3 with ⟨cs4, hch4, hlen6, hpre4⟩
                    refine ⟨cs4, hch4, ?_, hpre4⟩
                    rw [List.length_cons] at hlen4 ⊢
                    omega
                  · refine ⟨(v, w) :: rest2, hch0, ?_, ?_⟩
                    · rw [List.length_cons, List.length_cons]
                      omega
                    · rw [List.map_cons, preE_cons_ne hx]
                      exact List.nodup_cons.2 ⟨hxin, hpre2⟩

/-- Running the reconstruction loop along a chain: it succeeds, ends at
the target, and takes at most one step per chain vertex before the first
arrival at the target. -/
theorem fwRecAux_run {g : Graph α} (hw : WF g) {dm : Mat α} {nm : NMat α}
    {e : α} :
    ∀ (fuel : Nat) {cs : List (α × Int)} {x : α} (acc : List α),
      ChainR g dm nm e x cs →
      (preE e (x :: cs.map Prod.fst)).length < fuel →
      ∃ path, fwRecAux nm (keys g) e fuel x (acc ++ [x]) =
          some (.ok path) ∧ path.getLast? = some e ∧
        path.length ≤
          acc.length + 1 + (preE e (x :: cs.map Prod.fst)).length ∧
        ∃ t2, path = (acc ++ [x]) ++ t2 := by
  intro fuel
  induction fuel with
  | zero =>
      intro cs x acc _ hlt
      exact absurd hlt (Nat.not_lt_zero _)
  | succ fuel ih =>
      intro cs x acc h hlt
      by_cases hx : x = e
      · refine ⟨acc ++ [x], ?_, ?_, ?_, [], by rw [List.append_nil]⟩
        · simp only [fwRecAux]
          rw [if_pos hx]
        · rw [List.getLast?_concat, hx]
        · simp only [List.length_append, List.length_cons, List.length_nil]
          omega
      · cases cs with
        | nil => exact absurd h hx
        | cons p rest =>
            cases p with
            | mk v w =>
                obtain ⟨hedge, hnm, hdist, htail⟩ := h
                have hvkeys : v ∈ keys g := edge_snd_mem_keys hw hedge
                have hpre : preE e (x :: ((v, w) :: rest).map Prod.fst) =
                    x :: preE e (v :: rest.map Prod.fst) := by
                  rw [List.map_cons, preE_cons_ne hx]
                have hlt2 : (preE e (v :: rest.map Prod.fst)).length < fuel := by
                  rw [hpre, List.length_cons] at hlt
                  omega
                rcases ih (acc ++ [x]) htail hlt2 with
                  ⟨path, hrun, hlast, hlen, t2, hstruct⟩
                refine ⟨path, ?_, hlast, ?_, [v] ++ t2, ?_⟩
                · simp only [fwRecAux, hnm]
                  rw [if_neg hx, if_pos hvkeys]
                  exact hrun
                · rw [hpre, List.length_cons]
                  simp only [List.length_append, List.length_cons,
                    List.length_nil] at hlen
                  omega
                · rw [hstruct, List.append_assoc]

theorem preE_length_lt {g : Graph α} (hnd : (keys g).Nodup) {e : α}
    (he : e ∈ keys g) {l : List α} (hnodup : l.Nodup)
    (hsub : ∀ z ∈ l, z ∈ keys g) (hne : ∀ z ∈ l, z ≠ e) :
    l.length < (keys g).length := by
  have h1 : l.toFinset.card = l.length := List.toFinset_card_of_nodup hnodup
  have h2 : l.toFinset ⊆ (keys g).toFinset := by
    intro a ha
    rw [List.mem_toFinset] at ha ⊢
    exact hsub a ha
  have h3 : l.toFinset ⊂ (keys g).toFinset := by
    rw [Finset.ssubset_iff_of_subset h2]
    exact ⟨e, List.mem_toFinset.2 he,
      fun hc => hne e (List.mem_toFinset.1 hc) rfl⟩
  have h4 := Finset.card_lt_card h3
  have h5 : (keys g).toFinset.card ≤ (keys g).length :=
    List.toFinset_card_le _
  omega

/-- Core reconstruction theorem on graphs without parallel edges: the
forward walk over the produced next-hop matrix, run with fuel `|V|`,
returns: the empty path when no path is stored, and otherwise a path of
at most `|V|` vertices from `start` that ends at `end`. -/
theorem fw_reconstruct_core {g : Graph α} (hw : WF g) (hde : NoDupEdges g)
    (hnc : NoNegCycle g) {s e : α} (hs : s ∈ keys g) (he : e ∈ keys g) :
    ∃ r, reconstruct_path_fw (fwLoop (keys g) (fwInit g)).2 (keys g) s e
        (keys g).length = some (.ok r) ∧
      ((fwLoop (keys g) (fwInit g)).2 s e = none → r = []) ∧
      ((fwLoop (keys g) (fwInit g)).2 s e ≠ none →
        r.getLast? = some e ∧ r.length ≤ (keys g).length ∧
        r.head? = some s) := by
  cases hnm : (fwLoop (keys g) (fwInit g)).2 s e with
  | none =>
      refine ⟨[], ?_, fun _ => rfl, fun hc => absurd rfl hc⟩
      unfold reconstruct_path_fw
      rw [if_pos ⟨hs, he⟩, hnm]
  | some v =>
      obtain ⟨hsf, hcp, hptr, hch⟩ := fw_final_inv hw hde hnc
      have hne : (fwLoop (keys g) (fwInit g)).2 s e ≠ none := by
        rw [hnm]
        exact fun hc => Option.noConfusion hc
      rcases hch s e hne with ⟨cs, csne, csch, _⟩
      rcases chainR_dedup cs.length (le_refl _) csch with
        ⟨cs2, hch2, _, hpre⟩
      have hsubpre : ∀ z ∈ preE e (s :: cs2.map Prod.fst), z ∈ keys g := by
        intro z hz
        have hz2 := preE_subset e _ z hz
        rcases List.mem_cons.1 hz2 with hz2 | hz2
        · exact hz2 ▸ hs
        · exact walk_fst_mem_keys hw (chainR_isWalk hch2) z hz2
      have hbound := preE_length_lt hw.1 he hpre hsubpre (preE_ne e _)
      rcases fwRecAux_run hw (keys g).length ([] : List α) hch2 hbound with
        ⟨path, hrun, hlast, hlen, t2, hstruct⟩
      refine ⟨path, ?_, ?_, fun _ => ⟨hlast, ?_, ?_⟩⟩
      · unfold reconstruct_path_fw
        rw [if_pos ⟨hs, he⟩, hnm]
        exact hrun
      · intro hc
        exact Option.noConfusion hc
      · simp only [List.length_nil] at hlen
        omega
      · rw [hstruct]
        rfl

/-- Deduplicated adjacency list: keep, for each destination, only the
edge that survives the overwriting initialization (the last listed). -/
def dedupAdj : List (α × Int) → List (α × Int)
  | [] => []
  | (v, w) :: rest =>
      if (lastW rest v).isSome then dedupAdj rest
      else (v, w) :: dedupAdj rest

def dedupG (g : Graph α) : Graph α := g.map (fun p => (p.1, dedupAdj p.2))

theorem keys_dedupG (g : Graph α) : keys (dedupG g) = keys g := by
  unfold keys dedupG
  rw [List.map_map]
  rfl

theorem dedupAdj_cons_drop {v : α} {w : Int} {rest : List (α × Int)}
    (hv : (lastW rest v).isSome = true) :
    dedupAdj ((v, w) :: rest) = dedupAdj rest := by
  simp only [dedupAdj]
  rw [if_pos hv]

theorem dedupAdj_cons_keep {v : α} {w : Int} {rest : List (α × Int)}
    (hv : ¬ (lastW rest v).isSome = true) :
    dedupAdj ((v, w) :: rest) = (v, w) :: dedupAdj rest := by
  simp only [dedupAdj]
  rw [if_neg hv]

theorem lastW_dedupAdj (y : α) : ∀ (adj : List (α × Int)),
    lastW (dedupAdj adj) y = lastW adj y := by
  intro adj
  induction adj with
  | nil => rfl
  | cons p rest ih =>
      cases p with
      | mk v w =>
          by_cases hv : (lastW rest v).isSome = true
          · rw [dedupAdj_cons_drop hv, ih]
            cases hlw : lastW rest y with
            | some w2 => simp only [lastW, hlw]
            | none =>
                simp only [lastW, hlw]
                by_cases hvy : v = y
                · exfalso
                  rw [hvy, hlw] at hv
                  exact absurd hv (by simp)
                · rw [if_neg hvy]
          · rw [dedupAdj_cons_keep hv]
            simp only [lastW, ih]

theorem mem_dedupAdj : ∀ {adj : List (α × Int)} {p : α × Int},
    p ∈ dedupAdj adj → p ∈ adj := by
  intro adj
  induction adj with
  | nil =>
      intro p hp
      exact hp
  | cons q rest ih =>
      intro p hp
      cases q with
      | mk v w =>
          by_cases hv : (lastW rest v).isSome = true
          · rw [dedupAdj_cons_drop hv] at hp
            exact List.mem_cons_of_mem _ (ih hp)
          · rw [dedupAdj_cons_keep hv] at hp
            rcases List.mem_cons.1 hp with hp | hp
            · exact hp ▸ List.mem_cons_self _ _
            · exact List.mem_cons_of_mem _ (ih hp)

theorem dedupAdj_nodup : ∀ (adj : List (α × Int)),
    ((dedupAdj adj).map Prod.fst).Nodup := by
  intro adj
  induction adj with
  | nil => exact List.nodup_nil
  | cons p rest ih =>
      cases p with
      | mk v w =>
          by_cases hv : (lastW rest v).isSome = true
          · rw [dedupAdj_cons_drop hv]
            exact ih
          · rw [dedupAdj_cons_keep hv, List.map_cons, List.nodup_cons]
            refine ⟨?_, ih⟩
            intro hc
            have h2 := lastW_isSome_iff.2 hc
            rw [lastW_dedupAdj] at h2
            exact hv h2

theorem noDupEdges_dedupG (g : Graph α) : NoDupEdges (dedupG g) := by
  intro p hp
  unfold dedupG at hp
  rcases List.mem_map.1 hp with ⟨q, _, hq2⟩
  rw [← hq2]
  exact dedupAdj_nodup q.2

theorem edgesOf_dedupG_sub (g : Graph α) :
    ∀ e ∈ edgesOf (dedupG g), e ∈ edgesOf g := by
  intro e he
  obtain ⟨u, vw⟩ := e
  obtain ⟨v, w⟩ := vw
  rcases mem_edgesOf.1 he with ⟨adj, hadj, hm⟩
  unfold dedupG at hadj
  rcases List.mem_map.1 hadj with ⟨q, hq, hq2⟩
  have hu : q.1 = u := congrArg Prod.fst hq2
  have hadj2 : adj = dedupAdj q.2 := (congrArg Prod.snd hq2).symm
  rw [hadj2] at hm
  refine mem_edgesOf.2 ⟨q.2, ?_, mem_dedupAdj hm⟩
  rw [← hu]
  exact hq

theorem wf_dedupG {g : Graph α} (hw : WF g) : WF (dedupG g) := by
  constructor
  · rw [keys_dedupG]
    exact hw.1
  · intro e he
    rw [keys_dedupG]
    exact hw.2 e (edgesOf_dedupG_sub g e he)

theorem isWalk_dedupG {g : Graph α} {y : α} :
    ∀ {steps : List (α × Int)} {x : α}, IsWalk (dedupG g) x steps y →
      IsWalk g x steps y := by
  intro steps
  induction steps with
  | nil =>
      intro x h
      exact h
  | cons p rest ih =>
      intro x h
      cases p with
      | mk v w => exact ⟨edgesOf_dedupG_sub g _ h.1, ih h.2⟩

theorem noNegCycle_dedupG {g : Graph α} (hnc : NoNegCycle g) :
    NoNegCycle (dedupG g) :=
  fun u steps hwk => hnc u steps (isWalk_dedupG hwk)

theorem aget_map {β γ : Type} (f : β → γ) :
    ∀ (m : List (α × β)) (x : α),
      aget (m.map (fun p => (p.1, f p.2))) x = (aget m x).map f := by
  intro m
  induction m with
  | nil => intro x; rfl
  | cons p rest ih =>
      intro x
      cases p with
      | mk k v =>
          simp only [List.map_cons, aget]
          by_cases hk : k = x
          · rw [if_pos hk, if_pos hk]
            rfl
          · rw [if_neg hk, if_neg hk]
            exact ih x

theorem adjOf_dedupG (g : Graph α) (x : α) :
    adjOf (dedupG g) x = dedupAdj (adjOf g x) := by
  unfold adjOf agetD dedupG
  rw [aget_map]
  cases aget g x with
  | none => rfl
  | some adj => rfl

theorem fwInit_dedupG {g : Graph α} (hnd : (keys g).Nodup) :
    fwInit (dedupG g) = fwInit g := by
  have hnd2 : (keys (dedupG g)).Nodup := by
    rw [keys_dedupG]
    exact hnd
  have h1 : (fwInit (dedupG g)).1 = (fwInit g).1 := by
    funext x y
    rw [fwInit_dist hnd2 x y, fwInit_dist hnd x y, adjOf_dedupG,
      lastW_dedupAdj, keys_dedupG]
  have h2 : (fwInit (dedupG g)).2 = (fwInit g).2 := by
    funext x y
    rw [fwInit_nxt hnd2 x y, fwInit_nxt hnd x y, adjOf_dedupG,
      lastW_dedupAdj]
  exact Prod.ext h1 h2

theorem fwLoop_dedupG {g : Graph α} (hnd : (keys g).Nodup) :
    fwLoop (keys (dedupG g)) (fwInit (dedupG g)) =
      fwLoop (keys g) (fwInit g) := by
  rw [keys_dedupG, fwInit_dedupG hnd]

/-- Reconstruction over the matrices of any well-formed graph without
negative cycles terminates within `|V|` pointer steps at the target
(parallel edges and self-loops allowed, via the deduplication
transfer: the algorithm computes the same matrices on `dedupG g`). -/
theorem fw_reconstruct_terminates {g : Graph α} (hw : WF g)
    (hnc : NoNegCycle g) {s e : α} (hs : s ∈ keys g) (he : e ∈ keys g) :
    ∃ r, reconstruct_path_fw (fwLoop (keys g) (fwInit g)).2 (keys g) s e
        (keys g).length = some (.ok r) ∧
      ((fwLoop (keys g) (fwInit g)).2 s e = none → r = []) ∧
      ((fwLoop (keys g) (fwInit g)).2 s e ≠ none →
        r.getLast? = some e ∧ r.length ≤ (keys g).length ∧
        r.head? = some s) := by
  have hs2 : s ∈ keys (dedupG g) := by
    rw [keys_dedupG]
    exact hs
  have he2 : e ∈ keys (dedupG g) := by
    rw [keys_dedupG]
    exact he
  have hcore := fw_reconstruct_core (wf_dedupG hw) (noDupEdges_dedupG g)
    (noNegCycle_dedupG hnc) hs2 he2
  rw [fwLoop_dedupG hw.1, keys_dedupG] at hcore
  exact hcore

end FWReconstruct

section ClaimSupport

variable {α : Type} [DecidableEq α]

/-- What the single-source algorithms report for an unreachable vertex:
distance `inf`, predecessor `None`, and the one-element reconstructed
path `[v]`. -/
theorem unreachable_report {g : Graph α} {s v : α} {d : DTable α}
    {p : PTable α} (hsound : SoundT g s (dval d))
    (hpred : ∀ u, pval p u ≠ none → dval d u ≠ Dist.inf)
    (hmem : v ∈ p.map Prod.fst) (hunr : ¬ Reachable g s v) :
    dval d v = Dist.inf ∧ pval p v = none ∧
      reconstruct_path p v = some (.ok [v]) := by
  have hinf : dval d v = Dist.inf := by
    by_cases hc : dval d v = Dist.inf
    · exact hc
    · rcases hsound v hc with ⟨steps, hwk, _⟩
      exact absurd ⟨steps, hwk⟩ hunr
  have hnone : pval p v = none := by
    by_cases hc : pval p v = none
    · exact hc
    · exact absurd hinf (hpred v hc)
  exact ⟨hinf, hnone, reconstruct_of_pred_none hmem hnone⟩

/-- A sound table with source entry at most zero reports exactly zero at
the source when no closed walk through the source is negative. -/
theorem src_zero_of_sound {g : Graph α} {s : α} {d : DTable α}
    (hle : dval d s ≤ Dist.fin 0) (hsound : SoundT g s (dval d))
    (hng : ∀ steps, IsWalk g s steps s → 0 ≤ walkW steps) :
    dval d s = Dist.fin 0 := by
  rcases Dist.ne_inf_iff.1 (Dist.le_fin_ne_inf hle) with ⟨a, ha⟩
  rcases hsound s (by rw [ha]; exact fun hc => Dist.noConfusion hc) with
    ⟨steps, hwk, hwt⟩
  have h1 : 0 ≤ walkW steps := hng steps hwk
  rw [ha] at hwt ⊢
  injection hwt with h2
  have h3 : a ≤ 0 := Dist.fin_le_fin.1 (ha ▸ hle)
  congr 1
  omega

/-- Vertex labels of the scripts' example graph (`A` .. `E`). -/
def vA : Nat := 0

def vB : Nat := 1

def vC : Nat := 2

def vD : Nat := 3

def vE : Nat := 4

/-- The example graph hard-coded in all three scripts. -/
def exampleGraph : Graph Nat :=
  [(vA, [(vB, 3), (vC, 5)]),
   (vB, [(vC, 2), (vD, 6)]),
   (vC, [(vB, 1), (vD, 4), (vE, 6)]),
   (vD, [(vE, 2)]),
   (vE, [(vA, 3), (vD, 7)])]

/-- The distance table both single-source algorithms return on the
example graph from source `A`. -/
def exD : DTable Nat :=
  [(vA, Dist.fin 0), (vB, Dist.fin 3), (vC, Dist.fin 5),
   (vD, Dist.fin 9), (vE, Dist.fin 11)]

/-- The predecessor table both single-source algorithms return on the
example graph from source `A`. -/
def exP : PTable Nat :=
  [(vA, none), (vB, some vA), (vC, some vA), (vD, some vB), (vE, some vC)]

/-- The spec's negative-cycle example `{A→B:1, B→C:-3, C→A:1}`. -/
def negCycleGraph : Graph Nat :=
  [(vA, [(vB, 1)]), (vB, [(vC, -3)]), (vC, [(vA, 1)])]

/-- Two isolated vertices: `B` is unreachable from `A`. -/
def twoIsolated : Graph Nat := [(vA, []), (vB, [])]

/-- A single vertex with a positive self-loop. -/
def selfLoopGraph : Graph Nat := [(vA, [(vA, 5)])]

/-- A negative two-cycle without self-loops. -/
def negTwoCycle : Graph Nat := [(vA, [(vB, 1)]), (vB, [(vA, -3)])]

/-- Parallel edges `A→B` listed with weight 2 and then weight 5. -/
def multiEdge : Graph Nat := [(vA, [(vB, 2), (vB, 5)]), (vB, [])]

/-- A corrupt next-hop matrix: row `A` points back to `A` for every
target. -/
def nmBad : NMat Nat := fun x _ => if x = 0 then some 0 else none

theorem twoIsolated_unreachable : ¬ Reachable twoIsolated vA vB := by
  rintro ⟨steps, hwk⟩
  cases steps with
  | nil => exact absurd hwk (by decide)
  | cons p rest =>
      cases p with
      | mk v w => exact absurd hwk.1 (List.not_mem_nil _)

theorem nmBad_diverges :
    ∀ (fuel : Nat) (acc : List Nat),
      fwRecAux nmBad [vA, vB] vB fuel vA acc = none := by
  intro fuel
  induction fuel with
  | zero =>
      intro acc
      rfl
  | succ fuel ih =>
      intro acc
      exact ih (acc ++ [vA])

end ClaimSupport

section Claims

/-- C1: on every well-formed graph with non-negative edge weights and
every source in the graph, `dijkstra_algorithm` and
`bellman_ford_algorithm` both succeed and return pointwise-equal
distance tables. -/
theorem claim_C1 {α : Type} [LinearOrder α] (g : Graph α) (s : α)
    (hw : WF g) (hnn : NN g) (hs : s ∈ keys g) :
    ∃ dD pD dB pB, dijkstra_algorithm g s = some (.ok (dD, pD)) ∧
      bellman_ford_algorithm g s = .ok (dB, pB) ∧
      ∀ v, dval dD v = dval dB v :=
  dijkstra_bf_agree hw hnn hs

theorem claim_C1_witness :
    WF exampleGraph ∧ NN exampleGraph ∧ vA ∈ keys exampleGraph ∧
    (∃ dD pD dB pB,
      dijkstra_algorithm exampleGraph vA = some (.ok (dD, pD)) ∧
      bellman_ford_algorithm exampleGraph vA = .ok (dB, pB) ∧
      ∀ v, dval dD v = dval dB v) :=
  ⟨by decide, by decide, by decide,
    claim_C1 exampleGraph vA (by decide) (by decide) (by decide)⟩

/-- C2: `bellman_ford_algorithm` runs `|V| - 1` full relaxation passes
and raises `NegativeCycleError` exactly when the additional check pass
still finds a relaxable edge (so an error run returns no tables at all);
the spec's negative-cycle example raises from every source; and on a
well-formed graph with no negative cycle reachable from a listed source
it returns exact shortest-path costs (each entry bounds every walk from
the source and each finite entry is attained by such a walk). -/
theorem claim_C2 {α : Type} [DecidableEq α] (g : Graph α) (s : α) :
    (bellman_ford_algorithm g s = .error .negativeCycle ↔
      bfCheck (edgesOf g) (bfPassN (edgesOf g) (g.length - 1)
        (aset (initD g) s (Dist.fin 0)) (initP g)).1 = true) ∧
    (bellman_ford_algorithm negCycleGraph vA = .error .negativeCycle ∧
     bellman_ford_algorithm negCycleGraph vB = .error .negativeCycle ∧
     bellman_ford_algorithm negCycleGraph vC = .error .negativeCycle) ∧
    (WF g → s ∈ keys g → NoNegFrom g s →
      ∃ d p, bellman_ford_algorithm g s = .ok (d, p) ∧
        (∀ v steps, IsWalk g s steps v →
          dval d v ≤ Dist.fin (walkW steps)) ∧
        (∀ v, dval d v ≠ Dist.inf →
          ∃ steps, IsWalk g s steps v ∧
            Dist.fin (walkW steps) = dval d v)) := by
  refine ⟨bf_error_iff g s, ⟨by decide, by decide, by decide⟩, ?_⟩
  intro hw hs hng
  rcases bf_no_error hw hs hng with ⟨d, p, hok⟩
  have hgood := (bf_ok_goodT hok).1
  exact ⟨d, p, hok, fun v steps hwk => goodT_le_walk hgood hwk, hgood.2.2⟩

theorem claim_C2_witness :
    ∃ d p, bellman_ford_algorithm exampleGraph vA = .ok (d, p) ∧
      (∀ v steps, IsWalk exampleGraph vA steps v →
        dval d v ≤ Dist.fin (walkW steps)) ∧
      (∀ v, dval d v ≠ Dist.inf →
        ∃ steps, IsWalk exampleGraph vA steps v ∧
          Dist.fin (walkW steps) = dval d v) :=
  (claim_C2 exampleGraph vA).2.2 (by decide) (by decide)
    (noNegFrom_of_noNegCycle (noNegCycle_of_NN (by decide)) vA)

/-- C3 (corrected): on the example graph from source `A` both
single-source algorithms return the expected distances
`{A:0, B:3, C:5, D:9, E:11}`, but the reconstructed path to `D` is
`[A, B, D]` (weight 3 + 6 = 9), not the spec's `[A, B, C, D]`. -/
theorem claim_C3 :
    dijkstra_algorithm exampleGraph vA = some (.ok (exD, exP)) ∧
    bellman_ford_algorithm exampleGraph vA = .ok (exD, exP) ∧
    dval exD vA = Dist.fin 0 ∧ dval exD vB = Dist.fin 3 ∧
    dval exD vC = Dist.fin 5 ∧ dval exD vD = Dist.fin 9 ∧
    dval exD vE = Dist.fin 11 ∧
    reconstruct_path exP vD = some (.ok [vA, vB, vD]) ∧
    IsWalk exampleGraph vA [(vB, 3), (vD, 6)] vD ∧
    walkW [(vB, 3), (vD, 6)] = 9 :=
  ⟨by decide, by decide, by decide, by decide, by decide, by decide,
   by decide, by decide, by decide, by decide⟩

theorem claim_C3_counterexample :
    dijkstra_algorithm exampleGraph vA = some (.ok (exD, exP)) ∧
    reconstruct_path exP vD = some (.ok [vA, vB, vD]) ∧
    [vA, vB, vD] ≠ [vA, vB, vC, vD] :=
  ⟨by decide, by decide, by decide⟩

/-- C4 (corrected): with distinct keys, no parallel edges, no
self-loops and no negative cycle, every `floyd_warshall_algorithm` row
equals the `bellman_ford_algorithm` table from the row vertex.  (The
extra hypotheses are forced: a positive self-loop or a repeated ordered
pair makes the matrices differ, see the counterexample.) -/
theorem claim_C4 {α : Type} [DecidableEq α] (g : Graph α) (i : α)
    (hw : WF g) (hde : NoDupEdges g) (hnc : NoNegCycle g)
    (hsl : NoSelfLoop g) (hi : i ∈ keys g) :
    ∃ dm nm vs d p, floyd_warshall_algorithm g = .ok (dm, nm, vs) ∧
      bellman_ford_algorithm g i = .ok (d, p) ∧
      ∀ j, dm i j = dval d j := by
  have hne : g ≠ [] := by
    intro hc
    rw [hc] at hi
    exact absurd hi (List.not_mem_nil i)
  rcases fw_bf_agree hw hde hnc hsl hi with ⟨d, p, hok, hagree⟩
  exact ⟨_, _, _, d, p, fw_ok_elim hne, hok, hagree⟩

theorem claim_C4_witness :
    ∃ dm nm vs d p,
      floyd_warshall_algorithm exampleGraph = .ok (dm, nm, vs) ∧
      bellman_ford_algorithm exampleGraph vA = .ok (d, p) ∧
      ∀ j, dm vA j = dval d j :=
  claim_C4 exampleGraph vA (by decide) (by decide)
    (noNegCycle_of_NN (by decide)) (by decide) (by decide)

theorem claim_C4_counterexample :
    (NoNegCycle selfLoopGraph ∧
      (floyd_warshall_algorithm selfLoopGraph).map (fun t => t.1 vA vA) =
        .ok (Dist.fin 5) ∧
      (bellman_ford_algorithm selfLoopGraph vA).map
        (fun dp => dval dp.1 vA) = .ok (Dist.fin 0) ∧
      Dist.fin 5 ≠ Dist.fin 0) ∧
    (NoNegCycle multiEdge ∧
      (floyd_warshall_algorithm multiEdge).map (fun t => t.1 vA vB) =
        .ok (Dist.fin 5) ∧
      (bellman_ford_algorithm multiEdge vA).map (fun dp => dval dp.1 vB) =
        .ok (Dist.fin 2) ∧
      Dist.fin 5 ≠ Dist.fin 2) :=
  ⟨⟨noNegCycle_of_NN (by decide), by decide, by decide, by decide⟩,
   ⟨noNegCycle_of_NN (by decide), by decide, by decide, by decide⟩⟩

/-- C5 (corrected): with a source outside the vertex set,
`dijkstra_algorithm` raises a plain `KeyError` (not a distinct error
kind); `bellman_ford_algorithm` raises nothing and silently returns the
initial tables (every listed vertex at `inf`); reconstruction raises
`KeyError` for an unknown target or endpoint. -/
theorem claim_C5 {α : Type} [LinearOrder α] (g : Graph α) (s : α)
    (hs : s ∉ keys g) :
    dijkstra_algorithm g s = some (.error .keyError) ∧
    (bellman_ford_algorithm g s =
      .ok (aset (initD g) s (Dist.fin 0), initP g) ∧
      ∀ v ∈ keys g, dval (aset (initD g) s (Dist.fin 0)) v = Dist.inf) ∧
    (∀ p : PTable α, s ∉ p.map Prod.fst →
      reconstruct_path p s = some (.error .keyError)) ∧
    (∀ (nm : NMat α) (vs : List α) (e : α) (fuel : Nat), s ∉ vs →
      reconstruct_path_fw nm vs s e fuel = some (.error .keyError)) := by
  refine ⟨dijkstra_unknown_source g hs, bf_unknown_source g hs,
    fun p hp => reconstruct_unknown hp, ?_⟩
  intro nm vs e fuel hsv
  unfold reconstruct_path_fw
  rw [if_neg (fun hc : s ∈ vs ∧ e ∈ vs => hsv hc.1)]

theorem claim_C5_witness :
    vB ∉ keys [(vA, ([] : List (Nat × Int)))] ∧
    dijkstra_algorithm [(vA, ([] : List (Nat × Int)))] vB =
      some (.error .keyError) :=
  ⟨by decide, (claim_C5 [(vA, ([] : List (Nat × Int)))] vB (by decide)).1⟩

theorem claim_C5_counterexample :
    vB ∉ keys [(vA, ([] : List (Nat × Int)))] ∧
    bellman_ford_algorithm [(vA, ([] : List (Nat × Int)))] vB =
      .ok ([(vA, Dist.inf), (vB, Dist.fin 0)], [(vA, none)]) := by
  decide

/-- C6 (corrected): a listed vertex unreachable from the source gets
distance `inf` and predecessor `None` from both single-source
algorithms, but the reconstructed path is the one-element list `[v]`,
not the empty sequence. -/
theorem claim_C6 {α : Type} [LinearOrder α] (g : Graph α) (s v : α)
    (hv : v ∈ keys g) (hunr : ¬ Reachable g s v) :
    (∀ d p, bellman_ford_algorithm g s = .ok (d, p) →
      dval d v = Dist.inf ∧ pval p v = none ∧
        reconstruct_path p v = some (.ok [v])) ∧
    (∀ d p, dijkstra_algorithm g s = some (.ok (d, p)) →
      dval d v = Dist.inf ∧ pval p v = none ∧
        reconstruct_path p v = some (.ok [v])) := by
  constructor
  · intro d p hok
    have hg := bf_ok_goodT hok
    exact unreachable_report hg.1.2.2 hg.2 (bf_ok_pred_keys hok hv) hunr
  · intro d p hok
    have hok2 := hok
    unfold dijkstra_algorithm at hok2
    have hpart := dijkstraAux_partial (dijkstraFuel g) (pInv_init g s) hok2
    exact unreachable_report hpart.1 hpart.2.2
      (dijkstra_ok_pred_keys hok hv) hunr

theorem claim_C6_witness :
    dval [(vA, Dist.fin 0), (vB, Dist.inf)] vB = Dist.inf ∧
    pval [(vA, none), (vB, none)] vB = none ∧
    reconstruct_path [(vA, (none : Option Nat)), (vB, none)] vB =
      some (.ok [vB]) :=
  (claim_C6 twoIsolated vA vB (by decide) twoIsolated_unreachable).1
    [(vA, Dist.fin 0), (vB, Dist.inf)] [(vA, none), (vB, none)] (by decide)

theorem claim_C6_counterexample :
    ¬ Reachable twoIsolated vA vB ∧
    bellman_ford_algorithm twoIsolated vA =
      .ok ([(vA, Dist.fin 0), (vB, Dist.inf)], [(vA, none), (vB, none)]) ∧
    reconstruct_path [(vA, (none : Option Nat)), (vB, none)] vB =
      some (.ok [vB]) ∧
    [vB] ≠ ([] : List Nat) :=
  ⟨twoIsolated_unreachable, by decide, by decide, by decide⟩

/-- C7 (corrected): `floyd_warshall_algorithm` reports a zero diagonal
only on graphs with no self-loops at all and no negative cycles (a
positive self-loop overwrites the zero diagonal, and a negative cycle
drives it below zero); the single-source algorithms do report source
distance `0` under their respective no-negative-cycle and
non-negative-weight conditions. -/
theorem claim_C7 {α : Type} [LinearOrder α] (g : Graph α) (s : α) :
    ((keys g).Nodup → NoNegCycle g → NoSelfLoop g → g ≠ [] →
      ∀ v ∈ keys g, ∃ dm nm vs,
        floyd_warshall_algorithm g = .ok (dm, nm, vs) ∧
        dm v v = Dist.fin 0) ∧
    (NoNegFrom g s →
      ∀ d p, bellman_ford_algorithm g s = .ok (d, p) →
        dval d s = Dist.fin 0) ∧
    (NN g →
      ∀ d p, dijkstra_algorithm g s = some (.ok (d, p)) →
        dval d s = Dist.fin 0) := by
  refine ⟨?_, ?_, ?_⟩
  · intro hnd hnc hsl hne v hv
    exact ⟨_, _, _, fw_ok_elim hne, fw_diag_zero hnd hnc hsl hv⟩
  · intro hng d p hok
    have hg := (bf_ok_goodT hok).1
    exact goodT_src_zero hg (fun steps h => hng s ⟨[], rfl⟩ steps h)
  · intro hnn d p hok
    unfold dijkstra_algorithm at hok
    have hpart := dijkstraAux_partial (dijkstraFuel g) (pInv_init g s) hok
    exact src_zero_of_sound hpart.2.1 hpart.1
      (fun steps h => walkW_nonneg_of_NN hnn h)

theorem claim_C7_witness :
    ∃ dm nm vs, floyd_warshall_algorithm exampleGraph = .ok (dm, nm, vs) ∧
      dm vC vC = Dist.fin 0 :=
  (claim_C7 exampleGraph vA).1 (by decide) (noNegCycle_of_NN (by decide))
    (by decide) (by decide) vC (by decide)

theorem claim_C7_counterexample :
    (NoNegCycle selfLoopGraph ∧
      (floyd_warshall_algorithm selfLoopGraph).map (fun t => t.1 vA vA) =
        .ok (Dist.fin 5) ∧ Dist.fin 5 ≠ Dist.fin 0) ∧
    (NoSelfLoop negTwoCycle ∧
      (floyd_warshall_algorithm negTwoCycle).map (fun t => t.1 vA vA) =
        .ok (Dist.fin (-2)) ∧ Dist.fin (-2) ≠ Dist.fin 0) :=
  ⟨⟨noNegCycle_of_NN (by decide), by decide, by decide⟩,
   ⟨by decide, by decide, by decide⟩⟩

/-- C8: `floyd_warshall_algorithm` raises its `ValueError` exactly on
the empty vertex set, and returns matrices on every non-empty graph. -/
theorem claim_C8 {α : Type} [DecidableEq α] (g : Graph α) :
    (floyd_warshall_algorithm g = .error .emptyGraph ↔ keys g = []) ∧
    (keys g ≠ [] →
      ∃ dm nm vs, floyd_warshall_algorithm g = .ok (dm, nm, vs)) := by
  have hkeys : keys g = [] ↔ g = [] := by
    unfold keys
    exact List.map_eq_nil
  constructor
  · rw [hkeys]
    exact fw_error_iff g
  · intro hne
    have hgne : g ≠ [] := fun hc => hne (by rw [hc]; rfl)
    exact ⟨_, _, _, fw_ok_elim hgne⟩

theorem claim_C8_witness :
    (∃ dm nm vs, floyd_warshall_algorithm [(vA, ([] : List (Nat × Int)))] =
      .ok (dm, nm, vs)) ∧
    (floyd_warshall_algorithm ([] : Graph Nat) = .error .emptyGraph) :=
  ⟨(claim_C8 [(vA, ([] : List (Nat × Int)))]).2 (by decide),
   (claim_C8 ([] : Graph Nat)).1.2 (by decide)⟩

/-- C9 (corrected): a `None` next-hop entry reports the empty path; on
the matrices `floyd_warshall_algorithm` produces for a well-formed graph
without negative cycles, the forward pointer walk run with fuel `|V|`
terminates with a path of at most `|V|` vertices from `start` ending at
`end`; but for a corrupt matrix the walk runs forever (no fuel
suffices), so the claimed `|V|`-step bound is not a property of the
reconstruction code alone.  The spec's single-vertex expectation holds. -/
theorem claim_C9 {α : Type} [DecidableEq α] (g : Graph α) (s e : α)
    (hw : WF g) (hnc : NoNegCycle g) (hs : s ∈ keys g) (he : e ∈ keys g) :
    (∃ dm nm vs, floyd_warshall_algorithm g = .ok (dm, nm, vs) ∧
      ∃ r, reconstruct_path_fw nm vs s e vs.length = some (.ok r) ∧
        (nm s e = none → r = []) ∧
        (nm s e ≠ none → r.getLast? = some e ∧ r.length ≤ vs.length ∧
          r.head? = some s)) ∧
    (floyd_warshall_algorithm [(vA, ([] : List (Nat × Int)))]).map
      (fun t => (t.1 vA vA,
        reconstruct_path_fw t.2.1 t.2.2 vA vA t.2.2.length)) =
      .ok (Dist.fin 0, some (.ok [])) := by
  have hne : g ≠ [] := by
    intro hc
    rw [hc] at hs
    exact absurd hs (List.not_mem_nil s)
  refine ⟨⟨_, _, _, fw_ok_elim hne, ?_⟩, by decide⟩
  exact fw_reconstruct_terminates hw hnc hs he

theorem claim_C9_witness :
    ∃ dm nm vs, floyd_warshall_algorithm exampleGraph = .ok (dm, nm, vs) ∧
      ∃ r, reconstruct_path_fw nm vs vA vD vs.length = some (.ok r) ∧
        (nm vA vD = none → r = []) ∧
        (nm vA vD ≠ none → r.getLast? = some vD ∧ r.length ≤ vs.length ∧
          r.head? = some vA) :=
  (claim_C9 exampleGraph vA vD (by decide) (noNegCycle_of_NN (by decide))
    (by decide) (by decide)).1

theorem claim_C9_counterexample :
    nmBad vA vB = some vA ∧ vA ≠ vB ∧
    ∀ fuel, reconstruct_path_fw nmBad [vA, vB] vA vB fuel = none := by
  refine ⟨rfl, by decide, fun fuel => ?_⟩
  unfold reconstruct_path_fw
  rw [if_pos (by decide : vA ∈ [vA, vB] ∧ vB ∈ [vA, vB])]
  rw [show nmBad vA vB = some vA from rfl]
  exact nmBad_diverges fuel [vA]

/-- C10: the initialization of `floyd_warshall_algorithm` records, for a
repeated ordered pair, the weight of the last-listed edge (later entries
overwrite earlier ones), while `bellman_ford_algorithm` relaxes every
listed edge, so its final table is bounded by each parallel edge and
thus effectively uses the minimum; on `{A:[(B,2),(B,5)]}` the two
algorithms answer 5 and 2. -/
theorem claim_C10 {α : Type} [DecidableEq α] (g : Graph α)
    (hnd : (keys g).Nodup) :
    (∀ (x y : α) (w : Int) a1 a2, adjOf g x = a1 ++ (y, w) :: a2 →
      y ∉ a2.map Prod.fst → (fwInit g).1 x y = Dist.fin w) ∧
    (∀ s d p, bellman_ford_algorithm g s = .ok (d, p) →
      ∀ e ∈ edgesOf g, dval d e.2.1 ≤ dval d e.1 + Dist.fin e.2.2) ∧
    ((fwInit multiEdge).1 vA vB = Dist.fin 5 ∧
      (floyd_warshall_algorithm multiEdge).map (fun t => t.1 vA vB) =
        .ok (Dist.fin 5) ∧
      (bellman_ford_algorithm multiEdge vA).map (fun dp => dval dp.1 vB) =
        .ok (Dist.fin 2) ∧
      Dist.fin 5 ≠ Dist.fin 2) := by
  refine ⟨?_, ?_, by decide, by decide, by decide, by decide⟩
  · intro x y w a1 a2 hadj hnot
    refine fwInit_dist_some hnd ?_
    rw [hadj]
    exact lastW_last_occ a1 y w a2 hnot
  · intro s d p hok
    exact fun e he => (bf_ok_goodT hok).1.2.1 e he

theorem claim_C10_witness :
    (fwInit multiEdge).1 vA vB = Dist.fin 5 ∧
    (floyd_warshall_algorithm multiEdge).map (fun t => t.1 vA vB) =
      .ok (Dist.fin 5) ∧
    (bellman_ford_algorithm multiEdge vA).map (fun dp => dval dp.1 vB) =
      .ok (Dist.fin 2) ∧
    Dist.fin 5 ≠ Dist.fin 2 :=
  (claim_C10 multiEdge (by decide)).2.2

end Claims

end SPV
